import Mathlib

/-!
# chinadns-ng: DNS packet validator, name decoder and answer classifier

Shallow embedding of `src/chinadns-ng/dns.c` and `src/chinadns-ng/dns.h`.

* A buffer is a `List Nat` of bytes (values below 256); a C pointer into a
  buffer is the buffer together with an `Int` offset.
* Every memory access is checked: a read or write outside the buffer ends the
  run with `Outcome.oob`.
* `ssize_t` and `int` values are `Int`; the one subtraction whose operands are
  not range-checked beforehand (`dns_chnip_check`) wraps explicitly.
* The two `while`/`for` loops whose trip count is data dependent take a loop
  bound; `Outcome.nofuel` marks an exhausted bound and is proved unreachable.
-/

namespace Dns

/-! ## Constants of `dns.h` -/

def DNS_PACKET_MAXSIZE : Int := 1472
def sizeof_dns_header_t : Int := 12
def sizeof_dns_query_t : Int := 4
def sizeof_dns_record_t : Int := 10
def DNS_NAME_MAXLEN : Nat := 253
def DNS_NAME_ENC_MINLEN : Int := 1
def DNS_NAME_ENC_MAXLEN : Int := 255
def DNS_PACKET_MINSIZE : Int := sizeof_dns_header_t + DNS_NAME_ENC_MINLEN + sizeof_dns_query_t
def DNS_NAME_LABEL_MAXLEN : Nat := 63
def DNS_NAME_PTR_MINVAL : Nat := 192
def DNS_QR_QUERY : Nat := 0
def DNS_QR_REPLY : Nat := 1
def DNS_OPCODE_QUERY : Nat := 0
def DNS_CLASS_INTERNET : Nat := 1
def DNS_RECORD_TYPE_A : Nat := 1
def DNS_RECORD_TYPE_AAAA : Nat := 28
def DNS_IPCHK_IS_CHNIP : Int := 0
def DNS_IPCHK_NOT_CHNIP : Int := 1
def DNS_IPCHK_NOT_FOUND : Int := 2
def DNS_IPCHK_BAD_PACKET : Int := 3

/-- Modelled from the spec: `IPV4_BINADDR_LEN` of `net.h`, which is not part of
the sources; the spec fixes the data length of an A record to 4 bytes. -/
def IPV4_BINADDR_LEN : Nat := 4

/-- Modelled from the spec: `IPV6_BINADDR_LEN` of `net.h`, which is not part of
the sources; the spec fixes the data length of an AAAA record to 16 bytes. -/
def IPV6_BINADDR_LEN : Nat := 16

/-! ## Memory model -/

/-- Result of running a piece of the program. -/
inductive Outcome (α : Type) where
  | oob : Outcome α
  | nofuel : Outcome α
  | ret : α → Outcome α
deriving DecidableEq, Repr

/-- Read of the byte at offset `i`; `none` outside the buffer. -/
def rd (buf : List Nat) (i : Int) : Option Nat :=
  if i < 0 then none else buf[i.toNat]?

/-- Write of the byte at offset `i`; `none` outside the buffer. -/
def wr (buf : List Nat) (i : Int) (v : Nat) : Option (List Nat) :=
  if i < 0 then none
  else if i.toNat < buf.length then some (buf.set i.toNat v) else none

/-- Big-endian 16-bit field at offset `i`, as `ntohs` of the packed field reads it. -/
def rd16 (buf : List Nat) (i : Int) : Option Nat :=
  match rd buf i with
  | none => none
  | some hi =>
    match rd buf (i + 1) with
    | none => none
    | some lo => some (hi * 256 + lo)

/-- The `n` bytes starting at offset `i`. -/
def rdN (buf : List Nat) (i : Int) : Nat → Option (List Nat)
  | 0 => some []
  | n + 1 =>
    match rd buf i with
    | none => none
    | some b =>
      match rdN buf (i + 1) n with
      | none => none
      | some bs => some (b :: bs)

/-- Bit field `qr` of the header: the top bit of byte 2. -/
def hdr_qr (b2 : Nat) : Nat := b2 / 128 % 2

/-- Bit field `opcode` of the header: bits 3..6 of byte 2. -/
def hdr_opcode (b2 : Nat) : Nat := b2 / 8 % 16

/-- Library `memchr(s, 0, n)`: offset of the first zero byte among the `n`
bytes from offset `s`, scanning upwards and stopping at the first match. -/
def memchr0 (buf : List Nat) (s : Int) : Nat → Outcome (Option Int)
  | 0 => .ret none
  | n + 1 =>
    match rd buf s with
    | none => .oob
    | some b => if b = 0 then .ret (some s) else memchr0 buf (s + 1) n

/-- Library `memcpy(dst + d, src + s, n)`, byte by byte. -/
def memcpy (dst : List Nat) (d : Int) (buf : List Nat) (s : Int) : Nat → Option (List Nat)
  | 0 => some dst
  | n + 1 =>
    match rd buf s with
    | none => none
    | some b =>
      match wr dst d b with
      | none => none
      | some dst1 => memcpy dst1 (d + 1) buf (s + 1) n

/-! ## `decode_name` -/

/-- The `for (int first = 1; len >= 2;)` loop of `decode_name`: `out` is the
output buffer with write position `o`, `src` the read position in `buf`. -/
def decode_loop (buf : List Nat) :
    Nat → Bool → List Nat → Int → Int → Int → Outcome (Bool × List Nat)
  | 0, _, out, _, _, len =>
    if len ≥ 2 then .nofuel
    else if len ≠ 0 then .ret (false, out) else .ret (true, out)
  | fuel + 1, first, out, o, src, len =>
    if len ≥ 2 then
      match (if first then some (out, o) else (wr out o 46).map (fun w => (w, o + 1))) with
      | none => .oob
      | some (out1, o1) =>
        match rd buf src with
        | none => .oob
        | some label_len =>
          let len1 := len - 1
          if label_len < 1 then .ret (false, out1)
          else if label_len > DNS_NAME_LABEL_MAXLEN then .ret (false, out1)
          else if (label_len : Int) > len1 then .ret (false, out1)
          else decode_loop buf fuel false out1 (o1 + label_len) (src + 1 + label_len)
                 (len1 - label_len)
    else if len ≠ 0 then .ret (false, out) else .ret (true, out)

/-- The function `decode_name(out, src, len)`; `src` is an offset into `buf`. The result
is the returned flag and the output buffer as the call leaves it. -/
def decode_name (out : List Nat) (buf : List Nat) (src : Int) (len : Int) :
    Outcome (Bool × List Nat) :=
  if len ≤ DNS_NAME_ENC_MINLEN then
    match wr out 0 46 with
    | none => .oob
    | some out1 =>
      match wr out1 1 0 with
      | none => .oob
      | some out2 => .ret (true, out2)
  else
    let len1 := len - 1
    match memcpy out 0 buf (src + 1) len1.toNat with
    | none => .oob
    | some out1 => decode_loop buf len1.toNat true out1 0 src len1

/-! ## `check_packet` -/

/-- What a call of `check_packet` leaves behind: the returned flag, the name
buffer (when one was passed) and the cell behind `p_namelen` (when one was
passed). -/
structure Ret where
  ok : Bool
  name_buf : Option (List Nat)
  p_namelen : Option Int
deriving DecidableEq, Repr

/-- The function `check_packet`. `name_buf = none` and `p_namelen = none` stand for null
pointers; `p_namelen = some v` is a cell currently holding `v`. -/
def check_packet (is_query : Bool) (buf : List Nat) (packet_len : Int)
    (name_buf : Option (List Nat)) (p_namelen : Option Int) : Outcome Ret :=
  if packet_len < DNS_PACKET_MINSIZE then .ret ⟨false, name_buf, p_namelen⟩
  else if packet_len > DNS_PACKET_MAXSIZE then .ret ⟨false, name_buf, p_namelen⟩
  else
    match rd buf 2 with
    | none => .oob
    | some b2 =>
      if hdr_qr b2 ≠ (if is_query then DNS_QR_QUERY else DNS_QR_REPLY) then
        .ret ⟨false, name_buf, p_namelen⟩
      else if hdr_opcode b2 ≠ DNS_OPCODE_QUERY then .ret ⟨false, name_buf, p_namelen⟩
      else
        match rd16 buf 4 with
        | none => .oob
        | some question_count =>
          if question_count ≠ 1 then .ret ⟨false, name_buf, p_namelen⟩
          else
            let packet_buf1 : Int := sizeof_dns_header_t
            let packet_len1 : Int := packet_len - sizeof_dns_header_t
            match memchr0 buf packet_buf1 packet_len1.toNat with
            | .oob => .oob
            | .nofuel => .nofuel
            | .ret none => .ret ⟨false, name_buf, p_namelen⟩
            | .ret (some p) =>
              let namelen : Int := p + 1 - packet_buf1
              if namelen < DNS_NAME_ENC_MINLEN then .ret ⟨false, name_buf, p_namelen⟩
              else if namelen > DNS_NAME_ENC_MAXLEN then .ret ⟨false, name_buf, p_namelen⟩
              else
                let decoded : Outcome (Bool × Option (List Nat)) :=
                  match name_buf with
                  | none => .ret (true, none)
                  | some out =>
                    match decode_name out buf packet_buf1 namelen with
                    | .oob => .oob
                    | .nofuel => .nofuel
                    | .ret (ok, out1) => .ret (ok, some out1)
                match decoded with
                | .oob => .oob
                | .nofuel => .nofuel
                | .ret (false, name_buf1) => .ret ⟨false, name_buf1, p_namelen⟩
                | .ret (true, name_buf1) =>
                  let p_namelen1 := p_namelen.map (fun _ => namelen)
                  let packet_buf2 := packet_buf1 + namelen
                  let packet_len2 := packet_len1 - namelen
                  if packet_len2 < sizeof_dns_query_t then .ret ⟨false, name_buf1, p_namelen1⟩
                  else
                    match rd16 buf (packet_buf2 + 2) with
                    | none => .oob
                    | some qclass =>
                      if qclass ≠ DNS_CLASS_INTERNET then .ret ⟨false, name_buf1, p_namelen1⟩
                      else .ret ⟨true, name_buf1, p_namelen1⟩

/-- The function `dns_query_check`. -/
def dns_query_check (buf : List Nat) (packet_len : Int)
    (name_buf : Option (List Nat)) (p_namelen : Option Int) : Outcome Ret :=
  check_packet true buf packet_len name_buf p_namelen

/-- The function `dns_reply_check`. -/
def dns_reply_check (buf : List Nat) (packet_len : Int)
    (name_buf : Option (List Nat)) (p_namelen : Option Int) : Outcome Ret :=
  check_packet false buf packet_len name_buf p_namelen

/-! ## `skip_name` and `dns_chnip_check` -/

/-- The `while (len > 0)` loop of `skip_name` followed by the check of the remaining
length; on success the advanced cursor `(ptr, len)`. -/
def skip_loop (buf : List Nat) : Nat → Int → Int → Outcome (Option (Int × Int))
  | 0, ptr, len =>
    if len > 0 then .nofuel
    else if len < sizeof_dns_record_t then .ret none else .ret (some (ptr, len))
  | fuel + 1, ptr, len =>
    if len > 0 then
      match rd buf ptr with
      | none => .oob
      | some label_len =>
        if label_len = 0 then
          if len - 1 < sizeof_dns_record_t then .ret none else .ret (some (ptr + 1, len - 1))
        else if label_len ≥ DNS_NAME_PTR_MINVAL then
          if len - 2 < sizeof_dns_record_t then .ret none else .ret (some (ptr + 2, len - 2))
        else if label_len ≤ DNS_NAME_LABEL_MAXLEN then
          skip_loop buf fuel (ptr + (1 + label_len)) (len - (1 + label_len))
        else .ret none
    else if len < sizeof_dns_record_t then .ret none else .ret (some (ptr, len))

/-- The function `skip_name(&ptr, &len)`: `none` is the `false` return, `some` the cursor
written back on the `true` return. -/
def skip_name (buf : List Nat) (ptr : Int) (len : Int) : Outcome (Option (Int × Int)) :=
  skip_loop buf len.toNat ptr len

/-- Conversion of a 64-bit unsigned difference back to `ssize_t`. -/
def to_ssize_t (x : Int) : Int :=
  (x + 9223372036854775808) % 18446744073709551616 - 9223372036854775808

/-- The `for (uint16_t i = 0; i < answer_count; ++i)` loop of `dns_chnip_check`; the
first argument is `answer_count - i`. -/
def chnip_loop (ipset_addr_is_exists : List Nat → Bool → Bool) (buf : List Nat) :
    Nat → Int → Int → Outcome Int
  | 0, _, _ => .ret DNS_IPCHK_NOT_FOUND
  | n + 1, packet_buf, packet_len =>
    match skip_name buf packet_buf packet_len with
    | .oob => .oob
    | .nofuel => .nofuel
    | .ret none => .ret DNS_IPCHK_BAD_PACKET
    | .ret (some (packet_buf1, packet_len1)) =>
      match rd16 buf (packet_buf1 + 2) with
      | none => .oob
      | some rclass =>
        if rclass ≠ DNS_CLASS_INTERNET then .ret DNS_IPCHK_BAD_PACKET
        else
          match rd16 buf (packet_buf1 + 8) with
          | none => .oob
          | some rdatalen =>
            let recordlen : Int := sizeof_dns_record_t + rdatalen
            if packet_len1 < recordlen then .ret DNS_IPCHK_BAD_PACKET
            else
              match rd16 buf packet_buf1 with
              | none => .oob
              | some rtype =>
                if rtype = DNS_RECORD_TYPE_A then
                  if rdatalen ≠ IPV4_BINADDR_LEN then .ret DNS_IPCHK_BAD_PACKET
                  else
                    match rdN buf (packet_buf1 + sizeof_dns_record_t) IPV4_BINADDR_LEN with
                    | none => .oob
                    | some rdata =>
                      .ret (if ipset_addr_is_exists rdata true then DNS_IPCHK_IS_CHNIP
                            else DNS_IPCHK_NOT_CHNIP)
                else if rtype = DNS_RECORD_TYPE_AAAA then
                  if rdatalen ≠ IPV6_BINADDR_LEN then .ret DNS_IPCHK_BAD_PACKET
                  else
                    match rdN buf (packet_buf1 + sizeof_dns_record_t) IPV6_BINADDR_LEN with
                    | none => .oob
                    | some rdata =>
                      .ret (if ipset_addr_is_exists rdata false then DNS_IPCHK_IS_CHNIP
                            else DNS_IPCHK_NOT_CHNIP)
                else chnip_loop ipset_addr_is_exists buf n (packet_buf1 + recordlen)
                       (packet_len1 - recordlen)

/-- The function `dns_chnip_check(packet_buf, packet_len, namelen)`. The external predicate
`ipset_addr_is_exists(addr, is_ipv4)` is a parameter; it receives the 4 or 16
address bytes it reads through the pointer `record->rdata`. -/
def dns_chnip_check (ipset_addr_is_exists : List Nat → Bool → Bool) (buf : List Nat)
    (packet_len : Int) (namelen : Int) : Outcome Int :=
  match rd16 buf 6 with
  | none => .oob
  | some answer_count =>
    let skip : Int := sizeof_dns_header_t + namelen + sizeof_dns_query_t
    chnip_loop ipset_addr_is_exists buf answer_count skip (to_ssize_t (packet_len - skip))

/-- The macro `dns_ascii_namelen(namelen)`. -/
def dns_ascii_namelen (namelen : Int) : Int :=
  let n := namelen - 2
  if n > 0 then n else 0

/-- Length of the NUL-terminated string at the start of a buffer (`strlen`); `none` when
no NUL byte is found inside the buffer. -/
def strlen : List Nat → Option Nat
  | [] => none
  | b :: bs => if b = 0 then some 0 else (strlen bs).map (· + 1)

/-! ## Test packets -/

/-- Header bytes: id 0x1234, flags byte `b2`, question count `qd`, answer count `an`. -/
def mkHeader (b2 qd an : Nat) : List Nat :=
  [0x12, 0x34, b2, 0, qd / 256, qd % 256, an / 256, an % 256, 0, 0, 0, 0]

/-- The encoded name `\3www\6google\3com\0`. -/
def wwwGoogleCom : List Nat :=
  [3, 119, 119, 119, 6, 103, 111, 111, 103, 108, 101, 3, 99, 111, 109, 0]

/-- Query for `www.google.com`, type A, class INTERNET. -/
def queryPacket : List Nat := mkHeader 1 1 0 ++ wwwGoogleCom ++ [0, 1, 0, 1]

/-! ## Vocabulary of the specification -/

/-- Byte at index `i` of a buffer (0 outside). -/
def byte (buf : List Nat) (i : Nat) : Nat := buf.getD i 0

/-- Big-endian 16-bit value held at indices `i`, `i+1`. -/
def be16 (buf : List Nat) (i : Nat) : Nat := byte buf i * 256 + byte buf (i + 1)

/-- Header conditions checked by `check_packet` for direction `q`. -/
def HdrOk (q : Bool) (buf : List Nat) (len : Int) : Prop :=
  17 ≤ len ∧ len ≤ 1472 ∧ hdr_qr (byte buf 2) = (if q then 0 else 1) ∧
    hdr_opcode (byte buf 2) = 0 ∧ be16 buf 4 = 1

/-- Offset `k`, counted from offset 12, of the first zero byte among offsets `12..len-1`. -/
def FirstZero (buf : List Nat) (len : Int) (k : Nat) : Prop :=
  (12 + k : Int) < len ∧ byte buf (12 + k) = 0 ∧ ∀ j, j < k → byte buf (12 + j) ≠ 0

/-- The part of `check_packet` after the name: remaining length and class. -/
def question_tail (buf : List Nat) (len : Int) (k : Nat) (nb : Option (List Nat))
    (pn : Option Int) : Ret :=
  if len - 12 - (k + 1) < 4 then ⟨false, nb, pn.map (fun _ => (k : Int) + 1)⟩
  else if be16 buf (12 + k + 3) ≠ 1 then ⟨false, nb, pn.map (fun _ => (k : Int) + 1)⟩
  else ⟨true, nb, pn.map (fun _ => (k : Int) + 1)⟩

/-- Acceptance condition of the validator called without a name buffer, for the required
value `qr` of the response bit. -/
def Accepts (qr : Nat) (buf : List Nat) (len : Int) : Prop :=
  17 ≤ len ∧ len ≤ 1472 ∧ byte buf 2 / 128 % 2 = qr ∧ byte buf 2 / 8 % 16 = 0 ∧
  byte buf 4 * 256 + byte buf 5 = 1 ∧
  ∃ k, FirstZero buf len k ∧ k + 1 ≤ 255 ∧ len - 12 - ((k : Int) + 1) ≥ 4 ∧
    byte buf (12 + k + 3) * 256 + byte buf (12 + k + 4) = 1

/-- The `n` bytes of a buffer from index `s`. -/
def slice (buf : List Nat) (s n : Nat) : List Nat := (buf.drop s).take n

/-- Wire encoding of a list of labels, each preceded by its length byte, without the
terminating zero byte. -/
def encLabels : List (List Nat) → List Nat
  | [] => []
  | l :: ls => l.length :: l ++ encLabels ls

/-- Wire encoding of a name: the labels, then one terminating zero byte. -/
def encodeName (ls : List (List Nat)) : List Nat := encLabels ls ++ [0]

/-- Every label has 1..63 bytes. -/
def ValidLabels (ls : List (List Nat)) : Prop := ∀ l ∈ ls, 1 ≤ l.length ∧ l.length ≤ 63

/-- The labels, each preceded by a dot. -/
def dotLabels : List (List Nat) → List Nat
  | [] => []
  | l :: ls => 46 :: l ++ dotLabels ls

/-- The labels joined by dots. -/
def joinLabels : List (List Nat) → List Nat
  | [] => []
  | l :: ls => l ++ dotLabels ls

/-- The bytes split exactly into consecutive labels, each a length byte in 1..63 followed by
that many bytes. -/
def SplitsIntoLabels (bs : List Nat) : Prop := ∃ ls, ValidLabels ls ∧ encLabels ls = bs

/-- What can follow complete labels and make the decoder fail: a label length byte that is 0,
above 63 or above the number of bytes left after it, or exactly one leftover byte. -/
def BadRest (rest : List Nat) : Prop :=
  rest.length = 1 ∨ ∃ b rest1, rest = b :: rest1 ∧ (b = 0 ∨ b > 63 ∨ b > rest1.length)

/-- The ASCII name `www.google.com`. -/
def wwwGoogleComAscii : List Nat := "www.google.com".toList.map Char.toNat

/-- The record whose name starts at cursor `(ptr, len)`, when its name is skippable: offset
of its fixed fields, the length remaining there, then type, class and data length. -/
def record_at (buf : List Nat) (ptr len : Int) : Option (Int × Int × Nat × Nat × Nat) :=
  match skip_name buf ptr len with
  | .ret (some (h, l)) =>
    match rd16 buf h, rd16 buf (h + 2), rd16 buf (h + 8) with
    | some t, some c, some d => some (h, l, t, c, d)
    | _, _, _ => none
  | _ => none

/-- Cursor reached from `(ptr, len)` after `j` records that each have a skippable name,
class 1, a type other than A (1) and AAAA (28), and `10 + rdatalen` bytes inside the
remaining length. -/
def after_records (buf : List Nat) : Nat → Int → Int → Option (Int × Int)
  | 0, ptr, len => some (ptr, len)
  | j + 1, ptr, len =>
    match record_at buf ptr len with
    | some (h, l, t, c, d) =>
      if c = 1 ∧ t ≠ 1 ∧ t ≠ 28 ∧ (10 + d : Int) ≤ l then
        after_records buf j (h + (10 + d)) (l - (10 + d))
      else none
    | none => none

/-- Reply for `www.google.com` with two answers: a CNAME record and an A record `1.2.3.4`,
both named by a compression pointer. -/
def replyPacket : List Nat :=
  mkHeader 0x81 1 2 ++ wwwGoogleCom ++ [0, 1, 0, 1] ++
    [0xC0, 0x0C, 0, 5, 0, 1, 0, 0, 0, 60, 0, 2, 0xC0, 0x0C] ++
    [0xC0, 0x0C, 0, 1, 0, 1, 0, 0, 0, 60, 0, 4, 1, 2, 3, 4]

/-- A membership predicate used on test packets: the IPv4 address `1.2.3.4` only. -/
def testIpset (addr : List Nat) (is_ipv4 : Bool) : Bool := is_ipv4 && addr == [1, 2, 3, 4]

/-- An encoded name of 255 bytes: three labels of 63 bytes, one of 61, the terminator. -/
def longName : List Nat :=
  63 :: List.replicate 63 97 ++ (63 :: List.replicate 63 97 ++
    (63 :: List.replicate 63 97 ++ (61 :: List.replicate 61 97 ++ [0])))

/-- Query whose name is `longName`. -/
def longQuery : List Nat := mkHeader 1 1 0 ++ longName ++ [0, 1, 0, 1]

/-- Query whose name starts with the length byte 64. -/
def badLabelQuery : List Nat := mkHeader 1 1 0 ++ [64, 97, 0] ++ [0, 1, 0, 1]

/-- Query for the root name. -/
def rootQuery : List Nat := mkHeader 1 1 0 ++ [0] ++ [0, 1, 0, 1]

/-- A reply cut after 16 bytes: header with answer count 0, then 4 more bytes. -/
def truncatedReply : List Nat := mkHeader 0x81 1 0 ++ [0, 0, 1, 0]

/-- The `www.google.com` query with the question count set to 2. -/
def twoQuestionQuery : List Nat := mkHeader 1 2 0 ++ wwwGoogleCom ++ [0, 1, 0, 1]

/-- The four labels of `longName`. -/
def longLabels : List (List Nat) :=
  [List.replicate 63 97, List.replicate 63 97, List.replicate 63 97, List.replicate 61 97]

/-- Reply whose only answer is an A record with data length 3. -/
def shortAReply : List Nat :=
  mkHeader 0x81 1 1 ++ wwwGoogleCom ++ [0, 1, 0, 1] ++
    [0xC0, 0x0C, 0, 1, 0, 1, 0, 0, 0, 60, 0, 3, 1, 2, 3]

/-- Reply whose only answer is an A record of class 3 with 4 data bytes. -/
def chaosClassReply : List Nat :=
  mkHeader 0x81 1 1 ++ wwwGoogleCom ++ [0, 1, 0, 1] ++
    [0xC0, 0x0C, 0, 1, 0, 3, 0, 0, 0, 60, 0, 4, 1, 2, 3, 4]

/-- Reply whose only answer is a CNAME record. -/
def cnameReply : List Nat :=
  mkHeader 0x81 1 1 ++ wwwGoogleCom ++ [0, 1, 0, 1] ++
    [0xC0, 0x0C, 0, 5, 0, 1, 0, 0, 0, 60, 0, 2, 0xC0, 0x0C]

/-- The `www.google.com` query with another identifier, other aa/tc/rd bits, another
ra/z/rcode byte and other answer, authority and additional counts. -/
def queryPacketOtherHeader : List Nat :=
  [0xAB, 0xCD, 7, 0x8F, 0, 1, 0, 9, 0, 8, 0, 7] ++ wwwGoogleCom ++ [0, 1, 0, 1]

/-- The name at index `ptr` is skippable within the remaining length `len`, consuming `c`
bytes: zero or more ordinary labels (length byte in 1..63 followed by that many bytes),
then a zero byte (1 byte consumed) or a byte of at least 192 (2 bytes consumed), every
inspected length byte at an offset below `len`, and `len - c ≥ 10`. -/
def SkippableName (buf : List Nat) (ptr : Nat) (len : Int) (c : Nat) : Prop :=
  ∃ (ls : List (List Nat)) (t : Nat) (rest : List Nat), ValidLabels ls ∧
    buf.drop ptr = encLabels ls ++ t :: rest ∧ (t = 0 ∨ t ≥ 192) ∧
    c = (encLabels ls).length + (if t = 0 then 1 else 2) ∧
    ((encLabels ls).length : Int) < len ∧ len - (c : Int) ≥ 10

/-! ## `decode_name` and `check_packet` with the message they log -/

/-- The error messages that `decode_name` and `check_packet` pass to `LOGE`, one per
rejection. -/
inductive LogMsg where
  | packet_too_short
  | packet_too_long
  | wrong_qr
  | not_standard_query
  | question_count
  | end_byte_not_found
  | name_too_short
  | name_too_long
  | label_too_short
  | label_too_long
  | label_exceeds_remaining
  | name_format_error
  | remaining_too_short
  | wrong_query_class
deriving DecidableEq, Repr

/-- The messages logged by `decode_name`. -/
def LogMsg.fromDecoder : LogMsg → Bool
  | .label_too_short => true
  | .label_too_long => true
  | .label_exceeds_remaining => true
  | .name_format_error => true
  | _ => false

/-- Change of the returned value of a run. -/
def Outcome.map {α β : Type} (f : α → β) : Outcome α → Outcome β
  | .oob => .oob
  | .nofuel => .nofuel
  | .ret a => .ret (f a)

/-- The loop of `decode_name` as in `decode_loop`, returning in addition the message
logged when it fails. -/
def decode_loop_log (buf : List Nat) :
    Nat → Bool → List Nat → Int → Int → Int → Outcome ((Bool × List Nat) × Option LogMsg)
  | 0, _, out, _, _, len =>
    if len ≥ 2 then .nofuel
    else if len ≠ 0 then .ret ((false, out), some .name_format_error)
    else .ret ((true, out), none)
  | fuel + 1, first, out, o, src, len =>
    if len ≥ 2 then
      match (if first then some (out, o) else (wr out o 46).map (fun w => (w, o + 1))) with
      | none => .oob
      | some (out1, o1) =>
        match rd buf src with
        | none => .oob
        | some label_len =>
          let len1 := len - 1
          if label_len < 1 then .ret ((false, out1), some .label_too_short)
          else if label_len > DNS_NAME_LABEL_MAXLEN then
            .ret ((false, out1), some .label_too_long)
          else if (label_len : Int) > len1 then
            .ret ((false, out1), some .label_exceeds_remaining)
          else decode_loop_log buf fuel false out1 (o1 + label_len) (src + 1 + label_len)
                 (len1 - label_len)
    else if len ≠ 0 then .ret ((false, out), some .name_format_error)
    else .ret ((true, out), none)

/-- The function `decode_name` as in the definition above, returning in addition the message
logged when it fails. -/
def decode_name_log (out : List Nat) (buf : List Nat) (src : Int) (len : Int) :
    Outcome ((Bool × List Nat) × Option LogMsg) :=
  if len ≤ DNS_NAME_ENC_MINLEN then
    match wr out 0 46 with
    | none => .oob
    | some out1 =>
      match wr out1 1 0 with
      | none => .oob
      | some out2 => .ret ((true, out2), none)
  else
    let len1 := len - 1
    match memcpy out 0 buf (src + 1) len1.toNat with
    | none => .oob
    | some out1 => decode_loop_log buf len1.toNat true out1 0 src len1

/-- The function `check_packet` as in the definition above, returning in addition the
message logged when it rejects the packet. -/
def check_packet_log (is_query : Bool) (buf : List Nat) (packet_len : Int)
    (name_buf : Option (List Nat)) (p_namelen : Option Int) : Outcome (Ret × Option LogMsg) :=
  if packet_len < DNS_PACKET_MINSIZE then
    .ret (⟨false, name_buf, p_namelen⟩, some .packet_too_short)
  else if packet_len > DNS_PACKET_MAXSIZE then
    .ret (⟨false, name_buf, p_namelen⟩, some .packet_too_long)
  else
    match rd buf 2 with
    | none => .oob
    | some b2 =>
      if hdr_qr b2 ≠ (if is_query then DNS_QR_QUERY else DNS_QR_REPLY) then
        .ret (⟨false, name_buf, p_namelen⟩, some .wrong_qr)
      else if hdr_opcode b2 ≠ DNS_OPCODE_QUERY then
        .ret (⟨false, name_buf, p_namelen⟩, some .not_standard_query)
      else
        match rd16 buf 4 with
        | none => .oob
        | some question_count =>
          if question_count ≠ 1 then .ret (⟨false, name_buf, p_namelen⟩, some .question_count)
          else
            let packet_buf1 : Int := sizeof_dns_header_t
            let packet_len1 : Int := packet_len - sizeof_dns_header_t
            match memchr0 buf packet_buf1 packet_len1.toNat with
            | .oob => .oob
            | .nofuel => .nofuel
            | .ret none => .ret (⟨false, name_buf, p_namelen⟩, some .end_byte_not_found)
            | .ret (some p) =>
              let namelen : Int := p + 1 - packet_buf1
              if namelen < DNS_NAME_ENC_MINLEN then
                .ret (⟨false, name_buf, p_namelen⟩, some .name_too_short)
              else if namelen > DNS_NAME_ENC_MAXLEN then
                .ret (⟨false, name_buf, p_namelen⟩, some .name_too_long)
              else
                let decoded : Outcome ((Bool × Option (List Nat)) × Option LogMsg) :=
                  match name_buf with
                  | none => .ret ((true, none), none)
                  | some out =>
                    match decode_name_log out buf packet_buf1 namelen with
                    | .oob => .oob
                    | .nofuel => .nofuel
                    | .ret ((ok, out1), msg) => .ret ((ok, some out1), msg)
                match decoded with
                | .oob => .oob
                | .nofuel => .nofuel
                | .ret ((false, name_buf1), msg) => .ret (⟨false, name_buf1, p_namelen⟩, msg)
                | .ret ((true, name_buf1), _) =>
                  let p_namelen1 := p_namelen.map (fun _ => namelen)
                  let packet_buf2 := packet_buf1 + namelen
                  let packet_len2 := packet_len1 - namelen
                  if packet_len2 < sizeof_dns_query_t then
                    .ret (⟨false, name_buf1, p_namelen1⟩, some .remaining_too_short)
                  else
                    match rd16 buf (packet_buf2 + 2) with
                    | none => .oob
                    | some qclass =>
                      if qclass ≠ DNS_CLASS_INTERNET then
                        .ret (⟨false, name_buf1, p_namelen1⟩, some .wrong_query_class)
                      else .ret (⟨true, name_buf1, p_namelen1⟩, none)

/-- The `j` records from index `ptr`, with `len` bytes remaining, each have a skippable name,
class 1, a type other than A (1) and AAAA (28), and `10 + rdatalen` bytes inside the
remaining length. Stated on the bytes of the buffer: `c` is the size of the record's
name, followed by type, class, ttl and data length at `ptr + c`. -/
def SkippableRecords (buf : List Nat) : Nat → Nat → Int → Prop
  | 0, _, _ => True
  | j + 1, ptr, len =>
    ∃ c : Nat, SkippableName buf ptr len c ∧
      be16 buf (ptr + c + 2) = 1 ∧ be16 buf (ptr + c) ≠ 1 ∧ be16 buf (ptr + c) ≠ 28 ∧
      (10 + be16 buf (ptr + c + 8) : Int) ≤ len - c ∧
      SkippableRecords buf j (ptr + c + (10 + be16 buf (ptr + c + 8)))
        (len - c - (10 + be16 buf (ptr + c + 8)))

/-- Reply for `www.google.com` without any answer record. -/
def emptyReply : List Nat := mkHeader 0x81 1 0 ++ wwwGoogleCom ++ [0, 1, 0, 1]

/-! ## Theorems -/

theorem rd_nat (buf : List Nat) (i : Nat) (h : i < buf.length) :
    rd buf (i : Int) = some (byte buf i) := by
  unfold rd byte
  have : ¬ ((i : Int) < 0) := by omega
  simp [this, List.getD, List.getElem?_eq_getElem h]

theorem rd_int (buf : List Nat) (i : Int) (h0 : 0 ≤ i) (h : i < buf.length) :
    rd buf i = some (byte buf i.toNat) := by
  have := rd_nat buf i.toNat (by omega)
  rwa [Int.toNat_of_nonneg h0] at this

theorem rd16_int (buf : List Nat) (i : Int) (h0 : 0 ≤ i) (h : i + 1 < buf.length) :
    rd16 buf i = some (be16 buf i.toNat) := by
  unfold rd16
  rw [rd_int buf i h0 (by omega), rd_int buf (i + 1) (by omega) h]
  simp only [be16]
  have : (i + 1).toNat = i.toNat + 1 := by omega
  rw [this]

theorem memchr0_spec (buf : List Nat) (n : Nat) : ∀ s : Nat, s + n ≤ buf.length →
    (∃ k, k < n ∧ memchr0 buf (s : Int) n = .ret (some ((s : Int) + k)) ∧ byte buf (s + k) = 0 ∧
        ∀ j, j < k → byte buf (s + j) ≠ 0) ∨
    (memchr0 buf (s : Int) n = .ret none ∧ ∀ j, j < n → byte buf (s + j) ≠ 0) := by
  induction n with
  | zero => intro s _; right; simp [memchr0]
  | succ n ih =>
    intro s hs
    rw [memchr0, rd_nat buf s (by omega)]
    by_cases hb : byte buf s = 0
    · left
      refine ⟨0, by omega, by simp [hb], by simpa using hb, by intro j hj; omega⟩
    · simp only [hb, if_false]
      have e : (s : Int) + 1 = ((s + 1 : Nat) : Int) := by push_cast; ring
      rw [e]
      rcases ih (s + 1) (by omega) with ⟨k, hk, h1, h2, h3⟩ | ⟨h1, h2⟩
      · left
        refine ⟨k + 1, by omega, ?_, ?_, ?_⟩
        · rw [h1]; push_cast; congr 2; ring
        · rw [← h2]; congr 1; omega
        · intro j hj
          rcases j with _ | j
          · simpa using hb
          · have := h3 j (by omega)
            rw [show s + (j + 1) = s + 1 + j by omega]; exact this
      · right
        refine ⟨h1, ?_⟩
        intro j hj
        rcases j with _ | j
        · simpa using hb
        · have := h2 j (by omega)
          rw [show s + (j + 1) = s + 1 + j by omega]; exact this

theorem FirstZero_unique {buf : List Nat} {len : Int} {k k2 : Nat}
    (h : FirstZero buf len k) (h2 : FirstZero buf len k2) : k = k2 := by
  rcases Nat.lt_trichotomy k k2 with hlt | heq | hgt
  · exact absurd h.2.1 (h2.2.2 k hlt)
  · exact heq
  · exact absurd h2.2.1 (h.2.2 k2 hgt)

theorem check_packet_hdr_fail (q : Bool) (buf : List Nat) (len : Int) (nb : Option (List Nat))
    (pn : Option Int) (hlen : len ≤ buf.length) (h : ¬ HdrOk q buf len) :
    check_packet q buf len nb pn = .ret ⟨false, nb, pn⟩ := by
  unfold check_packet
  simp only [DNS_PACKET_MINSIZE, DNS_PACKET_MAXSIZE, sizeof_dns_header_t, DNS_NAME_ENC_MINLEN,
    sizeof_dns_query_t, DNS_QR_QUERY, DNS_QR_REPLY, DNS_OPCODE_QUERY]
  by_cases h1 : len < 12 + 1 + 4
  · rw [if_pos h1]
  by_cases h2 : len > 1472
  · rw [if_neg h1, if_pos h2]
  rw [if_neg h1, if_neg h2]
  have r2 := rd_int buf 2 (by omega) (by omega)
  have r4 := rd16_int buf 4 (by omega) (by omega)
  simp only [r2, r4]
  simp only [show (2 : Int).toNat = 2 from rfl, show (4 : Int).toNat = 4 from rfl]
  by_cases h3 : hdr_qr (byte buf 2) = (if q then 0 else 1)
  · by_cases h4 : hdr_opcode (byte buf 2) = 0
    · by_cases h5 : be16 buf 4 = 1
      · exact absurd ⟨by omega, by omega, h3, h4, h5⟩ h
      · simp [h3, h4, h5]
    · simp [h3, h4]
  · simp [h3]

theorem memchr0_first (buf : List Nat) (len : Int) (k : Nat) (hlen : len ≤ buf.length)
    (hz : FirstZero buf len k) :
    memchr0 buf 12 (len - 12).toNat = .ret (some (12 + (k : Int))) := by
  obtain ⟨h1, h2, h3⟩ := hz
  rcases memchr0_spec buf (len - 12).toNat 12 (by omega) with ⟨k2, hk, e, z, nz⟩ | ⟨_, nz⟩
  · have : k2 = k := by
      rcases Nat.lt_trichotomy k2 k with hlt | heq | hgt
      · exact absurd z (h3 k2 hlt)
      · exact heq
      · exact absurd h2 (nz k hgt)
    subst this
    simpa using e
  · exact absurd h2 (nz k (by omega))

theorem memchr0_nozero (buf : List Nat) (len : Int) (hlen : len ≤ buf.length)
    (hz : ∀ k, ¬ FirstZero buf len k) :
    memchr0 buf 12 (len - 12).toNat = .ret none := by
  by_cases h12 : len ≤ 12
  · have : (len - 12).toNat = 0 := by omega
    rw [this]; rfl
  rcases memchr0_spec buf (len - 12).toNat 12 (by omega) with ⟨k2, hk, e, z, nz⟩ | ⟨e, _⟩
  · exact absurd ⟨by omega, z, nz⟩ (hz k2)
  · simpa using e

theorem check_packet_nozero (q : Bool) (buf : List Nat) (len : Int) (nb : Option (List Nat))
    (pn : Option Int) (hlen : len ≤ buf.length) (hz : ∀ k, ¬ FirstZero buf len k) :
    check_packet q buf len nb pn = .ret ⟨false, nb, pn⟩ := by
  by_cases h : HdrOk q buf len
  · obtain ⟨h1, h2, h3, h4, h5⟩ := h
    unfold check_packet
    simp only [DNS_PACKET_MINSIZE, DNS_PACKET_MAXSIZE, sizeof_dns_header_t, DNS_NAME_ENC_MINLEN,
      sizeof_dns_query_t, DNS_QR_QUERY, DNS_QR_REPLY, DNS_OPCODE_QUERY]
    rw [if_neg (by omega), if_neg (by omega)]
    have r2 := rd_int buf 2 (by omega) (by omega)
    have r4 := rd16_int buf 4 (by omega) (by omega)
    simp only [r2, r4, show (2 : Int).toNat = 2 from rfl, show (4 : Int).toNat = 4 from rfl,
      memchr0_nozero buf len hlen hz]
    simp [h3, h4, h5]
  · exact check_packet_hdr_fail q buf len nb pn hlen h

theorem check_packet_found (q : Bool) (buf : List Nat) (len : Int) (nb : Option (List Nat))
    (pn : Option Int) (k : Nat) (hlen : len ≤ buf.length) (h : HdrOk q buf len)
    (hz : FirstZero buf len k) :
    check_packet q buf len nb pn =
      if k + 1 > 255 then .ret ⟨false, nb, pn⟩
      else match nb with
        | none => .ret (question_tail buf len k none pn)
        | some out =>
          match decode_name out buf 12 (k + 1) with
          | .oob => .oob
          | .nofuel => .nofuel
          | .ret (false, out1) => .ret ⟨false, some out1, pn⟩
          | .ret (true, out1) => .ret (question_tail buf len k (some out1) pn) := by
  obtain ⟨h1, h2, h3, h4, h5⟩ := h
  have hz' := hz
  obtain ⟨z1, z2, z3⟩ := hz'
  unfold check_packet
  simp only [DNS_PACKET_MINSIZE, DNS_PACKET_MAXSIZE, sizeof_dns_header_t, DNS_NAME_ENC_MINLEN,
    sizeof_dns_query_t, DNS_QR_QUERY, DNS_QR_REPLY, DNS_OPCODE_QUERY, DNS_NAME_ENC_MAXLEN,
    DNS_CLASS_INTERNET]
  rw [if_neg (by omega), if_neg (by omega)]
  have r2 := rd_int buf 2 (by omega) (by omega)
  have r4 := rd16_int buf 4 (by omega) (by omega)
  simp only [r2, r4, show (2 : Int).toNat = 2 from rfl, show (4 : Int).toNat = 4 from rfl,
    memchr0_first buf len k hlen hz]
  simp only [h3, h4, h5, ne_eq, not_true_eq_false, if_false]
  have e1 : (12 : Int) + k + 1 - 12 = k + 1 := by ring
  simp only [e1]
  rw [if_neg (by omega)]
  by_cases hk : k + 1 > 255
  · have : (k : Int) + 1 > 255 := by omega
    simp [hk, this]
  · have hk' : ¬ ((k : Int) + 1 > 255) := by omega
    rw [if_neg hk', if_neg hk]
    have tail : ∀ nb1 : Option (List Nat),
        (if len - 12 - ((k : Int) + 1) < 4 then
            Outcome.ret (⟨false, nb1, pn.map (fun _ => (k : Int) + 1)⟩ : Ret)
          else
            match rd16 buf (12 + ((k : Int) + 1) + 2) with
            | none => Outcome.oob
            | some qclass =>
              if ¬ qclass = 1 then Outcome.ret ⟨false, nb1, pn.map (fun _ => (k : Int) + 1)⟩
              else Outcome.ret ⟨true, nb1, pn.map (fun _ => (k : Int) + 1)⟩) =
          .ret (question_tail buf len k nb1 pn) := by
      intro nb1
      unfold question_tail
      by_cases h6 : len - 12 - ((k : Int) + 1) < 4
      · simp [h6]
      · rw [if_neg h6, if_neg h6]
        have r := rd16_int buf (12 + ((k : Int) + 1) + 2) (by omega) (by omega)
        have e2 : (12 + ((k : Int) + 1) + 2).toNat = 12 + k + 3 := by omega
        rw [r, e2]
        by_cases h7 : be16 buf (12 + k + 3) = 1 <;> simp [h7]
    cases nb with
    | none => simpa using tail none
    | some out =>
      simp only
      cases hd : decode_name out buf 12 ((k : Int) + 1) with
      | oob => simp
      | nofuel => simp
      | ret r =>
        obtain ⟨ok, out1⟩ := r
        cases ok with
        | false => simp
        | true => simpa using tail (some out1)

theorem question_tail_ok (buf : List Nat) (len : Int) (k : Nat) (nb : Option (List Nat))
    (pn : Option Int) :
    ((question_tail buf len k nb pn).ok = true ↔
      (len - 12 - ((k : Int) + 1) ≥ 4 ∧ be16 buf (12 + k + 3) = 1)) ∧
    (question_tail buf len k nb pn).name_buf = nb ∧
    (question_tail buf len k nb pn).p_namelen = pn.map (fun _ => (k : Int) + 1) := by
  unfold question_tail
  by_cases h6 : len - 12 - ((k : Int) + 1) < 4
  · rw [if_pos h6]; simp; omega
  · rw [if_neg h6]
    by_cases h7 : be16 buf (12 + k + 3) = 1
    · simp [h7]; omega
    · simp [h7]

theorem check_packet_none_spec (q : Bool) (buf : List Nat) (len : Int) (pn : Option Int)
    (hlen : len ≤ buf.length) :
    ∃ r, check_packet q buf len none pn = .ret r ∧
      (r.ok = true ↔ Accepts (if q then 0 else 1) buf len) ∧
      (r.ok = true → ∀ k, FirstZero buf len k → r.p_namelen = pn.map (fun _ => (k : Int) + 1)) := by
  by_cases h : HdrOk q buf len
  · by_cases hz : ∃ k, FirstZero buf len k
    · obtain ⟨k, hk⟩ := hz
      rw [check_packet_found q buf len none pn k hlen h hk]
      by_cases hk255 : k + 1 > 255
      · rw [if_pos hk255]
        refine ⟨_, rfl, ?_, by simp⟩
        simp only [Bool.false_eq_true, false_iff]
        rintro ⟨_, _, _, _, _, k2, hk2, hle, _⟩
        have := FirstZero_unique hk hk2
        omega
      · rw [if_neg hk255]
        obtain ⟨t1, _, t3⟩ := question_tail_ok buf len k none pn
        refine ⟨_, rfl, ?_, ?_⟩
        · rw [t1]
          constructor
          · rintro ⟨a, b⟩
            obtain ⟨h1, h2, h3, h4, h5⟩ := h
            exact ⟨h1, h2, h3, h4, h5, k, hk, by omega, a, b⟩
          · rintro ⟨_, _, _, _, _, k2, hk2, _, a, b⟩
            have := FirstZero_unique hk hk2
            subst this
            exact ⟨a, b⟩
        · intro _ k2 hk2
          have := FirstZero_unique hk hk2
          subst this
          exact t3
    · rw [check_packet_nozero q buf len none pn hlen (fun k hk => hz ⟨k, hk⟩)]
      refine ⟨_, rfl, ?_, by simp⟩
      simp only [Bool.false_eq_true, false_iff]
      rintro ⟨_, _, _, _, _, k2, hk2, _⟩
      exact hz ⟨k2, hk2⟩
  · rw [check_packet_hdr_fail q buf len none pn hlen h]
    refine ⟨_, rfl, ?_, by simp⟩
    simp only [Bool.false_eq_true, false_iff]
    rintro ⟨h1, h2, h3, h4, h5, _⟩
    exact h ⟨h1, h2, h3, h4, h5⟩

/-- C1: called without a name buffer, `dns_query_check` returns true exactly when the
length is in 17..1472, the qr bit is 0, the opcode is 0, the question count is 1, a first
zero byte exists at offset `12 + k` with `k + 1 ≤ 255`, at least 4 bytes follow it and the
class after it is 1; on success the reported name length is `k + 1`. `dns_reply_check`
satisfies the same statement with qr bit 1. -/
theorem C1_check_without_name (buf : List Nat) (len : Int) (pn : Option Int)
    (hlen : len ≤ buf.length) :
    (∃ r, dns_query_check buf len none pn = .ret r ∧
      (r.ok = true ↔ Accepts 0 buf len) ∧
      (r.ok = true → ∀ k, FirstZero buf len k →
        r.p_namelen = pn.map (fun _ => (k : Int) + 1))) ∧
    (∃ r, dns_reply_check buf len none pn = .ret r ∧
      (r.ok = true ↔ Accepts 1 buf len) ∧
      (r.ok = true → ∀ k, FirstZero buf len k →
        r.p_namelen = pn.map (fun _ => (k : Int) + 1))) :=
  ⟨check_packet_none_spec true buf len pn hlen, check_packet_none_spec false buf len pn hlen⟩

theorem C1_check_without_name_witness :
    (∃ r, dns_query_check queryPacket 32 none (some 0) = .ret r ∧
      (r.ok = true ↔ Accepts 0 queryPacket 32) ∧
      (r.ok = true → ∀ k, FirstZero queryPacket 32 k →
        r.p_namelen = (some (0 : Int)).map (fun _ => (k : Int) + 1))) ∧
    (∃ r, dns_reply_check queryPacket 32 none (some 0) = .ret r ∧
      (r.ok = true ↔ Accepts 1 queryPacket 32) ∧
      (r.ok = true → ∀ k, FirstZero queryPacket 32 k →
        r.p_namelen = (some (0 : Int)).map (fun _ => (k : Int) + 1))) :=
  C1_check_without_name queryPacket 32 (some 0) (by decide)

theorem slice_length (buf : List Nat) (s n : Nat) (h : s + n ≤ buf.length) :
    (slice buf s n).length = n := by
  simp [slice]; omega

theorem slice_decomp (buf : List Nat) (s n : Nat) :
    buf = buf.take s ++ slice buf s n ++ buf.drop (s + n) := by
  unfold slice
  rw [List.append_assoc, ← List.drop_drop, List.take_append_drop, List.take_append_drop]

theorem rd_append (P Q : List Nat) (x : Nat) : rd (P ++ x :: Q) (P.length : Int) = some x := by
  unfold rd
  have : ¬ ((P.length : Int) < 0) := by omega
  rw [if_neg this, Int.toNat_ofNat, List.getElem?_append_right (le_refl _)]
  simp

theorem wr_append (A B : List Nat) (x v : Nat) :
    wr (A ++ x :: B) (A.length : Int) v = some (A ++ v :: B) := by
  unfold wr
  have : ¬ ((A.length : Int) < 0) := by omega
  simp [this]

theorem wr_some (out : List Nat) (i : Int) (v : Nat) (h0 : 0 ≤ i) (h : i < out.length) :
    wr out i v = some (out.set i.toNat v) := by
  unfold wr
  rw [if_neg (by omega), if_pos (by omega)]

theorem memcpy_append (Q B : List Nat) : ∀ (M X A P : List Nat), X.length = M.length →
    memcpy (A ++ X ++ B) (A.length : Int) (P ++ M ++ Q) (P.length : Int) M.length =
      some (A ++ M ++ B) := by
  intro M
  induction M with
  | nil =>
    intro X A P h
    have : X = [] := List.length_eq_zero.mp h
    subst this
    simp [memcpy]
  | cons m M ih =>
    intro X A P h
    rcases X with _ | ⟨x, X⟩
    · simp at h
    · simp only [List.length_cons, memcpy]
      have e1 : P ++ m :: M ++ Q = P ++ m :: (M ++ Q) := by simp
      have e2 : A ++ x :: X ++ B = A ++ x :: (X ++ B) := by simp
      rw [e1, rd_append, e2]
      simp only [wr_append]
      have := ih X (A ++ [m]) (P ++ [m]) (by simpa using h)
      simp only [List.length_append, List.length_singleton, Nat.cast_add, Nat.cast_one,
        List.append_assoc, List.singleton_append] at this
      simpa using this

theorem dotLabels_length (ls : List (List Nat)) : (dotLabels ls).length = (encLabels ls).length := by
  induction ls with
  | nil => rfl
  | cons l ls ih => simp [dotLabels, encLabels, ih]

theorem dotLabels_eq (ls : List (List Nat)) : dotLabels ls = (ls.map (fun l => 46 :: l)).flatten := by
  induction ls with
  | nil => rfl
  | cons l ls ih => simp [dotLabels, ih]

theorem joinLabels_eq_intercalate (ls : List (List Nat)) : joinLabels ls = [46].intercalate ls := by
  rcases ls with _ | ⟨l, ls⟩
  · rfl
  · simp only [joinLabels, List.intercalate]
    induction ls generalizing l with
    | nil => simp [dotLabels, List.intersperse]
    | cons l2 ls ih =>
      simp only [dotLabels, List.intersperse, List.flatten_cons]
      rw [← ih l2]
      simp

theorem decode_loop_dots (Q B : List Nat) : ∀ (ls : List (List Nat)), ValidLabels ls →
    ∀ (fuel : Nat) (A P : List Nat), (encLabels ls).length ≤ fuel →
    decode_loop (P ++ encLabels ls ++ Q) fuel false (A ++ encLabels ls ++ B) (A.length : Int)
        (P.length : Int) ((encLabels ls).length : Int) = .ret (true, A ++ dotLabels ls ++ B) := by
  intro ls
  induction ls with
  | nil =>
    intro _ fuel A P _
    cases fuel <;> simp [decode_loop, encLabels, dotLabels]
  | cons l ls ih =>
    intro hv fuel A P hf
    have hl := hv l (List.mem_cons_self _ _)
    have hv' : ValidLabels ls := fun x hx => hv x (List.mem_cons_of_mem _ hx)
    simp only [encLabels, List.length_cons, List.length_append] at hf
    rcases fuel with _ | fuel
    · omega
    · have hlen2 : (((encLabels (l :: ls)).length : Nat) : Int) ≥ 2 := by
        simp only [encLabels, List.length_cons, List.length_append]; omega
      rw [decode_loop, if_pos hlen2]
      have e1 : A ++ encLabels (l :: ls) ++ B = A ++ l.length :: (l ++ encLabels ls ++ B) := by
        simp [encLabels]
      have e2 : P ++ encLabels (l :: ls) ++ Q = P ++ l.length :: (l ++ encLabels ls ++ Q) := by
        simp [encLabels]
      rw [e1, e2, rd_append]
      simp only [Bool.false_eq_true, if_false, wr_append, Option.map_some']
      have c1 : ¬ (l.length < 1) := by omega
      have c2 : ¬ (l.length > DNS_NAME_LABEL_MAXLEN) := by unfold DNS_NAME_LABEL_MAXLEN; omega
      have c3 : ¬ ((l.length : Int) > ((encLabels (l :: ls)).length : Int) - 1) := by
        simp only [encLabels, List.length_cons, List.length_append]; omega
      rw [if_neg c1, if_neg c2, if_neg c3]
      have := ih hv' fuel (A ++ 46 :: l) (P ++ l.length :: l) (by omega)
      have e3 : ((A ++ 46 :: l).length : Int) = (A.length : Int) + 1 + l.length := by
        simp; ring
      have e4 : ((P ++ l.length :: l).length : Int) = (P.length : Int) + 1 + l.length := by
        simp; ring
      have e5 : ((encLabels (l :: ls)).length : Int) - 1 - l.length = (encLabels ls).length := by
        simp only [encLabels, List.length_cons, List.length_append]; push_cast; ring
      rw [e3, e4] at this
      rw [e5]
      simpa [dotLabels] using this

theorem decode_loop_join (Q B : List Nat) (l : List Nat) (ls : List (List Nat))
    (hv : ValidLabels (l :: ls)) (fuel : Nat) (P : List Nat)
    (hf : (encLabels (l :: ls)).length ≤ fuel) :
    decode_loop (P ++ encLabels (l :: ls) ++ Q) fuel true (l ++ encLabels ls ++ B) 0
        (P.length : Int) ((encLabels (l :: ls)).length : Int) =
      .ret (true, joinLabels (l :: ls) ++ B) := by
  have hl := hv l (List.mem_cons_self _ _)
  have hv' : ValidLabels ls := fun x hx => hv x (List.mem_cons_of_mem _ hx)
  simp only [encLabels, List.length_cons, List.length_append] at hf
  rcases fuel with _ | fuel
  · omega
  · have hlen2 : (((encLabels (l :: ls)).length : Nat) : Int) ≥ 2 := by
      simp only [encLabels, List.length_cons, List.length_append]; omega
    rw [decode_loop, if_pos hlen2]
    have e2 : P ++ encLabels (l :: ls) ++ Q = P ++ l.length :: (l ++ encLabels ls ++ Q) := by
      simp [encLabels]
    rw [e2, rd_append]
    simp only [if_true]
    have c1 : ¬ (l.length < 1) := by omega
    have c2 : ¬ (l.length > DNS_NAME_LABEL_MAXLEN) := by unfold DNS_NAME_LABEL_MAXLEN; omega
    have c3 : ¬ ((l.length : Int) > ((encLabels (l :: ls)).length : Int) - 1) := by
      simp only [encLabels, List.length_cons, List.length_append]; omega
    rw [if_neg c1, if_neg c2, if_neg c3]
    have := decode_loop_dots Q B ls hv' fuel l (P ++ l.length :: l) (by omega)
    have e4 : ((P ++ l.length :: l).length : Int) = (P.length : Int) + 1 + l.length := by
      simp; ring
    have e5 : ((encLabels (l :: ls)).length : Int) - 1 - l.length = (encLabels ls).length := by
      simp only [encLabels, List.length_cons, List.length_append]; push_cast; ring
    rw [e4] at this
    rw [e5]
    simpa [joinLabels] using this

theorem encLabels_length_pos (l : List Nat) (ls : List (List Nat)) :
    (encLabels (l :: ls)).length = 1 + l.length + (encLabels ls).length := by
  simp [encLabels]; omega

theorem decode_name_encoded (l : List Nat) (ls : List (List Nat)) (hv : ValidLabels (l :: ls))
    (x : Nat) (P Q out : List Nat) (hcap : (encLabels (l :: ls)).length ≤ out.length) :
    decode_name out (P ++ encLabels (l :: ls) ++ x :: Q) (P.length : Int)
        ((encLabels (l :: ls)).length + 1 : Int) =
      .ret (true, joinLabels (l :: ls) ++ x :: out.drop (encLabels (l :: ls)).length) := by
  have hl := hv l (List.mem_cons_self _ _)
  have hlen := encLabels_length_pos l ls
  unfold decode_name
  rw [if_neg (by unfold DNS_NAME_ENC_MINLEN; omega)]
  simp only [add_sub_cancel_right, Int.toNat_ofNat]
  have eb : P ++ encLabels (l :: ls) ++ x :: Q =
      (P ++ [l.length]) ++ (l ++ encLabels ls ++ [x]) ++ Q := by
    simp [encLabels]
  have eo : out = ([] : List Nat) ++ out.take (encLabels (l :: ls)).length ++
      out.drop (encLabels (l :: ls)).length := by simp
  have hm := memcpy_append Q (out.drop (encLabels (l :: ls)).length) (l ++ encLabels ls ++ [x])
    (out.take (encLabels (l :: ls)).length) [] (P ++ [l.length])
    (by simp [List.length_take]; omega)
  have e1 : (((P ++ [l.length]).length : Nat) : Int) = (P.length : Int) + 1 := by simp
  have e2 : (l ++ encLabels ls ++ [x]).length = (encLabels (l :: ls)).length := by
    simp [encLabels]; omega
  rw [e1, e2, ← eo, ← eb] at hm
  simp only [List.length_nil, Nat.cast_zero] at hm
  rw [hm]
  simp only [List.nil_append]
  have hj := decode_loop_join ([x] ++ Q) (x :: out.drop (encLabels (l :: ls)).length) l ls hv
    (encLabels (l :: ls)).length P (le_refl _)
  have eb2 : P ++ encLabels (l :: ls) ++ ([x] ++ Q) = P ++ encLabels (l :: ls) ++ x :: Q := by
    simp
  have eo2 : l ++ encLabels ls ++ x :: out.drop (encLabels (l :: ls)).length =
      l ++ encLabels ls ++ [x] ++ out.drop (encLabels (l :: ls)).length := by simp
  rw [eb2, eo2] at hj
  exact hj

theorem joinLabels_length (l : List Nat) (ls : List (List Nat)) :
    (joinLabels (l :: ls)).length + 1 = (encLabels (l :: ls)).length := by
  simp [joinLabels, encLabels, dotLabels_length]

/-- C3: round trip of the name decoder. For a non-empty list of labels of 1..63 bytes each,
whose wire encoding (labels with length bytes, then a zero byte) has `n` bytes and
sits at any position of a buffer, `decode_name` with length `n` succeeds and leaves
in the output buffer the labels joined by dots followed by a NUL byte; the
decoded string has `n - 2` characters. -/
theorem C3_decode_round_trip (ls : List (List Nat)) (hne : ls ≠ []) (hv : ValidLabels ls)
    (P Q out : List Nat) (n : Nat) (hn : n = (encodeName ls).length)
    (hcap : n - 1 ≤ out.length) :
    decode_name out (P ++ encodeName ls ++ Q) (P.length : Int) (n : Int) =
      .ret (true, [46].intercalate ls ++ 0 :: out.drop (n - 1)) ∧
    ([46].intercalate ls).length = n - 2 := by
  rcases ls with _ | ⟨l, ls⟩
  · exact absurd rfl hne
  · have hn' : n - 1 = (encLabels (l :: ls)).length := by
      rw [hn]; simp [encodeName]
    have hj := joinLabels_length l ls
    rw [← joinLabels_eq_intercalate]
    constructor
    · have h := decode_name_encoded l ls hv 0 P Q out (by omega)
      have e1 : P ++ encodeName (l :: ls) ++ Q = P ++ encLabels (l :: ls) ++ 0 :: Q := by
        simp [encodeName]
      have e2 : (n : Int) = ((encLabels (l :: ls)).length : Int) + 1 := by
        rw [hn]; simp [encodeName]
      rw [e1, e2, hn']
      exact h
    · omega

theorem C3_decode_round_trip_witness :
    decode_name (List.replicate 20 255)
        ([1, 2] ++ encodeName [[119, 119, 119], [99, 110]] ++ [7]) (([1, 2] : List Nat).length : Int)
        ((8 : Nat) : Int) =
      .ret (true, [46].intercalate [[119, 119, 119], [99, 110]] ++
        0 :: (List.replicate 20 255).drop (8 - 1)) ∧
    ([46].intercalate [[119, 119, 119], [99, 110]]).length = 8 - 2 :=
  C3_decode_round_trip [[119, 119, 119], [99, 110]] (by decide)
    (by intro l hl; simp at hl; rcases hl with rfl | rfl <;> decide)
    [1, 2] [7] (List.replicate 20 255) 8 (by decide) (by decide)

theorem slice_zero (buf : List Nat) (s : Nat) : slice buf s 0 = [] := by simp [slice]

theorem slice_succ (buf : List Nat) (s n : Nat) (h : s < buf.length) :
    slice buf s (n + 1) = byte buf s :: slice buf (s + 1) n := by
  unfold slice byte
  rw [List.drop_eq_getElem_cons h, List.take_succ_cons]
  simp [List.getD, List.getElem?_eq_getElem h]

theorem slice_add (buf : List Nat) (s a b : Nat) :
    slice buf s (a + b) = slice buf s a ++ slice buf (s + a) b := by
  unfold slice
  rw [List.take_add, List.drop_drop]

theorem decode_loop_total (buf : List Nat) : ∀ (fuel : Nat) (first : Bool) (out : List Nat)
    (o s : Nat) (len : Int), len ≤ fuel → (s : Int) + len ≤ buf.length →
    (o : Int) + len ≤ out.length →
    ∃ ok out1, decode_loop buf fuel first out (o : Int) (s : Int) len = .ret (ok, out1) ∧
      out1.length = out.length ∧ ∀ n : Nat, (o : Int) + len ≤ n → out1.drop n = out.drop n := by
  intro fuel
  induction fuel with
  | zero =>
    intro first out o s len hf _ _
    rw [decode_loop, if_neg (by simp at hf; omega)]
    by_cases h0 : len ≠ 0
    · rw [if_pos h0]; exact ⟨false, out, rfl, rfl, fun _ _ => rfl⟩
    · rw [if_neg h0]; exact ⟨true, out, rfl, rfl, fun _ _ => rfl⟩
  | succ fuel ih =>
    intro first out o s len hf hs ho
    rw [decode_loop]
    by_cases h2 : len ≥ 2
    · rw [if_pos h2]
      have hr := rd_nat buf s (by omega)
      -- the optional write of the separator
      have hw : ∃ (out1 : List Nat) (o1 : Nat), (if first = true then some (out, (o : Int))
            else (wr out (o : Int) 46).map (fun w => (w, (o : Int) + 1))) = some (out1, (o1 : Int)) ∧
          out1.length = out.length ∧ (o1 : Int) + (len - 1) ≤ o + len ∧ o ≤ o1 ∧
          ∀ n : Nat, (o : Int) + len ≤ n → out1.drop n = out.drop n := by
        cases first with
        | true => exact ⟨out, o, by simp, rfl, by omega, le_refl _, fun _ _ => rfl⟩
        | false =>
          refine ⟨out.set o 46, o + 1, ?_, by simp, by push_cast; omega, by omega, ?_⟩
          · rw [wr_some out o 46 (by omega) (by omega)]; simp
          · intro n hn
            exact List.drop_set_of_lt 46 out (by omega)
      obtain ⟨out1, o1, e, hl1, ho1, hoo, hd1⟩ := hw
      rw [e]
      simp only [hr]
      by_cases c1 : byte buf s < 1
      · rw [if_pos c1]; exact ⟨false, out1, rfl, hl1, hd1⟩
      rw [if_neg c1]
      by_cases c2 : byte buf s > DNS_NAME_LABEL_MAXLEN
      · rw [if_pos c2]; exact ⟨false, out1, rfl, hl1, hd1⟩
      rw [if_neg c2]
      by_cases c3 : (byte buf s : Int) > len - 1
      · rw [if_pos c3]; exact ⟨false, out1, rfl, hl1, hd1⟩
      rw [if_neg c3]
      have e1 : (o1 : Int) + (byte buf s : Int) = ((o1 + byte buf s : Nat) : Int) := by push_cast; rfl
      have e2 : (s : Int) + 1 + (byte buf s : Int) = ((s + 1 + byte buf s : Nat) : Int) := by
        push_cast; rfl
      rw [e1, e2]
      obtain ⟨ok, out2, r, hl2, hd2⟩ := ih false out1 (o1 + byte buf s) (s + 1 + byte buf s)
        (len - 1 - byte buf s) (by push_cast at hf; omega) (by push_cast; omega)
        (by push_cast; omega)
      refine ⟨ok, out2, r, by omega, ?_⟩
      intro n hn
      rw [hd2 n (by push_cast; omega), hd1 n hn]
    · rw [if_neg h2]
      by_cases h0 : len ≠ 0
      · rw [if_pos h0]; exact ⟨false, out, rfl, rfl, fun _ _ => rfl⟩
      · rw [if_neg h0]; exact ⟨true, out, rfl, rfl, fun _ _ => rfl⟩

theorem decode_loop_true_splits (buf : List Nat) : ∀ (fuel : Nat) (first : Bool)
    (out : List Nat) (o : Int) (s n : Nat) (out1 : List Nat), s + n ≤ buf.length →
    decode_loop buf fuel first out o (s : Int) (n : Int) = .ret (true, out1) →
    SplitsIntoLabels (slice buf s n) := by
  intro fuel
  induction fuel with
  | zero =>
    intro first out o s n out1 _ h
    rw [decode_loop] at h
    split_ifs at h with h2 h0
    · simp at h
    · have : n = 0 := by omega
      subst this
      exact ⟨[], by intro l hl; simp at hl, by simp [encLabels, slice]⟩
  | succ fuel ih =>
    intro first out o s n out1 hs h
    rw [decode_loop] at h
    by_cases h2 : (n : Int) ≥ 2
    · rw [if_pos h2] at h
      rw [rd_nat buf s (by omega)] at h
      cases hw : (if first = true then some (out, o)
            else (wr out o 46).map (fun w => (w, o + 1))) with
      | none => rw [hw] at h; simp at h
      | some p =>
        obtain ⟨out2, o2⟩ := p
        rw [hw] at h
        simp only at h
        by_cases c1 : byte buf s < 1
        · rw [if_pos c1] at h; simp at h
        rw [if_neg c1] at h
        by_cases c2 : byte buf s > DNS_NAME_LABEL_MAXLEN
        · rw [if_pos c2] at h; simp at h
        rw [if_neg c2] at h
        by_cases c3 : (byte buf s : Int) > (n : Int) - 1
        · rw [if_pos c3] at h; simp at h
        rw [if_neg c3] at h
        have hL : byte buf s ≤ n - 1 := by omega
        have e2 : (s : Int) + 1 + (byte buf s : Int) = ((s + 1 + byte buf s : Nat) : Int) := by
          push_cast; rfl
        have e3 : (n : Int) - 1 - (byte buf s : Int) = ((n - 1 - byte buf s : Nat) : Int) := by
          omega
        rw [e2, e3] at h
        obtain ⟨ls, hv, he⟩ := ih false out2 _ _ _ out1 (by omega) h
        have hn : n = 1 + (byte buf s + (n - 1 - byte buf s)) := by omega
        refine ⟨slice buf (s + 1) (byte buf s) :: ls, ?_, ?_⟩
        · intro l hl
          rcases List.mem_cons.mp hl with rfl | hl
          · rw [slice_length buf (s + 1) (byte buf s) (by omega)]
            unfold DNS_NAME_LABEL_MAXLEN at c2
            omega
          · exact hv l hl
        · rw [encLabels, he, slice_length buf (s + 1) (byte buf s) (by omega)]
          conv_rhs => rw [hn, Nat.add_comm 1, slice_succ buf s _ (by omega), slice_add]
          simp
    · rw [if_neg h2] at h
      split_ifs at h with h0
      · simp at h
      · have : n = 0 := by omega
        subst this
        exact ⟨[], by intro l hl; simp at hl, by simp [encLabels, slice]⟩

theorem byte_eq_getElem (buf : List Nat) (i : Nat) (h : i < buf.length) :
    byte buf i = buf[i] := by
  simp [byte, List.getD, List.getElem?_eq_getElem h]

theorem memcpy_slice (out buf : List Nat) (s n : Nat) (hs : s + n ≤ buf.length)
    (hn : n ≤ out.length) :
    memcpy out 0 buf (s : Int) n = some (slice buf s n ++ out.drop n) := by
  have h := memcpy_append (buf.drop (s + n)) (out.drop n) (slice buf s n) (out.take n) []
    (buf.take s) (by rw [slice_length buf s n hs]; simp; omega)
  rw [← slice_decomp, slice_length buf s n hs] at h
  have e : (((buf.take s).length : Nat) : Int) = (s : Int) := by
    rw [List.length_take]; congr 1; omega
  rw [e] at h
  simpa using h

theorem decode_name_root (out buf : List Nat) (src len : Int) (h : len ≤ 1)
    (hcap : 2 ≤ out.length) :
    decode_name out buf src len = .ret (true, 46 :: 0 :: out.drop 2) := by
  unfold decode_name DNS_NAME_ENC_MINLEN
  rw [if_pos h]
  rcases out with _ | ⟨a, _ | ⟨b, out⟩⟩
  · simp at hcap
  · simp at hcap
  · simp [wr]

theorem decode_name_total (out buf : List Nat) (s : Nat) (len : Int) (h2 : 2 ≤ len)
    (hs : (s : Int) + len ≤ buf.length) (hcap : len - 1 ≤ out.length) :
    ∃ ok out1, decode_name out buf (s : Int) len = .ret (ok, out1) ∧
      out1.length = out.length ∧ (∀ n : Nat, len - 1 ≤ n → out1.drop n = out.drop n) ∧
      (ok = true → SplitsIntoLabels (slice buf s (len - 1).toNat)) := by
  unfold decode_name DNS_NAME_ENC_MINLEN
  rw [if_neg (by omega)]
  simp only
  have e : (s : Int) + 1 = ((s + 1 : Nat) : Int) := by push_cast; rfl
  rw [e, memcpy_slice out buf (s + 1) (len - 1).toNat (by omega) (by omega)]
  simp only
  have hl : (slice buf (s + 1) (len - 1).toNat ++ out.drop (len - 1).toNat).length = out.length := by
    rw [List.length_append, slice_length buf _ _ (by omega), List.length_drop]; omega
  obtain ⟨ok, out1, r, hl1, hd1⟩ := decode_loop_total buf (len - 1).toNat true
    (slice buf (s + 1) (len - 1).toNat ++ out.drop (len - 1).toNat) 0 s (len - 1)
    (by omega) (by omega) (by rw [hl]; push_cast; omega)
  simp only [Nat.cast_zero] at r
  refine ⟨ok, out1, r, by omega, ?_, ?_⟩
  · intro n hn
    rw [hd1 n (by push_cast; omega)]
    have hsl := slice_length buf (s + 1) (len - 1).toNat (by omega)
    have : n = (slice buf (s + 1) (len - 1).toNat).length + (n - (len - 1).toNat) := by omega
    rw [this, List.drop_append, List.drop_drop, hsl]
  · intro hok
    subst hok
    have e2 : len - 1 = (((len - 1).toNat : Nat) : Int) := by omega
    rw [e2] at r
    exact decode_loop_true_splits buf _ true _ 0 s _ out1 (by omega) r

theorem encLabels_ne_single (ls : List (List Nat)) (hv : ValidLabels ls) :
    (encLabels ls).length ≠ 1 := by
  rcases ls with _ | ⟨l, ls⟩
  · simp [encLabels]
  · have := hv l (List.mem_cons_self _ _)
    have := encLabels_length_pos l ls
    omega

theorem not_splits_of_bad : ∀ (ls : List (List Nat)) (rest : List Nat), ValidLabels ls →
    BadRest rest → ¬ SplitsIntoLabels (encLabels ls ++ rest) := by
  intro ls
  induction ls with
  | nil =>
    intro rest _ hb ⟨ls2, hv2, he⟩
    simp only [encLabels, List.nil_append] at he
    rcases hb with h1 | ⟨b, rest1, rfl, hb⟩
    · rw [← he] at h1
      exact encLabels_ne_single ls2 hv2 h1
    · rcases ls2 with _ | ⟨l2, ls2⟩
      · simp [encLabels] at he
      · have hl2 := hv2 l2 (List.mem_cons_self _ _)
        simp only [encLabels, List.cons_append, List.cons.injEq] at he
        obtain ⟨hb1, hb2⟩ := he
        have : rest1.length = l2.length + (encLabels ls2).length := by rw [← hb2]; simp
        omega
  | cons l ls ih =>
    intro rest hv hb ⟨ls2, hv2, he⟩
    rcases ls2 with _ | ⟨l2, ls2⟩
    · simp [encLabels] at he
    · simp only [encLabels, List.cons_append, List.cons.injEq, List.append_assoc] at he
      obtain ⟨h1, h2⟩ := he
      obtain ⟨h3, h4⟩ := List.append_inj h2 h1
      exact ih rest (fun x hx => hv x (List.mem_cons_of_mem _ hx)) hb
        ⟨ls2, fun x hx => hv2 x (List.mem_cons_of_mem _ hx), h4⟩

theorem decode_name_splits (out buf : List Nat) (s : Nat) (len : Int) (h2 : 2 ≤ len)
    (hs : (s : Int) + len ≤ buf.length) (hcap : len - 1 ≤ out.length)
    (ls : List (List Nat)) (hv : ValidLabels ls)
    (he : encLabels ls = slice buf s (len - 1).toNat) :
    decode_name out buf (s : Int) len =
      .ret (true, joinLabels ls ++ byte buf (s + (len - 1).toNat) :: out.drop (len - 1).toNat) := by
  have hsl := slice_length buf s (len - 1).toNat (by omega)
  rcases ls with _ | ⟨l, ls⟩
  · rw [← he] at hsl
    simp [encLabels] at hsl
    omega
  · have hlt : s + (len - 1).toNat < buf.length := by omega
    have hb : buf = buf.take s ++ encLabels (l :: ls) ++
        byte buf (s + (len - 1).toNat) :: buf.drop (s + (len - 1).toNat + 1) := by
      have hd := slice_decomp buf s (len - 1).toNat
      rw [← he, List.drop_eq_getElem_cons hlt] at hd
      rw [byte_eq_getElem buf _ hlt]
      exact hd
    have hlen : (encLabels (l :: ls)).length = (len - 1).toNat := by rw [he]; exact hsl
    have h := decode_name_encoded l ls hv (byte buf (s + (len - 1).toNat)) (buf.take s)
      (buf.drop (s + (len - 1).toNat + 1)) out (by omega)
    rw [← hb, hlen] at h
    have e1 : (((buf.take s).length : Nat) : Int) = (s : Int) := by
      rw [List.length_take]; congr 1; omega
    have e2 : (((len - 1).toNat : Nat) : Int) + 1 = len := by omega
    rw [e1, e2] at h
    exact h

/-- C4: success condition of the name decoder. With `len ≤ 1` the call succeeds and the
output is exactly "." (bytes 46, 0) whatever the source bytes are. With `len ≥ 2` it
succeeds if and only if the first `len - 1` bytes split exactly into labels with a length
byte in 1..63; it fails when complete labels are followed by a length byte that is 0,
above 63 or above the number of bytes left, or by exactly one leftover byte. -/
theorem C4_decode_success_condition (out buf : List Nat) (s : Nat) (len : Int)
    (hsrc : 2 ≤ len → (s : Int) + len ≤ buf.length)
    (hcap : 2 ≤ out.length ∧ len - 1 ≤ out.length) :
    (len ≤ 1 → decode_name out buf (s : Int) len = .ret (true, 46 :: 0 :: out.drop 2)) ∧
    (2 ≤ len → ∃ ok out1, decode_name out buf (s : Int) len = .ret (ok, out1) ∧
        (ok = true ↔ SplitsIntoLabels (slice buf s (len - 1).toNat)) ∧
        (∀ ls rest, ValidLabels ls → BadRest rest →
          slice buf s (len - 1).toNat = encLabels ls ++ rest → ok = false)) := by
  constructor
  · intro h1
    exact decode_name_root out buf s len h1 hcap.1
  · intro h2
    obtain ⟨ok, out1, r, _, _, hsp⟩ := decode_name_total out buf s len h2 (hsrc h2) hcap.2
    have hiff : ok = true ↔ SplitsIntoLabels (slice buf s (len - 1).toNat) := by
      constructor
      · exact hsp
      · rintro ⟨ls, hv, he⟩
        have r2 := decode_name_splits out buf s len h2 (hsrc h2) hcap.2 ls hv he
        rw [r] at r2
        simp only [Outcome.ret.injEq, Prod.mk.injEq] at r2
        exact r2.1
    refine ⟨ok, out1, r, hiff, ?_⟩
    intro ls rest hv hb he
    have hns := not_splits_of_bad ls rest hv hb
    rw [← he] at hns
    cases ok with
    | false => rfl
    | true => exact absurd (hiff.mp rfl) hns

theorem C4_decode_success_condition_witness :
    decode_name [7, 7, 7] [1, 2, 3] ((0 : Nat) : Int) 1 = .ret (true, 46 :: 0 :: [7, 7, 7].drop 2) ∧
    ∃ ok out1, decode_name [7, 7, 7, 7, 7, 7] [1, 97, 2, 98, 99, 0] ((0 : Nat) : Int) 6 =
        .ret (ok, out1) ∧
      (ok = true ↔ SplitsIntoLabels (slice [1, 97, 2, 98, 99, 0] 0 ((6 : Int) - 1).toNat)) ∧
      (∀ ls rest, ValidLabels ls → BadRest rest →
        slice [1, 97, 2, 98, 99, 0] 0 ((6 : Int) - 1).toNat = encLabels ls ++ rest → ok = false) :=
  ⟨(C4_decode_success_condition [7, 7, 7] [1, 2, 3] 0 1 (by decide) (by decide)).1 (by decide),
   (C4_decode_success_condition [7, 7, 7, 7, 7, 7] [1, 97, 2, 98, 99, 0] 0 6 (by decide)
      (by decide)).2 (by decide)⟩

theorem queryPacket_hdr : HdrOk true queryPacket 32 := by
  refine ⟨by decide, by decide, by decide, by decide, by decide⟩

theorem queryPacket_zero : FirstZero queryPacket 32 15 := by
  refine ⟨by decide, by decide, by decide⟩

theorem queryPacket_labels :
    ValidLabels [[119, 119, 119], [103, 111, 111, 103, 108, 101], [99, 111, 109]] := by
  intro l hl
  simp at hl
  rcases hl with rfl | rfl | rfl <;> decide

theorem query_www_google_com (out : List Nat) (v : Int) (hcap : 15 ≤ out.length) :
    dns_query_check queryPacket 32 (some out) (some v) =
      .ret ⟨true, some (wwwGoogleComAscii ++ 0 :: out.drop 15), some 16⟩ := by
  unfold dns_query_check
  rw [check_packet_found true queryPacket 32 (some out) (some v) 15 (by decide) queryPacket_hdr
    queryPacket_zero]
  rw [if_neg (by decide)]
  have h := decode_name_splits out queryPacket 12 16 (by decide) (by decide) (by simpa using hcap)
    [[119, 119, 119], [103, 111, 111, 103, 108, 101], [99, 111, 109]] queryPacket_labels
    (by decide)
  have e : ((12 : Nat) : Int) = 12 := rfl
  have e2 : ((15 : Nat) : Int) + 1 = 16 := rfl
  rw [e] at h
  rw [e2]
  simp only [h]
  have e3 : joinLabels [[119, 119, 119], [103, 111, 111, 103, 108, 101], [99, 111, 109]] ++
      byte queryPacket (12 + ((16 : Int) - 1).toNat) :: List.drop ((16 : Int) - 1).toNat out =
      wwwGoogleComAscii ++ 0 :: out.drop 15 := by
    have : ((16 : Int) - 1).toNat = 15 := rfl
    rw [this]
    rfl
  rw [e3]
  have ht : question_tail queryPacket 32 15 (some (wwwGoogleComAscii ++ 0 :: out.drop 15)) (some v)
      = ⟨true, some (wwwGoogleComAscii ++ 0 :: out.drop 15), some 16⟩ := by
    unfold question_tail
    rw [if_neg (by decide), if_neg (by decide)]
    rfl
  rw [ht]

/-- C2 (amended): on the query for `www.google.com` (type A, class INTERNET) `dns_query_check`
called with a name buffer of at least 15 bytes and a name-length output returns success,
the decoded name is `www.google.com` followed by NUL, and the reported encoded name
length is 16. -/
theorem C2_query_www_google_com (out : List Nat) (v : Int) (hcap : 15 ≤ out.length) :
    dns_query_check queryPacket 32 (some out) (some v) =
      .ret ⟨true, some (wwwGoogleComAscii ++ 0 :: out.drop 15), some 16⟩ :=
  query_www_google_com out v hcap

set_option maxRecDepth 8192 in
theorem C2_query_www_google_com_witness :
    dns_query_check queryPacket 32 (some (List.replicate 254 0)) (some 0) =
      .ret ⟨true, some (wwwGoogleComAscii ++ 0 :: (List.replicate 254 0).drop 15), some 16⟩ :=
  C2_query_www_google_com (List.replicate 254 0) 0 (by decide)

set_option maxRecDepth 8192 in
/-- C2 as stated fails: on the `www.google.com` query the call succeeds and reports the
encoded name length 16, not 17. -/
theorem C2_reported_length_is_not_17 :
    ∃ r, dns_query_check queryPacket 32 (some (List.replicate 254 0)) (some 0) = .ret r ∧
      r.ok = true ∧ r.p_namelen = some 16 ∧ r.p_namelen ≠ some 17 :=
  ⟨_, query_www_google_com (List.replicate 254 0) 0 (by decide), rfl, rfl, by decide⟩

theorem question_tail_true (buf : List Nat) (len : Int) (k : Nat) (nb : Option (List Nat))
    (pn : Option Int) (h : (question_tail buf len k nb pn).ok = true) :
    len - 12 - ((k : Int) + 1) ≥ 4 ∧ be16 buf (12 + k + 3) = 1 ∧
      question_tail buf len k nb pn = ⟨true, nb, pn.map (fun _ => (k : Int) + 1)⟩ := by
  obtain ⟨t1, _, _⟩ := question_tail_ok buf len k nb pn
  obtain ⟨a, b⟩ := t1.mp h
  refine ⟨a, b, ?_⟩
  unfold question_tail
  rw [if_neg (by omega), if_neg (by simpa using b)]

/-- What an accepted packet satisfies. -/
theorem check_packet_accepted (q : Bool) (buf : List Nat) (len : Int) (nb : Option (List Nat))
    (pn : Option Int) (r : Ret) (hlen : len ≤ buf.length)
    (hr : check_packet q buf len nb pn = .ret r) (hok : r.ok = true) :
    HdrOk q buf len ∧ ∃ k, FirstZero buf len k ∧ k + 1 ≤ 255 ∧
      len - 12 - ((k : Int) + 1) ≥ 4 ∧ be16 buf (12 + k + 3) = 1 ∧
      r.p_namelen = pn.map (fun _ => (k : Int) + 1) ∧
      (nb = none → r.name_buf = none) ∧
      (∀ out, nb = some out → ∃ out1, decode_name out buf 12 ((k : Int) + 1) = .ret (true, out1) ∧
        r.name_buf = some out1) := by
  by_cases h : HdrOk q buf len
  · refine ⟨h, ?_⟩
    by_cases hz : ∃ k, FirstZero buf len k
    · obtain ⟨k, hk⟩ := hz
      rw [check_packet_found q buf len nb pn k hlen h hk] at hr
      by_cases hk255 : k + 1 > 255
      · rw [if_pos hk255] at hr
        simp only [Outcome.ret.injEq] at hr
        subst hr
        simp at hok
      · rw [if_neg hk255] at hr
        refine ⟨k, hk, by omega, ?_⟩
        cases nb with
        | none =>
          simp only [Outcome.ret.injEq] at hr
          subst hr
          obtain ⟨a, b, c⟩ := question_tail_true buf len k none pn hok
          rw [c]
          exact ⟨a, b, rfl, fun _ => rfl, fun out ho => by simp at ho⟩
        | some out =>
          simp only at hr
          cases hd : decode_name out buf 12 ((k : Int) + 1) with
          | oob => rw [hd] at hr; simp at hr
          | nofuel => rw [hd] at hr; simp at hr
          | ret x =>
            obtain ⟨ok, out1⟩ := x
            rw [hd] at hr
            cases ok with
            | false =>
              simp only [Outcome.ret.injEq] at hr
              subst hr
              simp at hok
            | true =>
              simp only [Outcome.ret.injEq] at hr
              subst hr
              obtain ⟨a, b, c⟩ := question_tail_true buf len k (some out1) pn hok
              rw [c]
              refine ⟨a, b, rfl, fun hn => by simp at hn, ?_⟩
              intro out2 ho
              simp only [Option.some.injEq] at ho
              subst ho
              exact ⟨out1, hd, rfl⟩
    · rw [check_packet_nozero q buf len nb pn hlen (fun k hk => hz ⟨k, hk⟩)] at hr
      simp only [Outcome.ret.injEq] at hr
      subst hr
      simp at hok
  · rw [check_packet_hdr_fail q buf len nb pn hlen h] at hr
    simp only [Outcome.ret.injEq] at hr
    subst hr
    simp at hok

/-- The two buffers hold the same bytes at every offset below `e`. -/
theorem rd_of_take_eq (buf buf2 : List Nat) (e : Nat) (h : buf2.take e = buf.take e)
    (i : Int) (hi : i < e) : rd buf2 i = rd buf i := by
  unfold rd
  by_cases h0 : i < 0
  · rw [if_pos h0, if_pos h0]
  · rw [if_neg h0, if_neg h0]
    have hlt : i.toNat < e := by omega
    have h1 : (buf.take e)[i.toNat]? = buf[i.toNat]? := by
      rw [List.getElem?_take, if_pos hlt]
    have h2 : (buf2.take e)[i.toNat]? = buf2[i.toNat]? := by
      rw [List.getElem?_take, if_pos hlt]
    rw [← h1, ← h2, h]

theorem rd16_agree (buf buf2 : List Nat) (i : Int)
    (h : ∀ x : Int, i ≤ x → x < i + 2 → rd buf2 x = rd buf x) : rd16 buf2 i = rd16 buf i := by
  unfold rd16
  rw [h i (by omega) (by omega), h (i + 1) (by omega) (by omega)]

theorem rdN_agree (buf buf2 : List Nat) (n : Nat) : ∀ (i : Int),
    (∀ x : Int, i ≤ x → x < i + n → rd buf2 x = rd buf x) → rdN buf2 i n = rdN buf i n := by
  induction n with
  | zero => intro i _; rfl
  | succ n ih =>
    intro i h
    rw [rdN, rdN, h i (by omega) (by push_cast; omega),
      ih (i + 1) (fun x h1 h2 => h x (by omega) (by push_cast; omega))]

theorem rdN_slice (buf : List Nat) (n : Nat) : ∀ (i : Nat), i + n ≤ buf.length →
    rdN buf (i : Int) n = some (slice buf i n) := by
  induction n with
  | zero => intro i _; simp [rdN, slice]
  | succ n ih =>
    intro i h
    have e : (i : Int) + 1 = ((i + 1 : Nat) : Int) := by push_cast; rfl
    rw [rdN, rd_nat buf i (by omega), e, ih (i + 1) (by omega), slice_succ buf i n (by omega)]

theorem skip_loop_inv (buf : List Nat) : ∀ (fuel : Nat) (ptr len h l1 : Int),
    skip_loop buf fuel ptr len = .ret (some (h, l1)) →
    ptr ≤ h ∧ h + l1 = ptr + len ∧ 10 ≤ l1 ∧
    ∀ buf2 : List Nat, (∀ x : Int, ptr ≤ x → x < h → rd buf2 x = rd buf x) →
      skip_loop buf2 fuel ptr len = .ret (some (h, l1)) := by
  intro fuel
  induction fuel with
  | zero =>
    intro ptr len h l1 hs
    rw [skip_loop] at hs
    unfold sizeof_dns_record_t at hs
    by_cases c1 : len > 0
    · rw [if_pos c1] at hs; simp at hs
    rw [if_neg c1] at hs
    by_cases c2 : len < 10
    · rw [if_pos c2] at hs; simp at hs
    rw [if_neg c2] at hs
    simp only [Outcome.ret.injEq, Option.some.injEq, Prod.mk.injEq] at hs
    obtain ⟨rfl, rfl⟩ := hs
    refine ⟨le_refl _, rfl, by omega, ?_⟩
    intro buf2 _
    rw [skip_loop]
    unfold sizeof_dns_record_t
    rw [if_neg c1, if_neg c2]
  | succ fuel ih =>
    intro ptr len h l1 hs
    rw [skip_loop] at hs
    unfold sizeof_dns_record_t DNS_NAME_PTR_MINVAL DNS_NAME_LABEL_MAXLEN at hs
    by_cases c0 : len > 0
    · rw [if_pos c0] at hs
      cases hb : rd buf ptr with
      | none => rw [hb] at hs; simp at hs
      | some b =>
        rw [hb] at hs
        simp only at hs
        have unfold2 : ∀ buf2 : List Nat, rd buf2 ptr = some b →
            skip_loop buf2 (fuel + 1) ptr len =
              if b = 0 then
                if len - 1 < 10 then .ret none else .ret (some (ptr + 1, len - 1))
              else if b ≥ 192 then
                if len - 2 < 10 then .ret none else .ret (some (ptr + 2, len - 2))
              else if b ≤ 63 then skip_loop buf2 fuel (ptr + (1 + b)) (len - (1 + b))
              else .ret none := by
          intro buf2 hb2
          rw [skip_loop]
          unfold sizeof_dns_record_t DNS_NAME_PTR_MINVAL DNS_NAME_LABEL_MAXLEN
          rw [if_pos c0, hb2]
        by_cases b0 : b = 0
        · rw [if_pos b0] at hs
          by_cases c1 : len - 1 < 10
          · rw [if_pos c1] at hs; simp at hs
          rw [if_neg c1] at hs
          simp only [Outcome.ret.injEq, Option.some.injEq, Prod.mk.injEq] at hs
          obtain ⟨rfl, rfl⟩ := hs
          refine ⟨by omega, by omega, by omega, ?_⟩
          intro buf2 hag
          rw [unfold2 buf2 (by rw [hag ptr (le_refl _) (by omega), hb]), if_pos b0, if_neg c1]
        · rw [if_neg b0] at hs
          by_cases b1 : b ≥ 192
          · rw [if_pos b1] at hs
            by_cases c1 : len - 2 < 10
            · rw [if_pos c1] at hs; simp at hs
            rw [if_neg c1] at hs
            simp only [Outcome.ret.injEq, Option.some.injEq, Prod.mk.injEq] at hs
            obtain ⟨rfl, rfl⟩ := hs
            refine ⟨by omega, by omega, by omega, ?_⟩
            intro buf2 hag
            rw [unfold2 buf2 (by rw [hag ptr (le_refl _) (by omega), hb]), if_neg b0, if_pos b1,
              if_neg c1]
          · rw [if_neg b1] at hs
            by_cases b2 : b ≤ 63
            · rw [if_pos b2] at hs
              obtain ⟨i1, i2, i3, i4⟩ := ih _ _ _ _ hs
              refine ⟨by omega, by omega, i3, ?_⟩
              intro buf2 hag
              rw [unfold2 buf2 (by rw [hag ptr (le_refl _) (by omega), hb]), if_neg b0, if_neg b1,
                if_pos b2]
              exact i4 buf2 (fun x h1 h2 => hag x (by omega) h2)
            · rw [if_neg b2] at hs
              simp at hs
    · rw [if_neg c0] at hs
      by_cases c2 : len < 10
      · rw [if_pos c2] at hs; simp at hs
      rw [if_neg c2] at hs
      simp only [Outcome.ret.injEq, Option.some.injEq, Prod.mk.injEq] at hs
      obtain ⟨rfl, rfl⟩ := hs
      refine ⟨le_refl _, rfl, by omega, ?_⟩
      intro buf2 _
      rw [skip_loop]
      unfold sizeof_dns_record_t
      rw [if_neg c0, if_neg c2]

theorem record_at_inv (buf : List Nat) (p l h l1 : Int) (t c d : Nat)
    (hr : record_at buf p l = some (h, l1, t, c, d)) :
    skip_name buf p l = .ret (some (h, l1)) ∧ rd16 buf h = some t ∧ rd16 buf (h + 2) = some c ∧
      rd16 buf (h + 8) = some d := by
  unfold record_at at hr
  cases hs : skip_name buf p l with
  | oob => rw [hs] at hr; simp at hr
  | nofuel => rw [hs] at hr; simp at hr
  | ret x =>
    rw [hs] at hr
    cases x with
    | none => simp at hr
    | some y =>
      obtain ⟨h', l'⟩ := y
      simp only at hr
      cases ht : rd16 buf h' with
      | none => rw [ht] at hr; simp at hr
      | some t' =>
        cases hc : rd16 buf (h' + 2) with
        | none => rw [ht, hc] at hr; simp at hr
        | some c' =>
          cases hd : rd16 buf (h' + 8) with
          | none => rw [ht, hc, hd] at hr; simp at hr
          | some d' =>
            rw [ht, hc, hd] at hr
            simp only [Option.some.injEq, Prod.mk.injEq] at hr
            obtain ⟨rfl, rfl, rfl, rfl, rfl⟩ := hr
            exact ⟨rfl, ht, hc, hd⟩

theorem record_at_of (buf : List Nat) (p l h l1 : Int) (t c d : Nat)
    (hs : skip_name buf p l = .ret (some (h, l1))) (ht : rd16 buf h = some t)
    (hc : rd16 buf (h + 2) = some c) (hd : rd16 buf (h + 8) = some d) :
    record_at buf p l = some (h, l1, t, c, d) := by
  unfold record_at
  rw [hs]
  simp only [ht, hc, hd]

theorem record_at_bounds (buf : List Nat) (p l h l1 : Int) (t c d : Nat)
    (hr : record_at buf p l = some (h, l1, t, c, d)) :
    p ≤ h ∧ h + l1 = p + l ∧ 10 ≤ l1 := by
  obtain ⟨hs, _⟩ := record_at_inv buf p l h l1 t c d hr
  obtain ⟨a, b, c, _⟩ := skip_loop_inv buf _ _ _ _ _ hs
  exact ⟨a, b, c⟩

theorem record_at_agree (buf buf2 : List Nat) (p l h l1 : Int) (t c d : Nat)
    (hr : record_at buf p l = some (h, l1, t, c, d))
    (hag : ∀ x : Int, p ≤ x → x < h + 10 → rd buf2 x = rd buf x) :
    record_at buf2 p l = some (h, l1, t, c, d) := by
  obtain ⟨hs, ht, hc, hd⟩ := record_at_inv buf p l h l1 t c d hr
  obtain ⟨a, _, _, i4⟩ := skip_loop_inv buf _ _ _ _ _ hs
  apply record_at_of
  · exact i4 buf2 (fun x h1 h2 => hag x h1 (by omega))
  · rw [rd16_agree buf buf2 h (fun x h1 h2 => hag x (by omega) (by omega))]; exact ht
  · rw [rd16_agree buf buf2 (h + 2) (fun x h1 h2 => hag x (by omega) (by omega))]; exact hc
  · rw [rd16_agree buf buf2 (h + 8) (fun x h1 h2 => hag x (by omega) (by omega))]; exact hd

/-- One iteration of the answer walk on a record whose fields can be read. -/
theorem chnip_loop_step (P : List Nat → Bool → Bool) (buf : List Nat) (m : Nat)
    (p l h l1 : Int) (t c d : Nat) (hr : record_at buf p l = some (h, l1, t, c, d)) :
    chnip_loop P buf (m + 1) p l =
      if c ≠ 1 then .ret 3
      else if l1 < 10 + (d : Int) then .ret 3
      else if t = 1 then
        if d ≠ 4 then .ret 3
        else match rdN buf (h + 10) 4 with
          | none => .oob
          | some rdata => .ret (if P rdata true then 0 else 1)
      else if t = 28 then
        if d ≠ 16 then .ret 3
        else match rdN buf (h + 10) 16 with
          | none => .oob
          | some rdata => .ret (if P rdata false then 0 else 1)
      else chnip_loop P buf m (h + (10 + d)) (l1 - (10 + d)) := by
  obtain ⟨hs, ht, hc, hd⟩ := record_at_inv buf p l h l1 t c d hr
  rw [chnip_loop, hs]
  simp only [hc, hd, ht, DNS_CLASS_INTERNET, DNS_IPCHK_BAD_PACKET, sizeof_dns_record_t,
    DNS_RECORD_TYPE_A, DNS_RECORD_TYPE_AAAA, IPV4_BINADDR_LEN, IPV6_BINADDR_LEN,
    DNS_IPCHK_IS_CHNIP, DNS_IPCHK_NOT_CHNIP]

theorem after_records_inv (buf : List Nat) : ∀ (j : Nat) (p0 l0 p l : Int),
    after_records buf j p0 l0 = some (p, l) →
    p0 ≤ p ∧ p + l = p0 + l0 ∧
    (∀ (P : List Nat → Bool → Bool) (m : Nat),
      chnip_loop P buf (j + m) p0 l0 = chnip_loop P buf m p l) ∧
    ∀ buf2 : List Nat, (∀ x : Int, p0 ≤ x → x < p → rd buf2 x = rd buf x) →
      after_records buf2 j p0 l0 = some (p, l) := by
  intro j
  induction j with
  | zero =>
    intro p0 l0 p l h
    simp only [after_records, Option.some.injEq, Prod.mk.injEq] at h
    obtain ⟨rfl, rfl⟩ := h
    refine ⟨le_refl _, rfl, ?_, ?_⟩
    · intro P m; rw [Nat.zero_add]
    · intro buf2 _; rfl
  | succ j ih =>
    intro p0 l0 p l h
    rw [after_records] at h
    cases hr : record_at buf p0 l0 with
    | none => rw [hr] at h; simp at h
    | some x =>
      obtain ⟨h1, l1, t, c, d⟩ := x
      rw [hr] at h
      simp only at h
      by_cases hc : c = 1 ∧ t ≠ 1 ∧ t ≠ 28 ∧ (10 + d : Int) ≤ l1
      · rw [if_pos hc] at h
        obtain ⟨c1, c2, c3, c4⟩ := hc
        obtain ⟨i1, i2, i3, i4⟩ := ih _ _ _ _ h
        obtain ⟨b1, b2, b3⟩ := record_at_bounds buf p0 l0 h1 l1 t c d hr
        refine ⟨by omega, by omega, ?_, ?_⟩
        · intro P m
          rw [show j + 1 + m = (j + m) + 1 by omega, chnip_loop_step P buf (j + m) p0 l0 h1 l1 t c d hr]
          rw [if_neg (by simpa using c1), if_neg (by omega), if_neg c2, if_neg c3]
          exact i3 P m
        · intro buf2 hag
          rw [after_records, record_at_agree buf buf2 p0 l0 h1 l1 t c d hr
            (fun x h1 h2 => hag x h1 (by omega))]
          simp only
          rw [if_pos ⟨c1, c2, c3, c4⟩]
          exact i4 buf2 (fun x h1 h2 => hag x (by omega) h2)
      · rw [if_neg hc] at h; simp at h

theorem to_ssize_t_id (x : Int) (h1 : -9223372036854775808 ≤ x) (h2 : x < 9223372036854775808) :
    to_ssize_t x = x := by
  unfold to_ssize_t
  omega

theorem chnip_at_addr (P : List Nat → Bool → Bool) (buf : List Nat) (cnt j : Nat)
    (p0 l0 p l h l1 : Int) (t d : Nat) (hj : j < cnt)
    (hwalk : after_records buf j p0 l0 = some (p, l))
    (hrec : record_at buf p l = some (h, l1, t, 1, d)) (hin : (10 + d : Int) ≤ l1)
    (haddr : (t = 1 ∧ d = 4) ∨ (t = 28 ∧ d = 16)) :
    chnip_loop P buf cnt p0 l0 =
      match rdN buf (h + 10) d with
      | none => .oob
      | some rdata => .ret (if P rdata (decide (t = 1)) then DNS_IPCHK_IS_CHNIP
                            else DNS_IPCHK_NOT_CHNIP) := by
  obtain ⟨_, _, i3, _⟩ := after_records_inv buf j p0 l0 p l hwalk
  have hc : cnt = j + ((cnt - j - 1) + 1) := by omega
  rw [hc, i3 P, chnip_loop_step P buf _ p l h l1 t 1 d hrec]
  rw [if_neg (by simp), if_neg (by omega)]
  rcases haddr with ⟨rfl, rfl⟩ | ⟨rfl, rfl⟩
  · simp [DNS_IPCHK_IS_CHNIP, DNS_IPCHK_NOT_CHNIP]
  · simp [DNS_IPCHK_IS_CHNIP, DNS_IPCHK_NOT_CHNIP]

/-- C5: on an accepted reply, when `j` skipped records (skippable name, class 1, type other
than A/AAAA, data inside the buffer) are followed by a record with skippable name, class 1
and type A with 4 data bytes (or AAAA with 16) inside the buffer, `dns_chnip_check` returns
IS_CHNIP or NOT_CHNIP according to the membership predicate on exactly those data bytes
with the matching ipv4 flag, and the result is the same on every buffer that agrees with
this one up to the end of that record's data. -/
theorem C5_first_address_record (P : List Nat → Bool → Bool) (buf : List Nat) (len n : Int)
    (nb : Option (List Nat)) (pn : Option Int) (r : Ret) (hlen : len ≤ buf.length)
    (hreply : dns_reply_check buf len nb pn = .ret r) (hok : r.ok = true)
    (hn : r.p_namelen = some n)
    (j : Nat) (p l h l1 : Int) (t d : Nat) (hj : j < be16 buf 6)
    (hwalk : after_records buf j (12 + n + 4) (len - (12 + n + 4)) = some (p, l))
    (hrec : record_at buf p l = some (h, l1, t, 1, d)) (hin : (10 + d : Int) ≤ l1)
    (haddr : (t = 1 ∧ d = 4) ∨ (t = 28 ∧ d = 16)) :
    dns_chnip_check P buf len n =
      .ret (if P (slice buf (h + 10).toNat d) (decide (t = 1)) then DNS_IPCHK_IS_CHNIP
            else DNS_IPCHK_NOT_CHNIP) ∧
    ∀ buf2 : List Nat, buf2.take (h + 10 + d).toNat = buf.take (h + 10 + d).toNat →
      dns_chnip_check P buf2 len n = dns_chnip_check P buf len n := by
  obtain ⟨⟨h17, h1472, _⟩, k, hk, hk255, hrem, _, hpn, _⟩ :=
    check_packet_accepted false buf len nb pn r hlen hreply hok
  have hnk : n = (k : Int) + 1 := by
    rw [hn] at hpn
    cases pn with
    | none => simp at hpn
    | some v => simpa using hpn
  obtain ⟨a1, a2, _, a4⟩ := after_records_inv buf j _ _ p l hwalk
  obtain ⟨b1, b2, b3⟩ := record_at_bounds buf p l h l1 t 1 d hrec
  have hss : to_ssize_t (len - (12 + n + 4)) = len - (12 + n + 4) :=
    to_ssize_t_id _ (by omega) (by omega)
  have h6 : rd16 buf 6 = some (be16 buf 6) := rd16_int buf 6 (by omega) (by omega)
  have hrd : rdN buf (h + 10) d = some (slice buf (h + 10).toNat d) := by
    obtain ⟨m, hm⟩ : ∃ m : Nat, h + 10 = (m : Int) := ⟨(h + 10).toNat, by omega⟩
    rw [hm, rdN_slice buf d m (by omega), Int.toNat_ofNat]
  have main : ∀ buf2 : List Nat, (∀ x : Int, x < h + 10 + d → rd buf2 x = rd buf x) →
      dns_chnip_check P buf2 len n =
        .ret (if P (slice buf (h + 10).toNat d) (decide (t = 1)) then DNS_IPCHK_IS_CHNIP
              else DNS_IPCHK_NOT_CHNIP) := by
    intro buf2 hag
    unfold dns_chnip_check
    rw [rd16_agree buf buf2 6 (fun x _ _ => hag x (by omega)), h6]
    simp only [sizeof_dns_header_t, sizeof_dns_query_t, hss]
    rw [chnip_at_addr P buf2 (be16 buf 6) j _ _ p l h l1 t d hj
      (a4 buf2 (fun x _ h2 => hag x (by omega)))
      (record_at_agree buf buf2 p l h l1 t 1 d hrec (fun x _ h2 => hag x (by omega))) hin haddr]
    rw [rdN_agree buf buf2 d (h + 10) (fun x _ h2 => hag x (by omega)), hrd]
  constructor
  · exact main buf (fun _ _ => rfl)
  · intro buf2 htake
    rw [main buf (fun _ _ => rfl)]
    apply main buf2
    intro x hx
    exact rd_of_take_eq buf buf2 (h + 10 + d).toNat htake x (by omega)

theorem C5_first_address_record_witness :
    dns_chnip_check testIpset replyPacket 62 16 =
      .ret (if testIpset (slice replyPacket ((48 : Int) + 10).toNat 4) (decide (1 = 1))
            then DNS_IPCHK_IS_CHNIP else DNS_IPCHK_NOT_CHNIP) ∧
    ∀ buf2 : List Nat, buf2.take ((48 : Int) + 10 + (4 : Nat)).toNat =
        replyPacket.take ((48 : Int) + 10 + (4 : Nat)).toNat →
      dns_chnip_check testIpset buf2 62 16 = dns_chnip_check testIpset replyPacket 62 16 :=
  C5_first_address_record testIpset replyPacket 62 16 none (some 0) ⟨true, none, some 16⟩
    (by decide) (by decide) rfl rfl 1 46 16 48 14 1 4 (by decide) (by decide) (by decide)
    (by decide) (by decide)

theorem question_tail_name_buf (buf : List Nat) (len : Int) (k : Nat) (nb : Option (List Nat))
    (pn : Option Int) : (question_tail buf len k nb pn).name_buf = nb :=
  (question_tail_ok buf len k nb pn).2.1

/-- The validator always returns, and leaves the name buffer untouched from index 254 on. -/
theorem check_packet_total (q : Bool) (buf : List Nat) (len : Int) (nb : Option (List Nat))
    (pn : Option Int) (hlen : len ≤ buf.length)
    (hcap : ∀ out, nb = some out → 254 ≤ out.length) :
    ∃ r, check_packet q buf len nb pn = .ret r ∧ (nb = none → r.name_buf = none) ∧
      ∀ out, nb = some out → ∃ out1, r.name_buf = some out1 ∧ out1.length = out.length ∧
        out1.drop 254 = out.drop 254 := by
  have triv : ∃ r, (Outcome.ret (⟨false, nb, pn⟩ : Ret)) = .ret r ∧ (nb = none → r.name_buf = none) ∧
      ∀ out, nb = some out → ∃ out1, r.name_buf = some out1 ∧ out1.length = out.length ∧
        out1.drop 254 = out.drop 254 :=
    ⟨_, rfl, fun h => h, fun out ho => ⟨out, ho, rfl, rfl⟩⟩
  by_cases h : HdrOk q buf len
  · by_cases hz : ∃ k, FirstZero buf len k
    · obtain ⟨k, hk⟩ := hz
      rw [check_packet_found q buf len nb pn k hlen h hk]
      by_cases hk255 : k + 1 > 255
      · rw [if_pos hk255]; exact triv
      · rw [if_neg hk255]
        cases nb with
        | none =>
          refine ⟨_, rfl, fun _ => question_tail_name_buf _ _ _ _ _, fun out ho => by simp at ho⟩
        | some out =>
          have hc := hcap out rfl
          have hdec : ∃ ok out1, decode_name out buf 12 ((k : Int) + 1) = .ret (ok, out1) ∧
              out1.length = out.length ∧ out1.drop 254 = out.drop 254 := by
            by_cases hk0 : (k : Int) + 1 ≤ 1
            · refine ⟨true, _, decode_name_root out buf 12 _ hk0 (by omega), ?_, ?_⟩
              · simp; omega
              · have : out.drop 254 = (out.drop 2).drop 252 := by rw [List.drop_drop]
                rw [this]; rfl
            · obtain ⟨ok, out1, r, hl, hd, _⟩ := decode_name_total out buf 12 ((k : Int) + 1)
                (by omega) (by have := hk.1; push_cast; omega) (by omega)
              exact ⟨ok, out1, r, hl, hd 254 (by push_cast; omega)⟩
          obtain ⟨ok, out1, r, hl, hd⟩ := hdec
          simp only [r]
          cases ok with
          | false =>
            refine ⟨_, rfl, fun hn => by simp at hn, ?_⟩
            intro out2 ho
            simp only [Option.some.injEq] at ho
            subst ho
            exact ⟨out1, rfl, hl, hd⟩
          | true =>
            refine ⟨_, rfl, fun hn => by simp at hn, ?_⟩
            intro out2 ho
            simp only [Option.some.injEq] at ho
            subst ho
            exact ⟨out1, question_tail_name_buf _ _ _ _ _, hl, hd⟩
    · rw [check_packet_nozero q buf len nb pn hlen (fun k hk => hz ⟨k, hk⟩)]
      exact triv
  · rw [check_packet_hdr_fail q buf len nb pn hlen h]
    exact triv

theorem skip_loop_total (buf : List Nat) : ∀ (fuel : Nat) (ptr len : Int), len ≤ fuel →
    0 ≤ ptr → ptr + len ≤ buf.length → ∃ x, skip_loop buf fuel ptr len = .ret x := by
  intro fuel
  induction fuel with
  | zero =>
    intro ptr len hf _ _
    rw [skip_loop, if_neg (by simp at hf; omega)]
    by_cases c : len < sizeof_dns_record_t
    · rw [if_pos c]; exact ⟨_, rfl⟩
    · rw [if_neg c]; exact ⟨_, rfl⟩
  | succ fuel ih =>
    intro ptr len hf hp hs
    rw [skip_loop]
    by_cases c0 : len > 0
    · rw [if_pos c0, rd_int buf ptr hp (by omega)]
      simp only
      by_cases b0 : byte buf ptr.toNat = 0
      · rw [if_pos b0]
        by_cases c : len - 1 < sizeof_dns_record_t
        · rw [if_pos c]; exact ⟨_, rfl⟩
        · rw [if_neg c]; exact ⟨_, rfl⟩
      · rw [if_neg b0]
        by_cases b1 : byte buf ptr.toNat ≥ DNS_NAME_PTR_MINVAL
        · rw [if_pos b1]
          by_cases c : len - 2 < sizeof_dns_record_t
          · rw [if_pos c]; exact ⟨_, rfl⟩
          · rw [if_neg c]; exact ⟨_, rfl⟩
        · rw [if_neg b1]
          by_cases b2 : byte buf ptr.toNat ≤ DNS_NAME_LABEL_MAXLEN
          · rw [if_pos b2]
            exact ih _ _ (by push_cast at hf; omega) (by omega) (by omega)
          · rw [if_neg b2]; exact ⟨_, rfl⟩
    · rw [if_neg c0]
      by_cases c : len < sizeof_dns_record_t
      · rw [if_pos c]; exact ⟨_, rfl⟩
      · rw [if_neg c]; exact ⟨_, rfl⟩

theorem skip_name_total (buf : List Nat) (ptr len : Int) (hp : 0 ≤ ptr)
    (hs : ptr + len ≤ buf.length) : ∃ x, skip_name buf ptr len = .ret x :=
  skip_loop_total buf len.toNat ptr len (by omega) hp hs

/-- The fields of a record with a skippable name can be read inside the buffer. -/
theorem record_at_some (buf : List Nat) (p l h l1 : Int) (hp : 0 ≤ p)
    (hs : p + l ≤ buf.length) (hk : skip_name buf p l = .ret (some (h, l1))) :
    ∃ t c d, record_at buf p l = some (h, l1, t, c, d) := by
  obtain ⟨a, b, c, _⟩ := skip_loop_inv buf _ _ _ _ _ hk
  exact ⟨_, _, _, record_at_of buf p l h l1 _ _ _ hk (rd16_int buf h (by omega) (by omega))
    (rd16_int buf (h + 2) (by omega) (by omega)) (rd16_int buf (h + 8) (by omega) (by omega))⟩

theorem rdN_some (buf : List Nat) (i : Int) (n : Nat) (h0 : 0 ≤ i) (h : i + n ≤ buf.length) :
    rdN buf i n = some (slice buf i.toNat n) := by
  obtain ⟨m, hm⟩ : ∃ m : Nat, i = (m : Int) := ⟨i.toNat, by omega⟩
  rw [hm, rdN_slice buf n m (by omega), Int.toNat_ofNat]

theorem chnip_loop_total (P : List Nat → Bool → Bool) (buf : List Nat) : ∀ (cnt : Nat)
    (p l : Int), 0 ≤ p → p + l ≤ buf.length → ∃ c, chnip_loop P buf cnt p l = .ret c := by
  intro cnt
  induction cnt with
  | zero => intro p l _ _; exact ⟨_, rfl⟩
  | succ cnt ih =>
    intro p l hp hs
    obtain ⟨x, hx⟩ := skip_name_total buf p l hp hs
    cases x with
    | none => rw [chnip_loop, hx]; exact ⟨_, rfl⟩
    | some y =>
      obtain ⟨h, l1⟩ := y
      obtain ⟨t, c, d, hr⟩ := record_at_some buf p l h l1 hp hs hx
      obtain ⟨b1, b2, b3⟩ := record_at_bounds buf p l h l1 t c d hr
      rw [chnip_loop_step P buf cnt p l h l1 t c d hr]
      by_cases c1 : c ≠ 1
      · rw [if_pos c1]; exact ⟨_, rfl⟩
      rw [if_neg c1]
      by_cases c2 : l1 < 10 + (d : Int)
      · rw [if_pos c2]; exact ⟨_, rfl⟩
      rw [if_neg c2]
      by_cases t1 : t = 1
      · rw [if_pos t1]
        by_cases d4 : d ≠ 4
        · rw [if_pos d4]; exact ⟨_, rfl⟩
        · rw [if_neg d4, rdN_some buf (h + 10) 4 (by omega) (by omega)]; exact ⟨_, rfl⟩
      rw [if_neg t1]
      by_cases t28 : t = 28
      · rw [if_pos t28]
        by_cases d16 : d ≠ 16
        · rw [if_pos d16]; exact ⟨_, rfl⟩
        · rw [if_neg d16, rdN_some buf (h + 10) 16 (by omega) (by omega)]; exact ⟨_, rfl⟩
      rw [if_neg t28]
      exact ih _ _ (by omega) (by omega)

/-- On an accepted packet with reported name length `n` the classifier starts its walk at
offset `16 + n` with the true remaining length. -/
theorem chnip_check_accepted (P : List Nat → Bool → Bool) (q : Bool) (buf : List Nat)
    (len n : Int) (nb : Option (List Nat)) (pn : Option Int) (r : Ret)
    (hlen : len ≤ buf.length) (hr : check_packet q buf len nb pn = .ret r)
    (hok : r.ok = true) (hn : r.p_namelen = some n) :
    1 ≤ n ∧ n ≤ 255 ∧ 16 + n ≤ len ∧ len ≤ 1472 ∧
    dns_chnip_check P buf len n =
      chnip_loop P buf (be16 buf 6) (12 + n + 4) (len - (12 + n + 4)) := by
  obtain ⟨⟨h17, h1472, _⟩, k, hk, hk255, hrem, _, hpn, _⟩ :=
    check_packet_accepted q buf len nb pn r hlen hr hok
  have hnk : n = (k : Int) + 1 := by
    rw [hn] at hpn
    cases pn with
    | none => simp at hpn
    | some v => simpa using hpn
  refine ⟨by omega, by omega, by omega, h1472, ?_⟩
  unfold dns_chnip_check
  rw [rd16_int buf 6 (by omega) (by omega)]
  simp only [sizeof_dns_header_t, sizeof_dns_query_t]
  rw [to_ssize_t_id _ (by omega) (by omega)]
  rfl

/-- C6: no entry point reads outside the buffer. On a buffer holding `len` bytes,
`dns_query_check` and `dns_reply_check` return (no access outside the buffers, no exhausted
loop bound), without a name buffer or with one of at least 254 bytes; and after a
successful `dns_reply_check` reporting name length `n`, `dns_chnip_check` returns as well,
the address bytes handed to the membership predicate being read inside the buffer. -/
theorem C6_no_read_past_buffer (buf : List Nat) (len : Int) (hlen : len ≤ buf.length) :
    (∀ (nb : Option (List Nat)) (pn : Option Int), (∀ out, nb = some out → 254 ≤ out.length) →
      (∃ r, dns_query_check buf len nb pn = .ret r) ∧
      (∃ r, dns_reply_check buf len nb pn = .ret r)) ∧
    (∀ (P : List Nat → Bool → Bool) (nb : Option (List Nat)) (pn : Option Int) (r : Ret)
      (n : Int), dns_reply_check buf len nb pn = .ret r → r.ok = true → r.p_namelen = some n →
      ∃ c, dns_chnip_check P buf len n = .ret c) := by
  constructor
  · intro nb pn hcap
    obtain ⟨r1, h1, _⟩ := check_packet_total true buf len nb pn hlen hcap
    obtain ⟨r2, h2, _⟩ := check_packet_total false buf len nb pn hlen hcap
    exact ⟨⟨r1, h1⟩, ⟨r2, h2⟩⟩
  · intro P nb pn r n hr hok hn
    obtain ⟨a, b, c, d, e⟩ := chnip_check_accepted P false buf len n nb pn r hlen hr hok hn
    rw [e]
    exact chnip_loop_total P buf _ _ _ (by omega) (by omega)

theorem C6_no_read_past_buffer_witness :
    (∀ (nb : Option (List Nat)) (pn : Option Int), (∀ out, nb = some out → 254 ≤ out.length) →
      (∃ r, dns_query_check replyPacket 62 nb pn = .ret r) ∧
      (∃ r, dns_reply_check replyPacket 62 nb pn = .ret r)) ∧
    (∀ (P : List Nat → Bool → Bool) (nb : Option (List Nat)) (pn : Option Int) (r : Ret)
      (n : Int), dns_reply_check replyPacket 62 nb pn = .ret r → r.ok = true →
      r.p_namelen = some n → ∃ c, dns_chnip_check P replyPacket 62 n = .ret c) :=
  C6_no_read_past_buffer replyPacket 62 (by decide)

/-- C7 (amended): a name buffer of `DNS_NAME_MAXLEN + 1 = 254` bytes is always sufficient.
Whether the call succeeds or fails, `dns_query_check` and `dns_reply_check` return without
an access outside the name buffer, and every byte of the name buffer from index 254 on
is left as it was: all writes are at indices 0..253. -/
theorem C7_name_buffer_254 (buf : List Nat) (len : Int) (out : List Nat) (pn : Option Int)
    (hlen : len ≤ buf.length) (hcap : DNS_NAME_MAXLEN + 1 ≤ out.length) :
    (∃ r out1, dns_query_check buf len (some out) pn = .ret r ∧ r.name_buf = some out1 ∧
      out1.length = out.length ∧ out1.drop (DNS_NAME_MAXLEN + 1) = out.drop (DNS_NAME_MAXLEN + 1)) ∧
    (∃ r out1, dns_reply_check buf len (some out) pn = .ret r ∧ r.name_buf = some out1 ∧
      out1.length = out.length ∧ out1.drop (DNS_NAME_MAXLEN + 1) = out.drop (DNS_NAME_MAXLEN + 1)) := by
  have hc : ∀ o, some out = some o → 254 ≤ o.length := by
    intro o ho
    simp only [Option.some.injEq] at ho
    subst ho
    exact hcap
  obtain ⟨r1, h1, _, f1⟩ := check_packet_total true buf len (some out) pn hlen hc
  obtain ⟨r2, h2, _, f2⟩ := check_packet_total false buf len (some out) pn hlen hc
  obtain ⟨o1, a1, b1, c1⟩ := f1 out rfl
  obtain ⟨o2, a2, b2, c2⟩ := f2 out rfl
  exact ⟨⟨r1, o1, h1, a1, b1, c1⟩, ⟨r2, o2, h2, a2, b2, c2⟩⟩

set_option maxRecDepth 100000 in
theorem C7_name_buffer_254_witness :
    (∃ r out1, dns_query_check longQuery 271 (some (List.replicate 254 7)) (some 0) = .ret r ∧
      r.name_buf = some out1 ∧ out1.length = (List.replicate 254 7).length ∧
      out1.drop (DNS_NAME_MAXLEN + 1) = (List.replicate 254 7).drop (DNS_NAME_MAXLEN + 1)) ∧
    (∃ r out1, dns_reply_check longQuery 271 (some (List.replicate 254 7)) (some 0) = .ret r ∧
      r.name_buf = some out1 ∧ out1.length = (List.replicate 254 7).length ∧
      out1.drop (DNS_NAME_MAXLEN + 1) = (List.replicate 254 7).drop (DNS_NAME_MAXLEN + 1)) :=
  C7_name_buffer_254 longQuery 271 (List.replicate 254 7) (some 0) (by decide) (by decide)

set_option maxRecDepth 100000 in
/-- C7 as stated fails: with a name buffer of `DNS_NAME_MAXLEN = 253` bytes (indices 0..252)
the query whose encoded name has 255 bytes makes `dns_query_check` write outside the name
buffer (the copy of the name reaches index 253), while the call returns with a buffer of
254 bytes. -/
theorem C7_name_buffer_253_overrun :
    longQuery.length = 271 ∧
    dns_query_check longQuery 271 (some (List.replicate DNS_NAME_MAXLEN 0)) none = .oob ∧
    ∃ r, dns_query_check longQuery 271 (some (List.replicate (DNS_NAME_MAXLEN + 1) 0)) none =
      .ret r := by
  refine ⟨by decide, by decide, ?_⟩
  obtain ⟨r, hr, _⟩ := check_packet_total true longQuery 271
    (some (List.replicate (DNS_NAME_MAXLEN + 1) 0)) none (by decide)
    (fun o ho => by simp only [Option.some.injEq] at ho; subst ho; decide)
  exact ⟨r, hr⟩

theorem check_packet_short (q : Bool) (buf : List Nat) (len : Int) (nb : Option (List Nat))
    (pn : Option Int) (h : len < 17) : check_packet q buf len nb pn = .ret ⟨false, nb, pn⟩ := by
  unfold check_packet
  have h1 : len < DNS_PACKET_MINSIZE := by
    simp only [DNS_PACKET_MINSIZE, sizeof_dns_header_t, DNS_NAME_ENC_MINLEN, sizeof_dns_query_t]
    omega
  rw [if_pos h1]

theorem skip_name_short (buf : List Nat) (ptr len : Int) (h : len ≤ 0) :
    skip_name buf ptr len = .ret none := by
  unfold skip_name
  have : len.toNat = 0 := by omega
  rw [this, skip_loop, if_neg (by omega), if_pos (by unfold sizeof_dns_record_t; omega)]

/-- C10 (amended): on a buffer of fewer than 17 bytes `dns_query_check` and `dns_reply_check`
return failure and leave their outputs untouched. `dns_chnip_check` has no length check of
its own: for a name-length argument `n ≥ 0` it returns NOT_FOUND when the answer count
(bytes 6..7) is 0 and BAD_PACKET otherwise, provided the buffer has the 8 bytes it reads
the answer count from; on a shorter buffer that read is outside the buffer. -/
theorem C10_short_buffer (buf : List Nat) (len : Int) (hlen : len = buf.length)
    (h17 : len < 17) :
    (∀ (nb : Option (List Nat)) (pn : Option Int),
      dns_query_check buf len nb pn = .ret ⟨false, nb, pn⟩ ∧
      dns_reply_check buf len nb pn = .ret ⟨false, nb, pn⟩) ∧
    (∀ (P : List Nat → Bool → Bool) (n : Int), 0 ≤ n → n < 2147483648 → 8 ≤ len →
      dns_chnip_check P buf len n =
        .ret (if be16 buf 6 = 0 then DNS_IPCHK_NOT_FOUND else DNS_IPCHK_BAD_PACKET)) ∧
    (∀ (P : List Nat → Bool → Bool) (n : Int), len < 8 → dns_chnip_check P buf len n = .oob) := by
  refine ⟨fun nb pn => ⟨check_packet_short true buf len nb pn h17,
    check_packet_short false buf len nb pn h17⟩, ?_, ?_⟩
  · intro P n hn0 hn31 h8
    unfold dns_chnip_check
    rw [rd16_int buf 6 (by omega) (by omega)]
    simp only [sizeof_dns_header_t, sizeof_dns_query_t]
    rw [to_ssize_t_id _ (by omega) (by omega)]
    have e : (6 : Int).toNat = 6 := rfl
    rw [e]
    rcases hc : be16 buf 6 with _ | cnt
    · simp [chnip_loop]
    · rw [chnip_loop, skip_name_short buf _ _ (by omega)]
      simp
  · intro P n h8
    unfold dns_chnip_check
    have : rd16 buf 6 = none := by
      unfold rd16
      by_cases h7 : len < 7
      · have : rd buf 6 = none := by
          unfold rd
          rw [if_neg (by omega)]
          exact List.getElem?_eq_none (by have : (6 : Int).toNat = 6 := rfl; omega)
        rw [this]
      · have h1 : rd buf (6 + 1) = none := by
          unfold rd
          rw [if_neg (by omega)]
          exact List.getElem?_eq_none (by have : ((6 : Int) + 1).toNat = 7 := rfl; omega)
        rw [h1]
        cases rd buf 6 <;> rfl
    rw [this]

theorem C10_short_buffer_witness :
    (∀ (nb : Option (List Nat)) (pn : Option Int),
      dns_query_check truncatedReply 16 nb pn = .ret ⟨false, nb, pn⟩ ∧
      dns_reply_check truncatedReply 16 nb pn = .ret ⟨false, nb, pn⟩) ∧
    (∀ (P : List Nat → Bool → Bool) (n : Int), 0 ≤ n → n < 2147483648 → 8 ≤ (16 : Int) →
      dns_chnip_check P truncatedReply 16 n =
        .ret (if be16 truncatedReply 6 = 0 then DNS_IPCHK_NOT_FOUND else DNS_IPCHK_BAD_PACKET)) ∧
    (∀ (P : List Nat → Bool → Bool) (n : Int), (16 : Int) < 8 →
      dns_chnip_check P truncatedReply 16 n = .oob) :=
  C10_short_buffer truncatedReply 16 (by decide) (by decide)

/-- C10 as stated fails: on a 16-byte buffer whose answer count is 0 `dns_chnip_check`
returns NOT_FOUND (2), not BAD_PACKET (3). -/
theorem C10_short_buffer_not_found :
    truncatedReply.length = 16 ∧
    dns_chnip_check testIpset truncatedReply 16 1 = .ret DNS_IPCHK_NOT_FOUND ∧
    DNS_IPCHK_NOT_FOUND ≠ DNS_IPCHK_BAD_PACKET := by
  decide

theorem chain_align : ∀ (ls2 ls : List (List Nat)) (X Y : List Nat),
    encLabels ls2 ++ X = encLabels ls ++ Y →
    (∃ ls3, ls = ls2 ++ ls3 ∧ X = encLabels ls3 ++ Y) ∨
    (∃ ls3, ls2 = ls ++ ls3 ∧ Y = encLabels ls3 ++ X) := by
  intro ls2
  induction ls2 with
  | nil =>
    intro ls X Y h
    left
    exact ⟨ls, rfl, by simpa [encLabels] using h⟩
  | cons l2 ls2 ih =>
    intro ls X Y h
    rcases ls with _ | ⟨l, ls⟩
    · right
      exact ⟨l2 :: ls2, rfl, by simpa [encLabels] using h.symm⟩
    · simp only [encLabels, List.cons_append, List.cons.injEq, List.append_assoc] at h
      obtain ⟨h1, h2⟩ := h
      obtain ⟨h3, h4⟩ := List.append_inj h2 h1
      subst h3
      rcases ih ls X Y h4 with ⟨ls3, e1, e2⟩ | ⟨ls3, e1, e2⟩
      · left; exact ⟨ls3, by rw [e1]; rfl, e2⟩
      · right; exact ⟨ls3, by rw [e1]; rfl, e2⟩

theorem mem_encLabels (ls : List (List Nat)) (l : List Nat) (x : Nat) (hl : l ∈ ls)
    (hx : x ∈ l) : x ∈ encLabels ls := by
  induction ls with
  | nil => simp at hl
  | cons a ls ih =>
    rcases List.mem_cons.mp hl with rfl | h
    · simp [encLabels, hx]
    · simp [encLabels, ih h]

theorem mem_slice (buf : List Nat) (x : Nat) : ∀ (n s : Nat), s + n ≤ buf.length →
    x ∈ slice buf s n → ∃ i, i < n ∧ x = byte buf (s + i) := by
  intro n
  induction n with
  | zero => intro s _ h; simp [slice] at h
  | succ n ih =>
    intro s hs h
    rw [slice_succ buf s n (by omega)] at h
    rcases List.mem_cons.mp h with rfl | h
    · exact ⟨0, by omega, rfl⟩
    · obtain ⟨i, hi, e⟩ := ih (s + 1) (by omega) h
      exact ⟨i + 1, by omega, by rw [e]; congr 1; omega⟩

theorem slice_nonzero (buf : List Nat) (len : Int) (k : Nat) (hlen : len ≤ buf.length)
    (hk : FirstZero buf len k) : ∀ x ∈ slice buf 12 k, x ≠ 0 := by
  intro x hx
  obtain ⟨i, hi, e⟩ := mem_slice buf x k 12 (by have := hk.1; omega) hx
  rw [e]
  exact hk.2.2 i hi

theorem drop12_decomp (buf : List Nat) (len : Int) (k : Nat) (hlen : len ≤ buf.length)
    (hk : FirstZero buf len k) :
    buf.drop 12 = slice buf 12 k ++ 0 :: buf.drop (12 + k + 1) := by
  have hlt : 12 + k < buf.length := by have := hk.1; omega
  have h1 : buf.drop 12 = (buf.drop 12).take k ++ (buf.drop 12).drop k :=
    (List.take_append_drop k _).symm
  rw [List.drop_drop, List.drop_eq_getElem_cons hlt, ← byte_eq_getElem buf _ hlt, hk.2.1] at h1
  exact h1

theorem bad_chain_not_splits (buf : List Nat) (len : Int) (k : Nat) (hlen : len ≤ buf.length)
    (hk : FirstZero buf len k) (ls : List (List Nat)) (b : Nat) (rest : List Nat)
    (hv : ValidLabels ls) (hchain : buf.drop 12 = encLabels ls ++ b :: rest)
    (hbad : b > 63 ∨ ∃ l ∈ ls, 0 ∈ l) : ¬ SplitsIntoLabels (slice buf 12 k) := by
  rintro ⟨ls2, hv2, he⟩
  have hnz := slice_nonzero buf len k hlen hk
  have hd := drop12_decomp buf len k hlen hk
  rw [← he, hchain] at hd
  have key : ∀ ls3 : List (List Nat), ValidLabels ls3 → ∀ (c : Nat) (T U : List Nat) (c2 : Nat),
      c :: T = encLabels ls3 ++ c2 :: U → (ls3 = [] ∧ c = c2) ∨ (1 ≤ c ∧ c ≤ 63) := by
    intro ls3 hv3 c T U c2 h
    rcases ls3 with _ | ⟨l3, ls3⟩
    · left
      simp only [encLabels, List.nil_append, List.cons.injEq] at h
      exact ⟨rfl, h.1⟩
    · right
      simp only [encLabels, List.cons_append, List.cons.injEq] at h
      rw [h.1]
      exact hv3 l3 (List.mem_cons_self _ _)
  have zero_in : ∀ l ∈ ls2, ¬ (0 ∈ l) := by
    intro l hl h0
    have := mem_encLabels ls2 l 0 hl h0
    rw [he] at this
    exact hnz 0 this rfl
  rcases chain_align ls2 ls (0 :: buf.drop (12 + k + 1)) (b :: rest) hd.symm with
    ⟨ls3, e1, e2⟩ | ⟨ls3, e1, e2⟩
  · have hv3 : ValidLabels ls3 := fun x hx => hv x (by rw [e1]; exact List.mem_append_right _ hx)
    rcases key ls3 hv3 0 _ rest b e2 with ⟨rfl, hb⟩ | ⟨h1, _⟩
    · rcases hbad with hb63 | ⟨l, hl, h0⟩
      · omega
      · rw [e1, List.append_nil] at hl
        exact zero_in l hl h0
    · omega
  · have hv3 : ValidLabels ls3 := fun x hx => hv2 x (by rw [e1]; exact List.mem_append_right _ hx)
    rcases hbad with hb63 | ⟨l, hl, h0⟩
    · rcases key ls3 hv3 b rest _ 0 e2 with ⟨_, hb⟩ | ⟨_, h2⟩
      · omega
      · omega
    · exact zero_in l (by rw [e1]; exact List.mem_append_left _ hl) h0

theorem bad_chain_rejected (q : Bool) (buf : List Nat) (len : Int) (out : List Nat)
    (pn : Option Int) (hlen : len ≤ buf.length) (hcap : 254 ≤ out.length)
    (ls : List (List Nat)) (b : Nat) (rest : List Nat) (hv : ValidLabels ls)
    (hchain : buf.drop 12 = encLabels ls ++ b :: rest) (hbad : b > 63 ∨ ∃ l ∈ ls, 0 ∈ l) :
    ∃ r, check_packet q buf len (some out) pn = .ret r ∧ r.ok = false := by
  obtain ⟨r, hr, _⟩ := check_packet_total q buf len (some out) pn hlen
    (fun o ho => by simp only [Option.some.injEq] at ho; subst ho; exact hcap)
  refine ⟨r, hr, ?_⟩
  cases hok : r.ok with
  | false => rfl
  | true =>
    exfalso
    obtain ⟨_, k, hk, hk255, hrem, _, _, _, hdec⟩ :=
      check_packet_accepted q buf len (some out) pn r hlen hr hok
    obtain ⟨out1, hd, _⟩ := hdec out rfl
    have hns := bad_chain_not_splits buf len k hlen hk ls b rest hv hchain hbad
    by_cases hk0 : k = 0
    · subst hk0
      exact hns ⟨[], by intro l hl; simp at hl, by simp [encLabels, slice]⟩
    · obtain ⟨ok, out2, r2, _, _, hsp⟩ := decode_name_total out buf 12 ((k : Int) + 1) (by omega)
        (by have := hk.1; push_cast; omega) (by omega)
      have e12 : ((12 : Nat) : Int) = 12 := rfl
      rw [e12, hd] at r2
      simp only [Outcome.ret.injEq, Prod.mk.injEq] at r2
      have := hsp r2.1.symm
      have e : ((k : Int) + 1 - 1).toNat = k := by omega
      rw [e] at this
      exact hns this

/-- C8 (amended): when the decoded name is requested (name buffer of at least 254 bytes), a
question name whose chain of length-prefixed labels from offset 12 reaches a label length
byte above 63, or contains a zero byte inside a label, makes `dns_query_check` and
`dns_reply_check` return failure. -/
theorem C8_bad_label_rejected_with_name (buf : List Nat) (len : Int) (out : List Nat)
    (pn : Option Int) (hlen : len ≤ buf.length) (hcap : 254 ≤ out.length)
    (ls : List (List Nat)) (b : Nat) (rest : List Nat) (hv : ValidLabels ls)
    (hchain : buf.drop 12 = encLabels ls ++ b :: rest) (hbad : b > 63 ∨ ∃ l ∈ ls, 0 ∈ l) :
    (∃ r, dns_query_check buf len (some out) pn = .ret r ∧ r.ok = false) ∧
    (∃ r, dns_reply_check buf len (some out) pn = .ret r ∧ r.ok = false) :=
  ⟨bad_chain_rejected true buf len out pn hlen hcap ls b rest hv hchain hbad,
   bad_chain_rejected false buf len out pn hlen hcap ls b rest hv hchain hbad⟩

set_option maxRecDepth 8192 in
theorem C8_bad_label_rejected_with_name_witness :
    (∃ r, dns_query_check badLabelQuery 19 (some (List.replicate 254 0)) none = .ret r ∧
      r.ok = false) ∧
    (∃ r, dns_reply_check badLabelQuery 19 (some (List.replicate 254 0)) none = .ret r ∧
      r.ok = false) :=
  C8_bad_label_rejected_with_name badLabelQuery 19 (List.replicate 254 0) none (by decide)
    (by decide) [] 64 [97, 0, 0, 1, 0, 1] (by intro l hl; simp at hl) (by decide)
    (Or.inl (by decide))

/-- C8 as stated fails: the question name of `badLabelQuery` starts with the label length
byte 64, yet `dns_query_check` called without a name buffer accepts the packet. -/
theorem C8_bad_label_accepted_without_name :
    badLabelQuery.drop 12 = encLabels [] ++ 64 :: [97, 0, 0, 1, 0, 1] ∧ 64 > 63 ∧
    dns_query_check badLabelQuery 19 none none = .ret ⟨true, none, none⟩ := by
  decide

theorem strlen_append (A B : List Nat) (h : ∀ x ∈ A, x ≠ 0) :
    strlen (A ++ 0 :: B) = some A.length := by
  induction A with
  | nil => simp [strlen]
  | cons a A ih =>
    have ha : a ≠ 0 := h a (List.mem_cons_self _ _)
    rw [List.cons_append, strlen, if_neg ha, ih (fun x hx => h x (List.mem_cons_of_mem _ hx))]
    simp

theorem dotLabels_nonzero (ls : List (List Nat)) (h : ∀ x ∈ encLabels ls, x ≠ 0) :
    ∀ x ∈ dotLabels ls, x ≠ 0 := by
  induction ls with
  | nil => intro x hx; simp [dotLabels] at hx
  | cons l ls ih =>
    intro x hx
    simp only [dotLabels, List.cons_append, List.mem_cons, List.mem_append] at hx
    rcases hx with rfl | hx | hx
    · decide
    · exact h x (by simp [encLabels, hx])
    · exact ih (fun y hy => h y (by simp [encLabels, hy])) x hx

theorem joinLabels_nonzero (ls : List (List Nat)) (h : ∀ x ∈ encLabels ls, x ≠ 0) :
    ∀ x ∈ joinLabels ls, x ≠ 0 := by
  rcases ls with _ | ⟨l, ls⟩
  · intro x hx; simp [joinLabels] at hx
  · intro x hx
    simp only [joinLabels, List.mem_append] at hx
    rcases hx with hx | hx
    · exact h x (by simp [encLabels, hx])
    · exact dotLabels_nonzero ls (fun y hy => h y (by simp [encLabels, hy])) x hx

theorem wr_length (out : List Nat) (i : Int) (v : Nat) (out1 : List Nat)
    (h : wr out i v = some out1) : 0 ≤ i ∧ i < out.length ∧ out1.length = out.length := by
  unfold wr at h
  by_cases h0 : i < 0
  · rw [if_pos h0] at h; simp at h
  · rw [if_neg h0] at h
    by_cases h1 : i.toNat < out.length
    · rw [if_pos h1] at h
      simp only [Option.some.injEq] at h
      subst h
      exact ⟨by omega, by omega, by simp⟩
    · rw [if_neg h1] at h; simp at h

theorem memcpy_cap (buf : List Nat) : ∀ (n : Nat) (dst : List Nat) (d s : Int) (x : List Nat),
    0 ≤ d → memcpy dst d buf s n = some x → n = 0 ∨ d + n ≤ dst.length := by
  intro n
  induction n with
  | zero => intro _ _ _ _ _ _; left; rfl
  | succ n ih =>
    intro dst d s x hd h
    right
    rw [memcpy] at h
    cases hb : rd buf s with
    | none => rw [hb] at h; simp at h
    | some b =>
      rw [hb] at h
      simp only at h
      cases hw : wr dst d b with
      | none => rw [hw] at h; simp at h
      | some dst1 =>
        rw [hw] at h
        simp only at h
        obtain ⟨_, w2, w3⟩ := wr_length dst d b dst1 hw
        rcases ih dst1 (d + 1) (s + 1) x (by omega) h with h0 | h1
        · subst h0; push_cast; omega
        · push_cast; omega

theorem decode_name_ret_cap (out buf : List Nat) (s len : Int) (x : Bool × List Nat)
    (h2 : 2 ≤ len) (h : decode_name out buf s len = .ret x) : len - 1 ≤ out.length := by
  unfold decode_name DNS_NAME_ENC_MINLEN at h
  rw [if_neg (by omega)] at h
  simp only at h
  cases hm : memcpy out 0 buf (s + 1) (len - 1).toNat with
  | none => rw [hm] at h; simp at h
  | some o =>
    rcases memcpy_cap buf _ out 0 (s + 1) o (le_refl _) hm with h0 | h1
    · omega
    · omega

/-- The name buffer left by an accepted call: `"."` for the root name, otherwise `k - 1`
nonzero bytes followed by NUL, where `k + 1` is the encoded name length. -/
theorem accepted_name_strlen (q : Bool) (buf : List Nat) (len : Int) (out : List Nat)
    (pn : Option Int) (r : Ret) (hlen : len ≤ buf.length)
    (hr : check_packet q buf len (some out) pn = .ret r) (hok : r.ok = true) :
    ∃ (k : Nat) (out1 : List Nat), FirstZero buf len k ∧ k + 1 ≤ 255 ∧
      r.p_namelen = pn.map (fun _ => (k : Int) + 1) ∧ r.name_buf = some out1 ∧ k ≠ 1 ∧
      strlen out1 = some (if k = 0 then 1 else k - 1) := by
  obtain ⟨_, k, hk, hk255, hrem, _, hpn, _, hdec⟩ :=
    check_packet_accepted q buf len (some out) pn r hlen hr hok
  obtain ⟨out1, hd, hnb⟩ := hdec out rfl
  by_cases hk0 : k = 0
  · subst hk0
    refine ⟨0, out1, hk, hk255, hpn, hnb, by omega, ?_⟩
    have hd2 := hd
    unfold decode_name DNS_NAME_ENC_MINLEN at hd2
    rw [if_pos (by simp)] at hd2
    rcases out with _ | ⟨a, _ | ⟨b, out⟩⟩
    · simp [wr] at hd2
    · simp [wr] at hd2
    · simp [wr] at hd2
      rw [← hd2]
      simp [strlen]
  · have hcap := decode_name_ret_cap out buf 12 ((k : Int) + 1) _ (by omega) hd
    obtain ⟨ok, out2, r2, _, _, hsp⟩ := decode_name_total out buf 12 ((k : Int) + 1) (by omega)
      (by have := hk.1; push_cast; omega) hcap
    have e12 : ((12 : Nat) : Int) = 12 := rfl
    rw [e12, hd] at r2
    simp only [Outcome.ret.injEq, Prod.mk.injEq] at r2
    obtain ⟨ls, hv, he⟩ := hsp r2.1.symm
    have hexact := decode_name_splits out buf 12 ((k : Int) + 1) (by omega)
      (by have := hk.1; push_cast; omega) hcap ls hv he
    rw [e12, hd] at hexact
    simp only [Outcome.ret.injEq, Prod.mk.injEq, true_and] at hexact
    have e : ((k : Int) + 1 - 1).toNat = k := by omega
    rw [e] at hexact he
    rw [hk.2.1] at hexact
    have hnz := slice_nonzero buf len k hlen hk
    rw [← he] at hnz
    have hsl := slice_length buf 12 k (by have := hk.1; omega)
    rw [← he] at hsl
    have hjl : (joinLabels ls).length + 1 = k := by
      rcases ls with _ | ⟨l, ls⟩
      · simp [encLabels] at hsl; omega
      · rw [joinLabels_length, hsl]
    have hne := encLabels_ne_single ls hv
    rw [hsl] at hne
    refine ⟨k, out1, hk, hk255, hpn, hnb, hne, ?_⟩
    rw [hexact, strlen_append _ _ (joinLabels_nonzero ls hnz), if_neg hk0]
    congr 1
    omega

/-- C9 (amended): for a packet accepted by `dns_query_check` or `dns_reply_check` with both
outputs requested, `n` the reported encoded name length: when `n ≥ 2` the decoded
NUL-terminated name has `dns_ascii_namelen n = n - 2` characters; when `n = 1` (root name)
the decoded name is "." of length 1 while `dns_ascii_namelen 1 = 0`; in both cases
the length is at most 253. -/
theorem C9_decoded_length (buf : List Nat) (len : Int) (out : List Nat) (v : Int) (r : Ret)
    (hlen : len ≤ buf.length)
    (hr : dns_query_check buf len (some out) (some v) = .ret r ∨
      dns_reply_check buf len (some out) (some v) = .ret r)
    (hok : r.ok = true) :
    ∃ (n : Int) (out1 : List Nat) (s : Nat), r.p_namelen = some n ∧ r.name_buf = some out1 ∧
      strlen out1 = some s ∧ s ≤ DNS_NAME_MAXLEN ∧ 1 ≤ n ∧ n ≤ 255 ∧
      (2 ≤ n → (s : Int) = dns_ascii_namelen n ∧ dns_ascii_namelen n = n - 2) ∧
      (n = 1 → s = 1 ∧ dns_ascii_namelen n = 0) := by
  have main : ∀ q, check_packet q buf len (some out) (some v) = .ret r →
      ∃ (n : Int) (out1 : List Nat) (s : Nat), r.p_namelen = some n ∧ r.name_buf = some out1 ∧
        strlen out1 = some s ∧ s ≤ DNS_NAME_MAXLEN ∧ 1 ≤ n ∧ n ≤ 255 ∧
        (2 ≤ n → (s : Int) = dns_ascii_namelen n ∧ dns_ascii_namelen n = n - 2) ∧
        (n = 1 → s = 1 ∧ dns_ascii_namelen n = 0) := by
    intro q h
    obtain ⟨k, out1, _, hk255, hpn, hnb, hk1, hs⟩ :=
      accepted_name_strlen q buf len out (some v) r hlen h hok
    refine ⟨(k : Int) + 1, out1, _, by simpa using hpn, hnb, hs, ?_, by omega, by omega, ?_, ?_⟩
    · unfold DNS_NAME_MAXLEN; split_ifs <;> omega
    · intro h2
      have hk0 : k ≠ 0 := by omega
      unfold dns_ascii_namelen
      simp only [if_neg hk0]
      rw [if_pos (by omega)]
      omega
    · intro h1
      have hk0 : k = 0 := by omega
      subst hk0
      simp [dns_ascii_namelen]
  rcases hr with h | h
  · exact main true h
  · exact main false h

theorem C9_decoded_length_witness :
    ∃ (n : Int) (out1 : List Nat) (s : Nat),
      (⟨true, some (wwwGoogleComAscii ++ 0 :: (List.replicate 20 0).drop 15), some 16⟩ : Ret).p_namelen
        = some n ∧
      (⟨true, some (wwwGoogleComAscii ++ 0 :: (List.replicate 20 0).drop 15), some 16⟩ : Ret).name_buf
        = some out1 ∧
      strlen out1 = some s ∧ s ≤ DNS_NAME_MAXLEN ∧ 1 ≤ n ∧ n ≤ 255 ∧
      (2 ≤ n → (s : Int) = dns_ascii_namelen n ∧ dns_ascii_namelen n = n - 2) ∧
      (n = 1 → s = 1 ∧ dns_ascii_namelen n = 0) :=
  C9_decoded_length queryPacket 32 (List.replicate 20 0) 0 _ (by decide)
    (Or.inl (query_www_google_com (List.replicate 20 0) 0 (by decide))) rfl

/-- C9 as stated fails: the query for the root name is accepted with reported encoded name
length 1, the decoded name is "." of length 1, and `dns_ascii_namelen 1 = 0`. -/
theorem C9_root_name_length :
    ∃ out1, dns_query_check rootQuery 17 (some (List.replicate 8 255)) (some 0) =
        .ret ⟨true, some out1, some 1⟩ ∧
      strlen out1 = some 1 ∧ dns_ascii_namelen 1 = 0 :=
  ⟨46 :: 0 :: List.replicate 6 255, by decide, by decide, by decide⟩

theorem check_packet_ok_inv (q : Bool) (buf : List Nat) (len : Int) (nb : Option (List Nat))
    (pn : Option Int) (r : Ret) (hlen : len ≤ buf.length)
    (hr : check_packet q buf len nb pn = .ret r) (hok : r.ok = true) :
    HdrOk q buf len ∧ ∃ k, FirstZero buf len k ∧ be16 buf (12 + k + 3) = 1 := by
  obtain ⟨h, k, hk, _, _, hc, _⟩ := check_packet_accepted q buf len nb pn r hlen hr hok
  exact ⟨h, k, hk, hc⟩

theorem not_ok_of (b : Bool) (h : b = true → False) : b = false := by
  cases b with
  | false => rfl
  | true => exact absurd rfl h

/-- C11: structural violations always reject. `dns_query_check` fails when the qr bit is 1
and `dns_reply_check` fails when it is 0, so no buffer is accepted by both; both fail when
the opcode is not 0, when the question count is not 1, and when the class after the
question name is not 1. -/
theorem C11_structural_violations (buf : List Nat) (len : Int) (nb : Option (List Nat))
    (pn : Option Int) (hlen : len ≤ buf.length)
    (hcap : ∀ out, nb = some out → 254 ≤ out.length) :
    ∃ rq rr, dns_query_check buf len nb pn = .ret rq ∧ dns_reply_check buf len nb pn = .ret rr ∧
      (byte buf 2 / 128 % 2 = 1 → rq.ok = false) ∧
      (byte buf 2 / 128 % 2 = 0 → rr.ok = false) ∧
      ¬ (rq.ok = true ∧ rr.ok = true) ∧
      (byte buf 2 / 8 % 16 ≠ 0 → rq.ok = false ∧ rr.ok = false) ∧
      (byte buf 4 * 256 + byte buf 5 ≠ 1 → rq.ok = false ∧ rr.ok = false) ∧
      (∀ k, FirstZero buf len k → byte buf (12 + k + 3) * 256 + byte buf (12 + k + 4) ≠ 1 →
        rq.ok = false ∧ rr.ok = false) := by
  obtain ⟨rq, hq, _⟩ := check_packet_total true buf len nb pn hlen hcap
  obtain ⟨rr, hr, _⟩ := check_packet_total false buf len nb pn hlen hcap
  have iq := check_packet_ok_inv true buf len nb pn rq hlen hq
  have ir := check_packet_ok_inv false buf len nb pn rr hlen hr
  have hqr_q : rq.ok = true → byte buf 2 / 128 % 2 = 0 := fun h => (iq h).1.2.2.1
  have hqr_r : rr.ok = true → byte buf 2 / 128 % 2 = 1 := fun h => (ir h).1.2.2.1
  refine ⟨rq, rr, hq, hr, ?_, ?_, ?_, ?_, ?_, ?_⟩
  · intro h1
    exact not_ok_of _ (fun h => by have := hqr_q h; omega)
  · intro h0
    exact not_ok_of _ (fun h => by have := hqr_r h; omega)
  · rintro ⟨h1, h2⟩
    have := hqr_q h1
    have := hqr_r h2
    omega
  · intro hop
    exact ⟨not_ok_of _ (fun h => hop (iq h).1.2.2.2.1), not_ok_of _ (fun h => hop (ir h).1.2.2.2.1)⟩
  · intro hqc
    exact ⟨not_ok_of _ (fun h => hqc (iq h).1.2.2.2.2), not_ok_of _ (fun h => hqc (ir h).1.2.2.2.2)⟩
  · intro k hk hcl
    constructor
    · apply not_ok_of
      intro h
      obtain ⟨_, k2, hk2, hc⟩ := iq h
      have := FirstZero_unique hk hk2
      subst this
      exact hcl hc
    · apply not_ok_of
      intro h
      obtain ⟨_, k2, hk2, hc⟩ := ir h
      have := FirstZero_unique hk hk2
      subst this
      exact hcl hc

theorem C11_structural_violations_witness :
    ∃ rq, dns_query_check twoQuestionQuery 32 none none = .ret rq ∧ rq.ok = false :=
  let ⟨rq, _, hq, _, _, _, _, _, hcount, _⟩ :=
    C11_structural_violations twoQuestionQuery 32 none none (by decide)
      (fun _ h => by simp at h)
  ⟨rq, hq, (hcount (by decide)).1⟩

/-- C18: requesting the decoded name only makes validation stricter. When `dns_query_check`
(respectively `dns_reply_check`) succeeds with a name buffer, it also succeeds without one
and reports the same encoded name length. -/
theorem C18_name_request_is_stricter (buf : List Nat) (len : Int) (out : List Nat)
    (pn : Option Int) (hlen : len ≤ buf.length) :
    (∀ r, dns_query_check buf len (some out) pn = .ret r → r.ok = true →
      ∃ r2, dns_query_check buf len none pn = .ret r2 ∧ r2.ok = true ∧
        r2.p_namelen = r.p_namelen) ∧
    (∀ r, dns_reply_check buf len (some out) pn = .ret r → r.ok = true →
      ∃ r2, dns_reply_check buf len none pn = .ret r2 ∧ r2.ok = true ∧
        r2.p_namelen = r.p_namelen) := by
  have main : ∀ q r, check_packet q buf len (some out) pn = .ret r → r.ok = true →
      ∃ r2, check_packet q buf len none pn = .ret r2 ∧ r2.ok = true ∧
        r2.p_namelen = r.p_namelen := by
    intro q r hr hok
    obtain ⟨h, k, hk, hk255, hrem, hc, hpn, _⟩ :=
      check_packet_accepted q buf len (some out) pn r hlen hr hok
    rw [check_packet_found q buf len none pn k hlen h hk, if_neg (by omega)]
    obtain ⟨t1, _, t3⟩ := question_tail_ok buf len k none pn
    exact ⟨_, rfl, t1.mpr ⟨hrem, hc⟩, by rw [t3, hpn]⟩
  exact ⟨main true, main false⟩

theorem C18_name_request_is_stricter_witness :
    (∀ r, dns_query_check queryPacket 32 (some (List.replicate 20 0)) (some 0) = .ret r →
      r.ok = true →
      ∃ r2, dns_query_check queryPacket 32 none (some 0) = .ret r2 ∧ r2.ok = true ∧
        r2.p_namelen = r.p_namelen) ∧
    (∀ r, dns_reply_check queryPacket 32 (some (List.replicate 20 0)) (some 0) = .ret r →
      r.ok = true →
      ∃ r2, dns_reply_check queryPacket 32 none (some 0) = .ret r2 ∧ r2.ok = true ∧
        r2.p_namelen = r.p_namelen) :=
  C18_name_request_is_stricter queryPacket 32 (List.replicate 20 0) (some 0) (by decide)

theorem encLabels_nonzero (ls : List (List Nat)) (hv : ValidLabels ls)
    (hnz : ∀ l ∈ ls, ¬ (0 ∈ l)) : ∀ x ∈ encLabels ls, x ≠ 0 := by
  induction ls with
  | nil => intro x hx; simp [encLabels] at hx
  | cons l ls ih =>
    intro x hx
    simp only [encLabels, List.cons_append, List.mem_cons, List.mem_append] at hx
    rcases hx with rfl | hx | hx
    · have := hv l (List.mem_cons_self _ _); omega
    · intro h0; subst h0; exact hnz l (List.mem_cons_self _ _) hx
    · exact ih (fun y hy => hv y (List.mem_cons_of_mem _ hy))
        (fun y hy => hnz y (List.mem_cons_of_mem _ hy)) x hx

theorem byte_drop (buf : List Nat) (s i : Nat) : byte buf (s + i) = (buf.drop s).getD i 0 := by
  simp [byte, List.getD, List.getElem?_drop]

/-- An encoded name followed by at least 4 bytes is found by the scan for the first zero. -/
theorem firstZero_of_encoded (buf : List Nat) (len : Int) (ls : List (List Nat))
    (tail : List Nat) (hv : ValidLabels ls) (hnz : ∀ l ∈ ls, ¬ (0 ∈ l))
    (hdrop : buf.drop 12 = encodeName ls ++ tail)
    (hrem : len - 12 - ((encodeName ls).length : Int) ≥ 4) :
    FirstZero buf len (encLabels ls).length ∧ slice buf 12 (encLabels ls).length = encLabels ls := by
  have hn : (encodeName ls).length = (encLabels ls).length + 1 := by simp [encodeName]
  have hd : buf.drop 12 = encLabels ls ++ 0 :: tail := by
    rw [hdrop]; simp [encodeName]
  refine ⟨⟨by omega, ?_, ?_⟩, ?_⟩
  · rw [byte_drop, hd, List.getD_append_right _ _ _ _ (le_refl _)]
    simp
  · intro j hj
    rw [byte_drop, hd, List.getD_append _ _ _ _ hj]
    have hmem : (encLabels ls).getD j 0 ∈ encLabels ls := by
      rw [List.getD_eq_getElem _ _ hj]
      exact List.getElem_mem hj
    exact encLabels_nonzero ls hv hnz _ hmem
  · unfold slice
    rw [hd, List.take_left']
    rfl

theorem encoded_name_accepted (q : Bool) (buf : List Nat) (len : Int) (ls : List (List Nat))
    (tail : List Nat) (nb : Option (List Nat)) (pn : Option Int) (hlen : len ≤ buf.length)
    (hv : ValidLabels ls) (hnz : ∀ l ∈ ls, ¬ (0 ∈ l)) (hn : (encodeName ls).length ≤ 255)
    (hdrop : buf.drop 12 = encodeName ls ++ tail) (hh : HdrOk q buf len)
    (hrem : len - 12 - ((encodeName ls).length : Int) ≥ 4)
    (hcls : be16 buf (12 + (encodeName ls).length + 2) = 1)
    (hcap : ∀ out, nb = some out → 254 ≤ out.length) :
    ∃ r, check_packet q buf len nb pn = .ret r ∧ r.ok = true ∧
      r.p_namelen = pn.map (fun _ => ((encodeName ls).length : Int)) := by
  have hn1 : (encodeName ls).length = (encLabels ls).length + 1 := by simp [encodeName]
  obtain ⟨hk, hsl⟩ := firstZero_of_encoded buf len ls tail hv hnz hdrop hrem
  rw [check_packet_found q buf len nb pn _ hlen hh hk, if_neg (by omega)]
  have hcls2 : be16 buf (12 + (encLabels ls).length + 3) = 1 := by
    rw [← hcls, hn1]
    congr 1
  have htail : ∀ nb1, (question_tail buf len (encLabels ls).length nb1 pn).ok = true ∧
      (question_tail buf len (encLabels ls).length nb1 pn).p_namelen =
        pn.map (fun _ => ((encodeName ls).length : Int)) := by
    intro nb1
    obtain ⟨t1, _, t3⟩ := question_tail_ok buf len (encLabels ls).length nb1 pn
    refine ⟨t1.mpr ⟨by rw [hn1] at hrem; push_cast at hrem; omega, hcls2⟩, ?_⟩
    rw [t3, hn1]
    push_cast
    rfl
  cases nb with
  | none => exact ⟨_, rfl, (htail none).1, (htail none).2⟩
  | some out =>
    have hc := hcap out rfl
    simp only
    by_cases hk0 : (encLabels ls).length = 0
    · rw [hk0]
      rw [decode_name_root out buf 12 _ (by simp) (by omega)]
      simp only
      rw [← hk0]
      exact ⟨_, rfl, (htail _).1, (htail _).2⟩
    · have hd := decode_name_splits out buf 12 (((encLabels ls).length : Int) + 1) (by omega)
        (by have := hk.1; push_cast; omega) (by omega) ls hv
        (by rw [show (((encLabels ls).length : Int) + 1 - 1).toNat = (encLabels ls).length by omega]
            exact hsl.symm)
      have e12 : ((12 : Nat) : Int) = 12 := rfl
      rw [e12] at hd
      rw [hd]
      exact ⟨_, rfl, (htail _).1, (htail _).2⟩

/-- C12: encoded name length limit. When no byte at offsets 12..266 inside the packet is
zero, `dns_query_check` and `dns_reply_check` return failure whatever else the packet holds;
an encoded name of exactly 255 bytes made of valid labels, in a packet with valid header,
question record and class, is accepted with reported length 255. -/
theorem C12_name_length_limit (buf : List Nat) (len : Int) (nb : Option (List Nat))
    (pn : Option Int) (hlen : len ≤ buf.length) :
    ((∀ j : Nat, j < 255 → (12 + j : Int) < len → byte buf (12 + j) ≠ 0) →
      dns_query_check buf len nb pn = .ret ⟨false, nb, pn⟩ ∧
      dns_reply_check buf len nb pn = .ret ⟨false, nb, pn⟩) ∧
    (∀ (ls : List (List Nat)) (tail : List Nat), ValidLabels ls → (∀ l ∈ ls, ¬ (0 ∈ l)) →
      (encodeName ls).length = 255 → buf.drop 12 = encodeName ls ++ tail →
      len - 12 - 255 ≥ 4 → be16 buf (12 + 255 + 2) = 1 →
      (∀ out, nb = some out → 254 ≤ out.length) →
      (HdrOk true buf len → ∃ r, dns_query_check buf len nb pn = .ret r ∧ r.ok = true ∧
        r.p_namelen = pn.map (fun _ => (255 : Int))) ∧
      (HdrOk false buf len → ∃ r, dns_reply_check buf len nb pn = .ret r ∧ r.ok = true ∧
        r.p_namelen = pn.map (fun _ => (255 : Int)))) := by
  constructor
  · intro hnz
    have main : ∀ q, check_packet q buf len nb pn = .ret ⟨false, nb, pn⟩ := by
      intro q
      by_cases h : HdrOk q buf len
      · by_cases hz : ∃ k, FirstZero buf len k
        · obtain ⟨k, hk⟩ := hz
          have hk255 : k + 1 > 255 := by
            by_contra hcon
            exact hnz k (by omega) hk.1 hk.2.1
          rw [check_packet_found q buf len nb pn k hlen h hk, if_pos hk255]
        · exact check_packet_nozero q buf len nb pn hlen (fun k hk => hz ⟨k, hk⟩)
      · exact check_packet_hdr_fail q buf len nb pn hlen h
    exact ⟨main true, main false⟩
  · intro ls tail hv hnz hn hdrop hrem hcls hcap
    have main : ∀ q, HdrOk q buf len → ∃ r, check_packet q buf len nb pn = .ret r ∧
        r.ok = true ∧ r.p_namelen = pn.map (fun _ => (255 : Int)) := by
      intro q hh
      have := encoded_name_accepted q buf len ls tail nb pn hlen hv hnz (by omega) hdrop hh
        (by rw [hn]; exact hrem) (by rw [hn]; exact hcls) hcap
      rw [hn] at this
      exact this
    exact ⟨main true, main false⟩

theorem longLabels_valid : ValidLabels longLabels ∧ ∀ l ∈ longLabels, ¬ (0 ∈ l) := by
  constructor
  · intro l hl
    simp only [longLabels, List.mem_cons, List.mem_singleton, List.not_mem_nil, or_false] at hl
    rcases hl with rfl | rfl | rfl | rfl <;> simp
  · intro l hl
    simp only [longLabels, List.mem_cons, List.mem_singleton, List.not_mem_nil, or_false] at hl
    rcases hl with rfl | rfl | rfl | rfl <;> simp [List.mem_replicate]

set_option maxRecDepth 100000 in
theorem C12_name_length_limit_witness :
    ∃ r, dns_query_check longQuery 271 none (some 0) = .ret r ∧ r.ok = true ∧
      r.p_namelen = (some (0 : Int)).map (fun _ => (255 : Int)) :=
  ((C12_name_length_limit longQuery 271 none (some 0) (by decide)).2 longLabels [0, 1, 0, 1]
    longLabels_valid.1 longLabels_valid.2 (by decide) (by decide) (by decide) (by decide)
    (fun _ h => by simp at h)).1
    ⟨by decide, by decide, by decide, by decide, by decide⟩

theorem skip_loop_strict (buf : List Nat) (fuel : Nat) (ptr len h l1 : Int)
    (hs : skip_loop buf fuel ptr len = .ret (some (h, l1))) : ptr < h := by
  obtain ⟨i1, i2, i3, _⟩ := skip_loop_inv buf fuel ptr len h l1 hs
  by_contra hcon
  have hph : h = ptr := by omega
  subst hph
  have hl : len > 0 := by omega
  rcases fuel with _ | fuel
  · rw [skip_loop, if_pos hl] at hs; simp at hs
  · rw [skip_loop, if_pos hl] at hs
    unfold sizeof_dns_record_t DNS_NAME_PTR_MINVAL DNS_NAME_LABEL_MAXLEN at hs
    cases hb : rd buf h with
    | none => rw [hb] at hs; simp at hs
    | some b =>
      rw [hb] at hs
      simp only at hs
      by_cases b0 : b = 0
      · rw [if_pos b0] at hs
        by_cases c1 : len - 1 < 10
        · rw [if_pos c1] at hs; simp at hs
        · rw [if_neg c1] at hs
          simp only [Outcome.ret.injEq, Option.some.injEq, Prod.mk.injEq] at hs
          omega
      · rw [if_neg b0] at hs
        by_cases b1 : b ≥ 192
        · rw [if_pos b1] at hs
          by_cases c1 : len - 2 < 10
          · rw [if_pos c1] at hs; simp at hs
          · rw [if_neg c1] at hs
            simp only [Outcome.ret.injEq, Option.some.injEq, Prod.mk.injEq] at hs
            omega
        · rw [if_neg b1] at hs
          by_cases b2 : b ≤ 63
          · rw [if_pos b2] at hs
            obtain ⟨j1, _⟩ := skip_loop_inv buf fuel _ _ _ _ hs
            omega
          · rw [if_neg b2] at hs; simp at hs

theorem record_at_strict (buf : List Nat) (p l h l1 : Int) (t c d : Nat)
    (hr : record_at buf p l = some (h, l1, t, c, d)) : p < h ∧ h + l1 = p + l ∧ 10 ≤ l1 := by
  obtain ⟨hs, _⟩ := record_at_inv buf p l h l1 t c d hr
  obtain ⟨_, b, c, _⟩ := skip_loop_inv buf _ _ _ _ _ hs
  exact ⟨skip_loop_strict buf _ _ _ _ _ hs, b, c⟩

/-- Every skipped record consumes at least 11 bytes of the remaining length. -/
theorem after_records_consumes (buf : List Nat) : ∀ (j : Nat) (p0 l0 p l : Int),
    after_records buf j p0 l0 = some (p, l) →
    l0 - l ≥ 11 * (j : Int) ∧ (1 ≤ j → 0 ≤ l) := by
  intro j
  induction j with
  | zero =>
    intro p0 l0 p l h
    simp only [after_records, Option.some.injEq, Prod.mk.injEq] at h
    obtain ⟨rfl, rfl⟩ := h
    exact ⟨by simp, by intro h; omega⟩
  | succ j ih =>
    intro p0 l0 p l h
    rw [after_records] at h
    cases hr : record_at buf p0 l0 with
    | none => rw [hr] at h; simp at h
    | some x =>
      obtain ⟨h1, l1, t, c, d⟩ := x
      rw [hr] at h
      simp only at h
      by_cases hc : c = 1 ∧ t ≠ 1 ∧ t ≠ 28 ∧ (10 + d : Int) ≤ l1
      · rw [if_pos hc] at h
        obtain ⟨_, _, _, c4⟩ := hc
        obtain ⟨i1, i2⟩ := ih _ _ _ _ h
        obtain ⟨b1, b2, b3⟩ := record_at_strict buf p0 l0 h1 l1 t c d hr
        refine ⟨by push_cast; omega, ?_⟩
        intro _
        rcases j with _ | j
        · simp only [after_records, Option.some.injEq, Prod.mk.injEq] at h
          omega
        · exact i2 (by omega)
      · rw [if_neg hc] at h; simp at h

theorem chnip_loop_no_record (P : List Nat → Bool → Bool) (buf : List Nat) (m : Nat)
    (p l : Int) (hr : record_at buf p l = none) :
    chnip_loop P buf (m + 1) p l ≠ .ret DNS_IPCHK_NOT_FOUND := by
  unfold record_at at hr
  rw [chnip_loop]
  unfold DNS_IPCHK_NOT_FOUND DNS_IPCHK_BAD_PACKET
  cases hs : skip_name buf p l with
  | oob => simp
  | nofuel => simp
  | ret x =>
    cases x with
    | none => simp
    | some y =>
      obtain ⟨h, l1⟩ := y
      rw [hs] at hr
      simp only at hr
      simp only
      cases hc : rd16 buf (h + 2) with
      | none => simp
      | some c =>
        simp only
        by_cases c1 : c ≠ DNS_CLASS_INTERNET
        · rw [if_pos c1]; simp
        rw [if_neg c1]
        cases hd : rd16 buf (h + 8) with
        | none => simp
        | some d =>
          simp only
          by_cases c2 : l1 < sizeof_dns_record_t + (d : Int)
          · rw [if_pos c2]; simp
          rw [if_neg c2]
          cases ht : rd16 buf h with
          | none => simp
          | some t => rw [ht, hc, hd] at hr; simp at hr

theorem chnip_loop_not_found (P : List Nat → Bool → Bool) (buf : List Nat) : ∀ (cnt : Nat)
    (p l : Int), chnip_loop P buf cnt p l = .ret DNS_IPCHK_NOT_FOUND →
    ∃ p1 l1, after_records buf cnt p l = some (p1, l1) := by
  intro cnt
  induction cnt with
  | zero => intro p l _; exact ⟨p, l, rfl⟩
  | succ cnt ih =>
    intro p l h
    cases hr : record_at buf p l with
    | none => exact absurd h (chnip_loop_no_record P buf cnt p l hr)
    | some x =>
      obtain ⟨h1, l1, t, c, d⟩ := x
      rw [chnip_loop_step P buf cnt p l h1 l1 t c d hr] at h
      unfold DNS_IPCHK_NOT_FOUND at h
      by_cases c1 : c ≠ 1
      · rw [if_pos c1] at h; simp at h
      rw [if_neg c1] at h
      by_cases c2 : l1 < 10 + (d : Int)
      · rw [if_pos c2] at h; simp at h
      rw [if_neg c2] at h
      by_cases t1 : t = 1
      · rw [if_pos t1] at h
        by_cases d4 : d ≠ 4
        · rw [if_pos d4] at h; simp at h
        · rw [if_neg d4] at h
          cases hx : rdN buf (h1 + 10) 4 with
          | none => rw [hx] at h; simp at h
          | some rdata =>
            rw [hx] at h
            simp only [Outcome.ret.injEq] at h
            split_ifs at h <;> omega
      rw [if_neg t1] at h
      by_cases t28 : t = 28
      · rw [if_pos t28] at h
        by_cases d16 : d ≠ 16
        · rw [if_pos d16] at h; simp at h
        · rw [if_neg d16] at h
          cases hx : rdN buf (h1 + 10) 16 with
          | none => rw [hx] at h; simp at h
          | some rdata =>
            rw [hx] at h
            simp only [Outcome.ret.injEq] at h
            split_ifs at h <;> omega
      rw [if_neg t28] at h
      obtain ⟨p2, l2, h2⟩ := ih _ _ h
      refine ⟨p2, l2, ?_⟩
      rw [after_records, hr]
      simp only
      rw [if_pos ⟨by simpa using c1, t1, t28, by omega⟩]
      exact h2

/-- The answer walk of an accepted reply, once `j` records have been skipped. -/
theorem chnip_reaches (P : List Nat → Bool → Bool) (buf : List Nat) (len n : Int)
    (nb : Option (List Nat)) (pn : Option Int) (r : Ret) (hlen : len ≤ buf.length)
    (hreply : dns_reply_check buf len nb pn = .ret r) (hok : r.ok = true)
    (hn : r.p_namelen = some n) (j : Nat) (p l : Int) (hj : j < be16 buf 6)
    (hwalk : after_records buf j (12 + n + 4) (len - (12 + n + 4)) = some (p, l)) :
    dns_chnip_check P buf len n = chnip_loop P buf ((be16 buf 6 - j - 1) + 1) p l := by
  obtain ⟨_, _, _, _, e⟩ := chnip_check_accepted P false buf len n nb pn r hlen hreply hok hn
  obtain ⟨_, _, i3, _⟩ := after_records_inv buf j _ _ p l hwalk
  rw [e]
  have hc : be16 buf 6 = j + ((be16 buf 6 - j - 1) + 1) := by omega
  conv_lhs => rw [hc]
  exact i3 P _

/-- C13: a wrong address length is a bad packet. On an accepted reply, when the answer walk
reaches (after `j` skipped records) a record of type A with data length other than 4, or
of type AAAA with data length other than 16, `dns_chnip_check` returns BAD_PACKET for
every membership predicate. -/
theorem C13_wrong_address_length (P : List Nat → Bool → Bool) (buf : List Nat) (len n : Int)
    (nb : Option (List Nat)) (pn : Option Int) (r : Ret) (hlen : len ≤ buf.length)
    (hreply : dns_reply_check buf len nb pn = .ret r) (hok : r.ok = true)
    (hn : r.p_namelen = some n)
    (j : Nat) (p l h l1 : Int) (t c d : Nat) (hj : j < be16 buf 6)
    (hwalk : after_records buf j (12 + n + 4) (len - (12 + n + 4)) = some (p, l))
    (hrec : record_at buf p l = some (h, l1, t, c, d))
    (hbad : (t = 1 ∧ d ≠ 4) ∨ (t = 28 ∧ d ≠ 16)) :
    dns_chnip_check P buf len n = .ret DNS_IPCHK_BAD_PACKET := by
  rw [chnip_reaches P buf len n nb pn r hlen hreply hok hn j p l hj hwalk,
    chnip_loop_step P buf _ p l h l1 t c d hrec]
  unfold DNS_IPCHK_BAD_PACKET
  by_cases c1 : c ≠ 1
  · rw [if_pos c1]
  rw [if_neg c1]
  by_cases c2 : l1 < 10 + (d : Int)
  · rw [if_pos c2]
  rw [if_neg c2]
  rcases hbad with ⟨rfl, hd⟩ | ⟨rfl, hd⟩
  · rw [if_pos rfl, if_pos hd]
  · rw [if_neg (by decide), if_pos rfl, if_pos hd]

theorem C13_wrong_address_length_witness :
    dns_chnip_check testIpset shortAReply 47 16 = .ret DNS_IPCHK_BAD_PACKET :=
  C13_wrong_address_length testIpset shortAReply 47 16 none (some 0) ⟨true, none, some 16⟩
    (by decide) (by decide) rfl rfl 0 32 15 34 13 1 1 3 (by decide) (by decide) (by decide)
    (Or.inl (by decide))

/-- C15: on an accepted reply, when the answer walk reaches (after `j` skipped records) a
record whose class is not 1, or whose total length `10 + rdatalen` exceeds the remaining
length, `dns_chnip_check` returns BAD_PACKET whatever the record type and whatever the
membership predicate. -/
theorem C15_bad_class_or_length (P : List Nat → Bool → Bool) (buf : List Nat) (len n : Int)
    (nb : Option (List Nat)) (pn : Option Int) (r : Ret) (hlen : len ≤ buf.length)
    (hreply : dns_reply_check buf len nb pn = .ret r) (hok : r.ok = true)
    (hn : r.p_namelen = some n)
    (j : Nat) (p l h l1 : Int) (t c d : Nat) (hj : j < be16 buf 6)
    (hwalk : after_records buf j (12 + n + 4) (len - (12 + n + 4)) = some (p, l))
    (hrec : record_at buf p l = some (h, l1, t, c, d))
    (hbad : c ≠ 1 ∨ l1 < 10 + (d : Int)) :
    dns_chnip_check P buf len n = .ret DNS_IPCHK_BAD_PACKET := by
  rw [chnip_reaches P buf len n nb pn r hlen hreply hok hn j p l hj hwalk,
    chnip_loop_step P buf _ p l h l1 t c d hrec]
  unfold DNS_IPCHK_BAD_PACKET
  by_cases c1 : c ≠ 1
  · rw [if_pos c1]
  rw [if_neg c1]
  rcases hbad with hc | hl
  · exact absurd hc c1
  · rw [if_pos hl]

theorem C15_bad_class_or_length_witness :
    dns_chnip_check testIpset chaosClassReply 48 16 = .ret DNS_IPCHK_BAD_PACKET :=
  C15_bad_class_or_length testIpset chaosClassReply 48 16 none (some 0) ⟨true, none, some 16⟩
    (by decide) (by decide) rfl rfl 0 32 16 34 14 1 3 4 (by decide) (by decide) (by decide)
    (Or.inl (by decide))

/-- C19: the declared answer count is bounded by the bytes present. On an accepted reply
with reported name length `n`, when `dns_chnip_check` returns NOT_FOUND then
`len - 16 - n ≥ 11 * answer_count`, so the walk made at most 132 iterations. -/
theorem C19_answer_count_bound (P : List Nat → Bool → Bool) (buf : List Nat) (len n : Int)
    (nb : Option (List Nat)) (pn : Option Int) (r : Ret) (hlen : len ≤ buf.length)
    (hreply : dns_reply_check buf len nb pn = .ret r) (hok : r.ok = true)
    (hn : r.p_namelen = some n)
    (hnf : dns_chnip_check P buf len n = .ret DNS_IPCHK_NOT_FOUND) :
    len - 16 - n ≥ 11 * (be16 buf 6 : Int) ∧ be16 buf 6 ≤ (1472 - 17) / 11 := by
  obtain ⟨h1, _, h16, h1472, e⟩ :=
    chnip_check_accepted P false buf len n nb pn r hlen hreply hok hn
  rw [e] at hnf
  obtain ⟨p1, l1, ha⟩ := chnip_loop_not_found P buf _ _ _ hnf
  obtain ⟨c1, c2⟩ := after_records_consumes buf _ _ _ _ _ ha
  have hl1 : 0 ≤ l1 ∨ be16 buf 6 = 0 := by
    by_cases h0 : be16 buf 6 = 0
    · right; exact h0
    · left; exact c2 (by omega)
  have hb : len - 16 - n ≥ 11 * (be16 buf 6 : Int) := by
    rcases hl1 with h | h
    · omega
    · rw [h]; simp; omega
  exact ⟨hb, by omega⟩

theorem C19_answer_count_bound_witness :
    (46 : Int) - 16 - 16 ≥ 11 * (be16 cnameReply 6 : Int) ∧
      be16 cnameReply 6 ≤ (1472 - 17) / 11 :=
  C19_answer_count_bound testIpset cnameReply 46 16 none (some 0) ⟨true, none, some 16⟩
    (by decide) (by decide) rfl rfl (by decide)

theorem memchr0_agree (buf buf2 : List Nat) (lo : Int)
    (hag : ∀ x : Int, lo ≤ x → rd buf2 x = rd buf x) : ∀ (n : Nat) (s : Int), lo ≤ s →
    memchr0 buf2 s n = memchr0 buf s n := by
  intro n
  induction n with
  | zero => intro s _; rfl
  | succ n ih =>
    intro s hs
    rw [memchr0, memchr0, hag s hs, ih (s + 1) (by omega)]

theorem memchr0_ge (buf : List Nat) : ∀ (n : Nat) (s p : Int),
    memchr0 buf s n = .ret (some p) → s ≤ p := by
  intro n
  induction n with
  | zero => intro s p h; simp [memchr0] at h
  | succ n ih =>
    intro s p h
    rw [memchr0] at h
    cases hb : rd buf s with
    | none => rw [hb] at h; simp at h
    | some b =>
      rw [hb] at h
      simp only at h
      by_cases b0 : b = 0
      · rw [if_pos b0] at h
        simp only [Outcome.ret.injEq, Option.some.injEq] at h
        omega
      · rw [if_neg b0] at h
        have := ih _ _ h
        omega

theorem memcpy_agree (buf buf2 : List Nat) (lo : Int)
    (hag : ∀ x : Int, lo ≤ x → rd buf2 x = rd buf x) : ∀ (n : Nat) (dst : List Nat) (d s : Int),
    lo ≤ s → memcpy dst d buf2 s n = memcpy dst d buf s n := by
  intro n
  induction n with
  | zero => intro dst d s _; rfl
  | succ n ih =>
    intro dst d s hs
    rw [memcpy, memcpy, hag s hs]
    cases rd buf s with
    | none => rfl
    | some b =>
      simp only
      cases wr dst d b with
      | none => rfl
      | some dst1 => exact ih dst1 (d + 1) (s + 1) (by omega)

theorem decode_loop_agree (buf buf2 : List Nat) (lo : Int)
    (hag : ∀ x : Int, lo ≤ x → rd buf2 x = rd buf x) : ∀ (fuel : Nat) (first : Bool)
    (out : List Nat) (o src len : Int), lo ≤ src →
    decode_loop buf2 fuel first out o src len = decode_loop buf fuel first out o src len := by
  intro fuel
  induction fuel with
  | zero => intro first out o src len _; rfl
  | succ fuel ih =>
    intro first out o src len hs
    rw [decode_loop, decode_loop, hag src hs]
    by_cases h2 : len ≥ 2
    · rw [if_pos h2, if_pos h2]
      cases (if first = true then some (out, o)
          else (wr out o 46).map (fun w => (w, o + 1))) with
      | none => rfl
      | some x =>
        obtain ⟨out1, o1⟩ := x
        simp only
        cases rd buf src with
        | none => rfl
        | some b =>
          simp only
          by_cases c1 : b < 1
          · rw [if_pos c1, if_pos c1]
          rw [if_neg c1, if_neg c1]
          by_cases c2 : b > DNS_NAME_LABEL_MAXLEN
          · rw [if_pos c2, if_pos c2]
          rw [if_neg c2, if_neg c2]
          by_cases c3 : (b : Int) > len - 1
          · rw [if_pos c3, if_pos c3]
          rw [if_neg c3, if_neg c3]
          exact ih _ _ _ _ _ (by omega)
    · rw [if_neg h2, if_neg h2]

theorem decode_name_agree (buf buf2 : List Nat) (lo : Int)
    (hag : ∀ x : Int, lo ≤ x → rd buf2 x = rd buf x) (out : List Nat) (src len : Int)
    (hs : lo ≤ src) : decode_name out buf2 src len = decode_name out buf src len := by
  unfold decode_name
  by_cases h : len ≤ DNS_NAME_ENC_MINLEN
  · rw [if_pos h, if_pos h]
  · rw [if_neg h, if_neg h]
    simp only
    rw [memcpy_agree buf buf2 lo hag _ _ _ _ (by omega)]
    cases memcpy out 0 buf (src + 1) (len - 1).toNat with
    | none => rfl
    | some out1 => exact decode_loop_agree buf buf2 lo hag _ _ _ _ _ _ hs

/-- `check_packet` looks at the buffer only through the qr and opcode bits of byte 2, the
question count and the bytes from offset 12 on. -/
theorem check_packet_agree (q : Bool) (buf buf2 : List Nat) (len : Int)
    (nb : Option (List Nat)) (pn : Option Int)
    (h2 : (rd buf2 2).map (fun b => b / 8) = (rd buf 2).map (fun b => b / 8))
    (h4 : rd16 buf2 4 = rd16 buf 4) (hag : ∀ x : Int, 12 ≤ x → rd buf2 x = rd buf x) :
    check_packet q buf2 len nb pn = check_packet q buf len nb pn := by
  unfold check_packet
  by_cases c1 : len < DNS_PACKET_MINSIZE
  · rw [if_pos c1, if_pos c1]
  rw [if_neg c1, if_neg c1]
  by_cases c2 : len > DNS_PACKET_MAXSIZE
  · rw [if_pos c2, if_pos c2]
  rw [if_neg c2, if_neg c2]
  cases hb : rd buf 2 with
  | none =>
    rw [hb] at h2
    cases hb2 : rd buf2 2 with
    | none => rfl
    | some b2 => rw [hb2] at h2; simp at h2
  | some b =>
    rw [hb] at h2
    cases hb2 : rd buf2 2 with
    | none => rw [hb2] at h2; simp at h2
    | some b2 =>
      rw [hb2] at h2
      simp only [Option.map_some', Option.some.injEq] at h2
      have e1 : hdr_qr b2 = hdr_qr b := by unfold hdr_qr; omega
      have e2 : hdr_opcode b2 = hdr_opcode b := by unfold hdr_opcode; omega
      simp only [e1, e2, h4]
      by_cases c3 : hdr_qr b ≠ (if q = true then DNS_QR_QUERY else DNS_QR_REPLY)
      · rw [if_pos c3, if_pos c3]
      rw [if_neg c3, if_neg c3]
      by_cases c4 : hdr_opcode b ≠ DNS_OPCODE_QUERY
      · rw [if_pos c4, if_pos c4]
      rw [if_neg c4, if_neg c4]
      cases rd16 buf 4 with
      | none => rfl
      | some qc =>
        simp only
        by_cases c5 : qc ≠ 1
        · rw [if_pos c5, if_pos c5]
        rw [if_neg c5, if_neg c5]
        rw [memchr0_agree buf buf2 12 hag _ _ (by unfold sizeof_dns_header_t; omega)]
        cases hm : memchr0 buf sizeof_dns_header_t (len - sizeof_dns_header_t).toNat with
        | oob => rfl
        | nofuel => rfl
        | ret x =>
          cases x with
          | none => rfl
          | some p =>
            have hp := memchr0_ge buf _ _ _ hm
            unfold sizeof_dns_header_t at hp
            simp only
            by_cases c6 : p + 1 - sizeof_dns_header_t < DNS_NAME_ENC_MINLEN
            · rw [if_pos c6, if_pos c6]
            rw [if_neg c6, if_neg c6]
            by_cases c7 : p + 1 - sizeof_dns_header_t > DNS_NAME_ENC_MAXLEN
            · rw [if_pos c7, if_pos c7]
            rw [if_neg c7, if_neg c7]
            have hq : rd16 buf2 (sizeof_dns_header_t + (p + 1 - sizeof_dns_header_t) + 2) =
                rd16 buf (sizeof_dns_header_t + (p + 1 - sizeof_dns_header_t) + 2) :=
              rd16_agree buf buf2 _ (fun x hx _ => hag x (by
                unfold sizeof_dns_header_t at hx; omega))
            rw [hq]
            cases nb with
            | none => rfl
            | some out =>
              simp only
              rw [decode_name_agree buf buf2 12 hag out sizeof_dns_header_t _
                (show (12 : Int) ≤ 12 from le_refl _)]

/-- C16: unchecked header fields do not influence validation. For two buffers of the same
length that agree on bytes 4..5 and from offset 12 on, and whose bytes 2 agree except for
the low 3 bits (aa, tc, rd), `dns_query_check` gives the same outcome (result flag, name
buffer contents and reported name length), and likewise `dns_reply_check`; the bytes
0..1, 3 and 6..11 are free. -/
theorem C16_unchecked_header_fields (buf buf2 : List Nat) (len : Int) (nb : Option (List Nat))
    (pn : Option Int) (hlen2 : buf2.length = buf.length)
    (hsame : ∀ i : Nat, (i = 4 ∨ i = 5 ∨ 12 ≤ i) → buf2[i]? = buf[i]?)
    (hbits : byte buf2 2 / 8 = byte buf 2 / 8) :
    dns_query_check buf2 len nb pn = dns_query_check buf len nb pn ∧
    dns_reply_check buf2 len nb pn = dns_reply_check buf len nb pn := by
  have hag : ∀ x : Int, 12 ≤ x → rd buf2 x = rd buf x := by
    intro x hx
    unfold rd
    rw [if_neg (by omega), if_neg (by omega)]
    exact hsame x.toNat (Or.inr (Or.inr (by omega)))
  have h4 : rd16 buf2 4 = rd16 buf 4 := by
    have a : rd buf2 4 = rd buf 4 := by
      unfold rd
      rw [if_neg (by omega), if_neg (by omega)]
      exact hsame 4 (Or.inl rfl)
    have b : rd buf2 (4 + 1) = rd buf (4 + 1) := by
      unfold rd
      rw [if_neg (by omega), if_neg (by omega)]
      exact hsame 5 (Or.inr (Or.inl rfl))
    unfold rd16
    rw [a, b]
  have h2 : (rd buf2 2).map (fun b => b / 8) = (rd buf 2).map (fun b => b / 8) := by
    by_cases hl : 2 < buf.length
    · rw [rd_int buf 2 (by omega) (by omega), rd_int buf2 2 (by omega) (by omega)]
      simp only [Option.map_some', Option.some.injEq]
      exact hbits
    · have a : rd buf 2 = none := by
        unfold rd
        rw [if_neg (by omega)]
        exact List.getElem?_eq_none (by have : (2 : Int).toNat = 2 := rfl; omega)
      have b : rd buf2 2 = none := by
        unfold rd
        rw [if_neg (by omega)]
        exact List.getElem?_eq_none (by have : (2 : Int).toNat = 2 := rfl; omega)
      rw [a, b]
  exact ⟨check_packet_agree true buf buf2 len nb pn h2 h4 hag,
    check_packet_agree false buf buf2 len nb pn h2 h4 hag⟩

theorem queryPacketOtherHeader_same (i : Nat) (h : i = 4 ∨ i = 5 ∨ 12 ≤ i) :
    queryPacketOtherHeader[i]? = queryPacket[i]? := by
  rcases h with rfl | rfl | h
  · rfl
  · rfl
  · by_cases h32 : i < 32
    · interval_cases i <;> rfl
    · rw [List.getElem?_eq_none (by simp [queryPacketOtherHeader, wwwGoogleCom]; omega),
        List.getElem?_eq_none (by simp [queryPacket, mkHeader, wwwGoogleCom]; omega)]

theorem C16_unchecked_header_fields_witness :
    dns_query_check queryPacketOtherHeader 32 (some (List.replicate 20 0)) (some 0) =
      dns_query_check queryPacket 32 (some (List.replicate 20 0)) (some 0) ∧
    dns_reply_check queryPacketOtherHeader 32 (some (List.replicate 20 0)) (some 0) =
      dns_reply_check queryPacket 32 (some (List.replicate 20 0)) (some 0) :=
  C16_unchecked_header_fields queryPacket queryPacketOtherHeader 32 (some (List.replicate 20 0))
    (some 0) (by decide) queryPacketOtherHeader_same (by decide)

theorem rd_of_drop (buf : List Nat) (ptr x : Nat) (rest : List Nat)
    (h : buf.drop ptr = x :: rest) : rd buf (ptr : Int) = some x := by
  unfold rd
  rw [if_neg (by omega), Int.toNat_ofNat]
  have : (buf.drop ptr)[0]? = some x := by rw [h]; simp
  rw [List.getElem?_drop] at this
  simpa using this

theorem drop_of_rd (buf : List Nat) (ptr b : Nat) (h : rd buf (ptr : Int) = some b) :
    ptr < buf.length ∧ buf.drop ptr = b :: buf.drop (ptr + 1) := by
  unfold rd at h
  rw [if_neg (by omega), Int.toNat_ofNat] at h
  obtain ⟨hlt, he⟩ := List.getElem?_eq_some_iff.mp h
  exact ⟨hlt, by rw [List.drop_eq_getElem_cons hlt, he]⟩

/-- What `skip_loop` returns on a chain of labels ended by a byte that is not a label
length. -/
theorem skip_loop_chain (buf : List Nat) : ∀ (ls : List (List Nat)), ValidLabels ls →
    ∀ (fuel ptr : Nat) (len : Int) (t : Nat) (rest : List Nat),
    buf.drop ptr = encLabels ls ++ t :: rest → (t = 0 ∨ 64 ≤ t) →
    ((encLabels ls).length : Int) < len → len ≤ fuel →
    skip_loop buf fuel (ptr : Int) len =
      if t = 0 then
        (if len - ((encLabels ls).length + 1 : Nat) < 10 then .ret none
         else .ret (some ((ptr : Int) + ((encLabels ls).length + 1 : Nat),
           len - ((encLabels ls).length + 1 : Nat))))
      else if t ≥ 192 then
        (if len - ((encLabels ls).length + 2 : Nat) < 10 then .ret none
         else .ret (some ((ptr : Int) + ((encLabels ls).length + 2 : Nat),
           len - ((encLabels ls).length + 2 : Nat))))
      else .ret none := by
  intro ls
  induction ls with
  | nil =>
    intro _ fuel ptr len t rest hd ht hl hf
    simp only [encLabels, List.nil_append, List.length_nil, Nat.cast_zero] at hd hl
    rcases fuel with _ | fuel
    · simp at hf; omega
    · rw [skip_loop, if_pos (by omega), rd_of_drop buf ptr t rest hd]
      simp only [encLabels, List.length_nil, Nat.zero_add, Nat.cast_one, Nat.cast_ofNat,
        sizeof_dns_record_t, DNS_NAME_PTR_MINVAL, DNS_NAME_LABEL_MAXLEN]
      by_cases t0 : t = 0
      · rw [if_pos t0, if_pos t0]
      · rw [if_neg t0, if_neg t0]
        by_cases t1 : t ≥ 192
        · rw [if_pos t1, if_pos t1]
        · rw [if_neg t1, if_neg t1, if_neg (by omega)]
  | cons l ls ih =>
    intro hv fuel ptr len t rest hd ht hl hf
    have hlv := hv l (List.mem_cons_self _ _)
    have hv' : ValidLabels ls := fun x hx => hv x (List.mem_cons_of_mem _ hx)
    have hlen := encLabels_length_pos l ls
    rcases fuel with _ | fuel
    · simp at hf; omega
    · have hd1 : buf.drop ptr = l.length :: (l ++ encLabels ls ++ t :: rest) := by
        rw [hd]; simp [encLabels]
      rw [skip_loop, if_pos (by omega), rd_of_drop buf ptr l.length _ hd1]
      simp only [sizeof_dns_record_t, DNS_NAME_PTR_MINVAL, DNS_NAME_LABEL_MAXLEN]
      rw [if_neg (by omega), if_neg (by omega), if_pos (by omega)]
      have hd2 : buf.drop (ptr + 1 + l.length) = encLabels ls ++ t :: rest := by
        have : buf.drop (ptr + 1 + l.length) = (buf.drop ptr).drop (1 + l.length) := by
          rw [List.drop_drop]; congr 1; omega
        rw [this, hd1, Nat.add_comm 1, List.drop_succ_cons, List.append_assoc,
          List.drop_left]
      have e1 : (ptr : Int) + (1 + (l.length : Int)) = ((ptr + 1 + l.length : Nat) : Int) := by
        push_cast; ring
      rw [e1, ih hv' fuel (ptr + 1 + l.length) (len - (1 + (l.length : Int))) t rest hd2 ht
        (by omega) (by push_cast at hf; omega)]
      have a1 : len - (1 + (l.length : Int)) - (((encLabels ls).length + 1 : Nat) : Int) =
          len - (((encLabels (l :: ls)).length + 1 : Nat) : Int) := by
        rw [hlen]; push_cast; ring
      have a2 : len - (1 + (l.length : Int)) - (((encLabels ls).length + 2 : Nat) : Int) =
          len - (((encLabels (l :: ls)).length + 2 : Nat) : Int) := by
        rw [hlen]; push_cast; ring
      have b1 : ((ptr + 1 + l.length : Nat) : Int) + (((encLabels ls).length + 1 : Nat) : Int) =
          (ptr : Int) + (((encLabels (l :: ls)).length + 1 : Nat) : Int) := by
        rw [hlen]; push_cast; ring
      have b2 : ((ptr + 1 + l.length : Nat) : Int) + (((encLabels ls).length + 2 : Nat) : Int) =
          (ptr : Int) + (((encLabels (l :: ls)).length + 2 : Nat) : Int) := by
        rw [hlen]; push_cast; ring
      rw [a1, a2, b1, b2]

theorem skip_loop_sound (buf : List Nat) : ∀ (fuel ptr : Nat) (len h l1 : Int),
    skip_loop buf fuel (ptr : Int) len = .ret (some (h, l1)) →
    ∃ c, SkippableName buf ptr len c ∧ h = (ptr : Int) + c ∧ l1 = len - c := by
  intro fuel
  induction fuel with
  | zero =>
    intro ptr len h l1 hs
    have := skip_loop_strict buf 0 _ _ _ _ hs
    obtain ⟨_, i2, i3, _⟩ := skip_loop_inv buf 0 _ _ _ _ hs
    rw [skip_loop] at hs
    by_cases c0 : len > 0
    · rw [if_pos c0] at hs; simp at hs
    · omega
  | succ fuel ih =>
    intro ptr len h l1 hs
    have hstrict := skip_loop_strict buf _ _ _ _ _ hs
    obtain ⟨_, i2, i3, _⟩ := skip_loop_inv buf _ _ _ _ _ hs
    have c0 : len > 0 := by omega
    rw [skip_loop, if_pos c0] at hs
    unfold sizeof_dns_record_t DNS_NAME_PTR_MINVAL DNS_NAME_LABEL_MAXLEN at hs
    cases hb : rd buf (ptr : Int) with
    | none => rw [hb] at hs; simp at hs
    | some b =>
      obtain ⟨hlt, hd⟩ := drop_of_rd buf ptr b hb
      rw [hb] at hs
      simp only at hs
      by_cases b0 : b = 0
      · rw [if_pos b0] at hs
        by_cases c1 : len - 1 < 10
        · rw [if_pos c1] at hs; simp at hs
        · rw [if_neg c1] at hs
          simp only [Outcome.ret.injEq, Option.some.injEq, Prod.mk.injEq] at hs
          refine ⟨1, ⟨[], b, buf.drop (ptr + 1), by intro l hl; simp at hl, by simpa [encLabels] using hd,
            Or.inl b0, by simp [encLabels, b0], by simp [encLabels]; omega, by push_cast; omega⟩,
            by push_cast; omega, by push_cast; omega⟩
      · rw [if_neg b0] at hs
        by_cases b1 : b ≥ 192
        · rw [if_pos b1] at hs
          by_cases c1 : len - 2 < 10
          · rw [if_pos c1] at hs; simp at hs
          · rw [if_neg c1] at hs
            simp only [Outcome.ret.injEq, Option.some.injEq, Prod.mk.injEq] at hs
            refine ⟨2, ⟨[], b, buf.drop (ptr + 1), by intro l hl; simp at hl,
              by simpa [encLabels] using hd, Or.inr b1, by simp [encLabels, b0],
              by simp [encLabels]; omega, by push_cast; omega⟩,
              by push_cast; omega, by push_cast; omega⟩
        · rw [if_neg b1] at hs
          by_cases b2 : b ≤ 63
          · rw [if_pos b2] at hs
            have e1 : (ptr : Int) + (1 + (b : Int)) = ((ptr + 1 + b : Nat) : Int) := by
              push_cast; ring
            rw [e1] at hs
            obtain ⟨c, ⟨ls, t, rest, hv, hdr, ht, hc, hin, hrem⟩, hh, hl1⟩ := ih _ _ _ _ hs
            have hne : ptr + 1 + b < buf.length := by
              by_contra hcon
              rw [List.drop_of_length_le (by omega)] at hdr
              cases ls <;> simp [encLabels] at hdr
            have hsl := slice_length buf (ptr + 1) b (by omega)
            have hdd : buf.drop (ptr + 1) = slice buf (ptr + 1) b ++ buf.drop (ptr + 1 + b) := by
              unfold slice
              rw [← List.drop_drop b (ptr + 1) buf]
              exact (List.take_append_drop b _).symm
            refine ⟨1 + b + c, ⟨slice buf (ptr + 1) b :: ls, t, rest, ?_, ?_, ht, ?_, ?_, ?_⟩, ?_, ?_⟩
            · intro l hl
              rcases List.mem_cons.mp hl with rfl | hl
              · rw [hsl]; omega
              · exact hv l hl
            · rw [hd, hdd, hdr]
              simp [encLabels, hsl]
            · rw [encLabels_length_pos, hsl, hc]; omega
            · rw [encLabels_length_pos, hsl]; push_cast; omega
            · push_cast; omega
            · rw [hh]; push_cast; ring
            · rw [hl1]; push_cast; ring
          · rw [if_neg b2] at hs; simp at hs

/-- C17: the name skipper. `skip_name` succeeds exactly on a skippable name (labels with
length byte 1..63, then a zero byte or a byte of at least 192, length bytes inspected
below `len`, and at least 10 bytes left after the `c` consumed), and then the cursor
becomes `(ptr + c, len - c)`. A name starting with a byte of at least 192 consumes
exactly 2 bytes; a length byte in 64..191 is rejected. -/
theorem C17_skip_name (buf : List Nat) (ptr : Nat) (len : Int) :
    (∀ h l1 : Int, skip_name buf (ptr : Int) len = .ret (some (h, l1)) ↔
      ∃ c, SkippableName buf ptr len c ∧ h = (ptr : Int) + c ∧ l1 = len - c) ∧
    (∀ (b : Nat) (rest : List Nat), buf.drop ptr = b :: rest → b ≥ 192 → len - 2 ≥ 10 →
      skip_name buf (ptr : Int) len = .ret (some ((ptr : Int) + 2, len - 2))) ∧
    (∀ (ls : List (List Nat)) (b : Nat) (rest : List Nat), ValidLabels ls →
      buf.drop ptr = encLabels ls ++ b :: rest → 64 ≤ b → b ≤ 191 →
      ((encLabels ls).length : Int) < len → skip_name buf (ptr : Int) len = .ret none) := by
  refine ⟨?_, ?_, ?_⟩
  · intro h l1
    constructor
    · intro hs
      exact skip_loop_sound buf _ ptr len h l1 hs
    · rintro ⟨c, ⟨ls, t, rest, hv, hd, ht, hc, hin, hrem⟩, hh, hl1⟩
      unfold skip_name
      rw [skip_loop_chain buf ls hv len.toNat ptr len t rest hd (by omega) hin (by omega)]
      rcases ht with t0 | t192
      · rw [if_pos t0] at hc
        rw [if_pos t0, if_neg (by rw [← hc]; omega), ← hc, hh, hl1]
      · have t0 : t ≠ 0 := by omega
        rw [if_neg t0] at hc
        rw [if_neg t0, if_pos t192, if_neg (by rw [← hc]; omega), ← hc, hh, hl1]
  · intro b rest hd hb hlen
    unfold skip_name
    rw [skip_loop_chain buf [] (by intro l hl; simp at hl) len.toNat ptr len b rest
      (by simpa [encLabels] using hd) (by omega) (by simp [encLabels]; omega) (by omega)]
    rw [if_neg (by omega), if_pos hb]
    simp only [encLabels, List.length_nil, Nat.zero_add, Nat.cast_ofNat]
    rw [if_neg (by omega)]
  · intro ls b rest hv hd h64 h191 hin
    unfold skip_name
    rw [skip_loop_chain buf ls hv len.toNat ptr len b rest hd (by omega) hin (by omega)]
    rw [if_neg (by omega), if_neg (by omega)]

theorem C17_skip_name_witness :
    skip_name replyPacket ((32 : Nat) : Int) 30 = .ret (some (((32 : Nat) : Int) + 2, 30 - 2)) :=
  (C17_skip_name replyPacket 32 30).2.1 0xC0 (replyPacket.drop 33) (by decide) (by decide)
    (by decide)

theorem decode_loop_log_erase (buf : List Nat) : ∀ (fuel : Nat) (first : Bool)
    (out : List Nat) (o src len : Int),
    decode_loop buf fuel first out o src len =
      (decode_loop_log buf fuel first out o src len).map Prod.fst := by
  intro fuel
  induction fuel with
  | zero =>
    intro first out o src len
    rw [decode_loop, decode_loop_log]
    by_cases h2 : len ≥ 2
    · rw [if_pos h2, if_pos h2]; rfl
    · rw [if_neg h2, if_neg h2]
      by_cases h0 : len ≠ 0
      · rw [if_pos h0, if_pos h0]; rfl
      · rw [if_neg h0, if_neg h0]; rfl
  | succ fuel ih =>
    intro first out o src len
    rw [decode_loop, decode_loop_log]
    by_cases h2 : len ≥ 2
    · rw [if_pos h2, if_pos h2]
      cases (if first = true then some (out, o)
          else (wr out o 46).map (fun w => (w, o + 1))) with
      | none => rfl
      | some x =>
        obtain ⟨out1, o1⟩ := x
        simp only
        cases rd buf src with
        | none => rfl
        | some b =>
          simp only
          by_cases c1 : b < 1
          · rw [if_pos c1, if_pos c1]; rfl
          rw [if_neg c1, if_neg c1]
          by_cases c2 : b > DNS_NAME_LABEL_MAXLEN
          · rw [if_pos c2, if_pos c2]; rfl
          rw [if_neg c2, if_neg c2]
          by_cases c3 : (b : Int) > len - 1
          · rw [if_pos c3, if_pos c3]; rfl
          rw [if_neg c3, if_neg c3]
          exact ih _ _ _ _ _
    · rw [if_neg h2, if_neg h2]
      by_cases h0 : len ≠ 0
      · rw [if_pos h0, if_pos h0]; rfl
      · rw [if_neg h0, if_neg h0]; rfl

theorem decode_name_log_erase (out buf : List Nat) (src len : Int) :
    decode_name out buf src len = (decode_name_log out buf src len).map Prod.fst := by
  unfold decode_name decode_name_log
  by_cases h : len ≤ DNS_NAME_ENC_MINLEN
  · rw [if_pos h, if_pos h]
    cases wr out 0 46 with
    | none => rfl
    | some out1 =>
      simp only
      cases wr out1 1 0 with
      | none => rfl
      | some out2 => rfl
  · rw [if_neg h, if_neg h]
    simp only
    cases memcpy out 0 buf (src + 1) (len - 1).toNat with
    | none => rfl
    | some out1 => exact decode_loop_log_erase buf _ _ _ _ _ _

theorem memchr0_some (buf : List Nat) : ∀ (n : Nat) (s p : Int),
    memchr0 buf s n = .ret (some p) →
    s ≤ p ∧ ∀ x : Int, s ≤ x → x < p → rd buf x ≠ some 0 := by
  intro n
  induction n with
  | zero => intro s p h; simp [memchr0] at h
  | succ n ih =>
    intro s p h
    rw [memchr0] at h
    cases hb : rd buf s with
    | none => rw [hb] at h; simp at h
    | some b =>
      rw [hb] at h
      simp only at h
      by_cases b0 : b = 0
      · rw [if_pos b0] at h
        simp only [Outcome.ret.injEq, Option.some.injEq] at h
        subst h
        exact ⟨le_refl _, fun x h1 h2 => by omega⟩
      · rw [if_neg b0] at h
        obtain ⟨h1, h2⟩ := ih _ _ h
        refine ⟨by omega, ?_⟩
        intro x hx1 hx2
        by_cases hxs : x = s
        · subst hxs
          rw [hb]
          simpa using b0
        · exact h2 x (by omega) hx2

/-- On a range without zero byte the decoder loop never logs a too short label. -/
theorem decode_loop_log_reasons (buf : List Nat) : ∀ (fuel : Nat) (first : Bool)
    (out : List Nat) (o src len : Int) (ok : Bool) (out1 : List Nat) (e : Option LogMsg),
    (∀ x : Int, src ≤ x → x < src + len → rd buf x ≠ some 0) →
    decode_loop_log buf fuel first out o src len = .ret ((ok, out1), e) →
    (ok = true → e = none) ∧
    (ok = false → e = some .label_too_long ∨ e = some .label_exceeds_remaining ∨
      e = some .name_format_error) := by
  intro fuel
  induction fuel with
  | zero =>
    intro first out o src len ok out1 e _ h
    rw [decode_loop_log] at h
    by_cases h2 : len ≥ 2
    · rw [if_pos h2] at h; simp at h
    rw [if_neg h2] at h
    by_cases h0 : len ≠ 0
    · rw [if_pos h0] at h
      simp only [Outcome.ret.injEq, Prod.mk.injEq] at h
      obtain ⟨⟨rfl, _⟩, rfl⟩ := h
      simp
    · rw [if_neg h0] at h
      simp only [Outcome.ret.injEq, Prod.mk.injEq] at h
      obtain ⟨⟨rfl, _⟩, rfl⟩ := h
      simp
  | succ fuel ih =>
    intro first out o src len ok out1 e hnz h
    rw [decode_loop_log] at h
    by_cases h2 : len ≥ 2
    · rw [if_pos h2] at h
      cases hw : (if first = true then some (out, o)
          else (wr out o 46).map (fun w => (w, o + 1))) with
      | none => rw [hw] at h; simp at h
      | some x =>
        obtain ⟨out2, o2⟩ := x
        rw [hw] at h
        simp only at h
        cases hb : rd buf src with
        | none => rw [hb] at h; simp at h
        | some b =>
          rw [hb] at h
          simp only at h
          have hb0 : ¬ (b < 1) := by
            intro hlt
            have : b = 0 := by omega
            subst this
            exact hnz src (le_refl _) (by omega) hb
          rw [if_neg hb0] at h
          by_cases c2 : b > DNS_NAME_LABEL_MAXLEN
          · rw [if_pos c2] at h
            simp only [Outcome.ret.injEq, Prod.mk.injEq] at h
            obtain ⟨⟨rfl, _⟩, rfl⟩ := h
            simp
          rw [if_neg c2] at h
          by_cases c3 : (b : Int) > len - 1
          · rw [if_pos c3] at h
            simp only [Outcome.ret.injEq, Prod.mk.injEq] at h
            obtain ⟨⟨rfl, _⟩, rfl⟩ := h
            simp
          rw [if_neg c3] at h
          exact ih _ _ _ _ _ _ _ _ (fun x h1 h2 => hnz x (by omega) (by omega)) h
    · rw [if_neg h2] at h
      by_cases h0 : len ≠ 0
      · rw [if_pos h0] at h
        simp only [Outcome.ret.injEq, Prod.mk.injEq] at h
        obtain ⟨⟨rfl, _⟩, rfl⟩ := h
        simp
      · rw [if_neg h0] at h
        simp only [Outcome.ret.injEq, Prod.mk.injEq] at h
        obtain ⟨⟨rfl, _⟩, rfl⟩ := h
        simp

theorem decode_name_log_reasons (buf : List Nat) (out : List Nat) (src len : Int) (ok : Bool)
    (out1 : List Nat) (e : Option LogMsg)
    (hnz : ∀ x : Int, src ≤ x → x < src + (len - 1) → rd buf x ≠ some 0)
    (h : decode_name_log out buf src len = .ret ((ok, out1), e)) :
    (ok = true → e = none) ∧
    (ok = false → e = some .label_too_long ∨ e = some .label_exceeds_remaining ∨
      e = some .name_format_error) := by
  unfold decode_name_log at h
  by_cases hl : len ≤ DNS_NAME_ENC_MINLEN
  · rw [if_pos hl] at h
    cases hw : wr out 0 46 with
    | none => rw [hw] at h; simp at h
    | some o1 =>
      rw [hw] at h
      simp only at h
      cases hw2 : wr o1 1 0 with
      | none => rw [hw2] at h; simp at h
      | some o2 =>
        rw [hw2] at h
        simp only [Outcome.ret.injEq, Prod.mk.injEq] at h
        obtain ⟨⟨rfl, _⟩, rfl⟩ := h
        simp
  · rw [if_neg hl] at h
    simp only at h
    cases hm : memcpy out 0 buf (src + 1) (len - 1).toNat with
    | none => rw [hm] at h; simp at h
    | some o1 =>
      rw [hm] at h
      exact decode_loop_log_reasons buf _ _ _ _ _ _ _ _ _ hnz h

theorem check_packet_log_erase (q : Bool) (buf : List Nat) (len : Int)
    (nb : Option (List Nat)) (pn : Option Int) :
    check_packet q buf len nb pn = (check_packet_log q buf len nb pn).map Prod.fst := by
  unfold check_packet check_packet_log
  by_cases c1 : len < DNS_PACKET_MINSIZE
  · rw [if_pos c1, if_pos c1]; rfl
  rw [if_neg c1, if_neg c1]
  by_cases c2 : len > DNS_PACKET_MAXSIZE
  · rw [if_pos c2, if_pos c2]; rfl
  rw [if_neg c2, if_neg c2]
  cases rd buf 2 with
  | none => rfl
  | some b =>
    simp only
    by_cases c3 : hdr_qr b ≠ (if q = true then DNS_QR_QUERY else DNS_QR_REPLY)
    · rw [if_pos c3, if_pos c3]; rfl
    rw [if_neg c3, if_neg c3]
    by_cases c4 : hdr_opcode b ≠ DNS_OPCODE_QUERY
    · rw [if_pos c4, if_pos c4]; rfl
    rw [if_neg c4, if_neg c4]
    cases rd16 buf 4 with
    | none => rfl
    | some qc =>
      simp only
      by_cases c5 : qc ≠ 1
      · rw [if_pos c5, if_pos c5]; rfl
      rw [if_neg c5, if_neg c5]
      cases memchr0 buf sizeof_dns_header_t (len - sizeof_dns_header_t).toNat with
      | oob => rfl
      | nofuel => rfl
      | ret x =>
        cases x with
        | none => rfl
        | some p =>
          simp only
          by_cases c6 : p + 1 - sizeof_dns_header_t < DNS_NAME_ENC_MINLEN
          · rw [if_pos c6, if_pos c6]; rfl
          rw [if_neg c6, if_neg c6]
          by_cases c7 : p + 1 - sizeof_dns_header_t > DNS_NAME_ENC_MAXLEN
          · rw [if_pos c7, if_pos c7]; rfl
          rw [if_neg c7, if_neg c7]
          have tail : ∀ nb1 : Option (List Nat),
              (if len - sizeof_dns_header_t - (p + 1 - sizeof_dns_header_t) < sizeof_dns_query_t
                then Outcome.ret (⟨false, nb1,
                  pn.map (fun _ => p + 1 - sizeof_dns_header_t)⟩ : Ret)
                else
                  match rd16 buf (sizeof_dns_header_t + (p + 1 - sizeof_dns_header_t) + 2) with
                  | none => Outcome.oob
                  | some qclass =>
                    if qclass ≠ DNS_CLASS_INTERNET then
                      Outcome.ret ⟨false, nb1, pn.map (fun _ => p + 1 - sizeof_dns_header_t)⟩
                    else Outcome.ret ⟨true, nb1, pn.map (fun _ => p + 1 - sizeof_dns_header_t)⟩) =
              (if len - sizeof_dns_header_t - (p + 1 - sizeof_dns_header_t) < sizeof_dns_query_t
                then Outcome.ret ((⟨false, nb1,
                  pn.map (fun _ => p + 1 - sizeof_dns_header_t)⟩ : Ret),
                  some LogMsg.remaining_too_short)
                else
                  match rd16 buf (sizeof_dns_header_t + (p + 1 - sizeof_dns_header_t) + 2) with
                  | none => Outcome.oob
                  | some qclass =>
                    if qclass ≠ DNS_CLASS_INTERNET then
                      Outcome.ret (⟨false, nb1, pn.map (fun _ => p + 1 - sizeof_dns_header_t)⟩,
                        some LogMsg.wrong_query_class)
                    else Outcome.ret (⟨true, nb1,
                      pn.map (fun _ => p + 1 - sizeof_dns_header_t)⟩, none)).map Prod.fst := by
            intro nb1
            by_cases c8 : len - sizeof_dns_header_t - (p + 1 - sizeof_dns_header_t) <
                sizeof_dns_query_t
            · rw [if_pos c8, if_pos c8]; rfl
            rw [if_neg c8, if_neg c8]
            cases rd16 buf (sizeof_dns_header_t + (p + 1 - sizeof_dns_header_t) + 2) with
            | none => rfl
            | some qclass =>
              simp only
              by_cases c9 : qclass ≠ DNS_CLASS_INTERNET
              · rw [if_pos c9, if_pos c9]; rfl
              · rw [if_neg c9, if_neg c9]; rfl
          cases nb with
          | none => exact tail none
          | some out =>
            simp only
            rw [decode_name_log_erase]
            cases decode_name_log out buf sizeof_dns_header_t (p + 1 - sizeof_dns_header_t) with
            | oob => rfl
            | nofuel => rfl
            | ret x =>
              obtain ⟨⟨ok, out1⟩, msg⟩ := x
              cases ok with
              | false => rfl
              | true => exact tail (some out1)

/-- The two messages the validator can never log. -/
theorem check_packet_log_reasons (q : Bool) (buf : List Nat) (len : Int)
    (nb : Option (List Nat)) (pn : Option Int) (r : Ret) (e : Option LogMsg)
    (h : check_packet_log q buf len nb pn = .ret (r, e)) :
    e ≠ some .name_too_short ∧ e ≠ some .label_too_short := by
  unfold check_packet_log at h
  by_cases c1 : len < DNS_PACKET_MINSIZE
  · rw [if_pos c1] at h
    simp only [Outcome.ret.injEq, Prod.mk.injEq] at h
    obtain ⟨_, rfl⟩ := h
    simp
  rw [if_neg c1] at h
  by_cases c2 : len > DNS_PACKET_MAXSIZE
  · rw [if_pos c2] at h
    simp only [Outcome.ret.injEq, Prod.mk.injEq] at h
    obtain ⟨_, rfl⟩ := h
    simp
  rw [if_neg c2] at h
  cases hb : rd buf 2 with
  | none => rw [hb] at h; simp at h
  | some b =>
    rw [hb] at h
    simp only at h
    by_cases c3 : hdr_qr b ≠ (if q = true then DNS_QR_QUERY else DNS_QR_REPLY)
    · rw [if_pos c3] at h
      simp only [Outcome.ret.injEq, Prod.mk.injEq] at h
      obtain ⟨_, rfl⟩ := h
      simp
    rw [if_neg c3] at h
    by_cases c4 : hdr_opcode b ≠ DNS_OPCODE_QUERY
    · rw [if_pos c4] at h
      simp only [Outcome.ret.injEq, Prod.mk.injEq] at h
      obtain ⟨_, rfl⟩ := h
      simp
    rw [if_neg c4] at h
    cases hq : rd16 buf 4 with
    | none => rw [hq] at h; simp at h
    | some qc =>
      rw [hq] at h
      simp only at h
      by_cases c5 : qc ≠ 1
      · rw [if_pos c5] at h
        simp only [Outcome.ret.injEq, Prod.mk.injEq] at h
        obtain ⟨_, rfl⟩ := h
        simp
      rw [if_neg c5] at h
      cases hm : memchr0 buf sizeof_dns_header_t (len - sizeof_dns_header_t).toNat with
      | oob => rw [hm] at h; simp at h
      | nofuel => rw [hm] at h; simp at h
      | ret x =>
        rw [hm] at h
        cases x with
        | none =>
          simp only [Outcome.ret.injEq, Prod.mk.injEq] at h
          obtain ⟨_, rfl⟩ := h
          simp
        | some p =>
          obtain ⟨hp, hnz⟩ := memchr0_some buf _ _ _ hm
          simp only at h
          have c6 : ¬ (p + 1 - sizeof_dns_header_t < DNS_NAME_ENC_MINLEN) := by
            unfold DNS_NAME_ENC_MINLEN; omega
          rw [if_neg c6] at h
          by_cases c7 : p + 1 - sizeof_dns_header_t > DNS_NAME_ENC_MAXLEN
          · rw [if_pos c7] at h
            simp only [Outcome.ret.injEq, Prod.mk.injEq] at h
            obtain ⟨_, rfl⟩ := h
            simp
          rw [if_neg c7] at h
          have tail : ∀ nb1 : Option (List Nat),
              (if len - sizeof_dns_header_t - (p + 1 - sizeof_dns_header_t) < sizeof_dns_query_t
                then Outcome.ret ((⟨false, nb1,
                  pn.map (fun _ => p + 1 - sizeof_dns_header_t)⟩ : Ret),
                  some LogMsg.remaining_too_short)
                else
                  match rd16 buf (sizeof_dns_header_t + (p + 1 - sizeof_dns_header_t) + 2) with
                  | none => Outcome.oob
                  | some qclass =>
                    if qclass ≠ DNS_CLASS_INTERNET then
                      Outcome.ret (⟨false, nb1, pn.map (fun _ => p + 1 - sizeof_dns_header_t)⟩,
                        some LogMsg.wrong_query_class)
                    else Outcome.ret (⟨true, nb1,
                      pn.map (fun _ => p + 1 - sizeof_dns_header_t)⟩, none)) = .ret (r, e) →
              e ≠ some .name_too_short ∧ e ≠ some .label_too_short := by
            intro nb1 ht
            by_cases c8 : len - sizeof_dns_header_t - (p + 1 - sizeof_dns_header_t) <
                sizeof_dns_query_t
            · rw [if_pos c8] at ht
              simp only [Outcome.ret.injEq, Prod.mk.injEq] at ht
              obtain ⟨_, rfl⟩ := ht
              simp
            rw [if_neg c8] at ht
            cases hc : rd16 buf (sizeof_dns_header_t + (p + 1 - sizeof_dns_header_t) + 2) with
            | none => rw [hc] at ht; simp at ht
            | some qclass =>
              rw [hc] at ht
              simp only at ht
              by_cases c9 : qclass ≠ DNS_CLASS_INTERNET
              · rw [if_pos c9] at ht
                simp only [Outcome.ret.injEq, Prod.mk.injEq] at ht
                obtain ⟨_, rfl⟩ := ht
                simp
              · rw [if_neg c9] at ht
                simp only [Outcome.ret.injEq, Prod.mk.injEq] at ht
                obtain ⟨_, rfl⟩ := ht
                simp
          cases nb with
          | none => exact tail none h
          | some out =>
            simp only at h
            cases hd : decode_name_log out buf sizeof_dns_header_t
                (p + 1 - sizeof_dns_header_t) with
            | oob => rw [hd] at h; simp at h
            | nofuel => rw [hd] at h; simp at h
            | ret x =>
              obtain ⟨⟨ok, out1⟩, msg⟩ := x
              rw [hd] at h
              cases ok with
              | false =>
                simp only [Outcome.ret.injEq, Prod.mk.injEq] at h
                obtain ⟨_, rfl⟩ := h
                obtain ⟨_, hf⟩ := decode_name_log_reasons buf out _ _ false out1 msg
                  (fun x h1 h2 => hnz x h1 (by omega)) hd
                rcases hf rfl with rfl | rfl | rfl <;> simp
              | true => exact tail (some out1) h

/-- C20: two error branches are unreachable from the validator. `check_packet_log` is
`check_packet` together with the message it logs; for every buffer and length
`dns_query_check` and `dns_reply_check` never log "encoded name too short" nor the
decoder's "label length too short", so a message of the decoder reached through the
validator is "label too long", "label greater than remaining length" or "name format
error". -/
theorem C20_unreachable_error_branches (buf : List Nat) (len : Int) (nb : Option (List Nat))
    (pn : Option Int) :
    dns_query_check buf len nb pn = (check_packet_log true buf len nb pn).map Prod.fst ∧
    dns_reply_check buf len nb pn = (check_packet_log false buf len nb pn).map Prod.fst ∧
    ∀ (q : Bool) (r : Ret) (e : Option LogMsg),
      check_packet_log q buf len nb pn = .ret (r, e) →
      e ≠ some .name_too_short ∧ e ≠ some .label_too_short ∧
      ∀ m, e = some m → m.fromDecoder = true →
        m = .label_too_long ∨ m = .label_exceeds_remaining ∨ m = .name_format_error := by
  refine ⟨check_packet_log_erase true buf len nb pn, check_packet_log_erase false buf len nb pn, ?_⟩
  intro q r e h
  obtain ⟨h1, h2⟩ := check_packet_log_reasons q buf len nb pn r e h
  refine ⟨h1, h2, ?_⟩
  intro m hm hdec
  subst hm
  cases m <;> simp [LogMsg.fromDecoder] at hdec h2 ⊢

theorem C20_unreachable_error_branches_witness :
    ∀ (r : Ret) (e : Option LogMsg),
      check_packet_log true badLabelQuery 19 (some (List.replicate 8 0)) none = .ret (r, e) →
      e ≠ some .name_too_short ∧ e ≠ some .label_too_short ∧
      ∀ m, e = some m → m.fromDecoder = true →
        m = .label_too_long ∨ m = .label_exceeds_remaining ∨ m = .name_format_error :=
  fun r e h =>
    (C20_unreachable_error_branches badLabelQuery 19 (some (List.replicate 8 0)) none).2.2
      true r e h

/-- The other decoder messages are reachable: the name starting with length byte 64 is
rejected with "label length is too long". -/
theorem badLabelQuery_logs_label_too_long :
    check_packet_log true badLabelQuery 19 (some (List.replicate 8 0)) none =
      .ret (⟨false, some [97, 0, 0, 0, 0, 0, 0, 0], none⟩, some .label_too_long) := by
  decide

theorem skip_name_of_skippable (buf : List Nat) (ptr : Nat) (len : Int) (c : Nat)
    (h : SkippableName buf ptr len c) :
    skip_name buf (ptr : Int) len = .ret (some ((ptr : Int) + c, len - c)) := by
  obtain ⟨ls, t, rest, hv, hd, ht, hc, hin, hrem⟩ := h
  unfold skip_name
  rw [skip_loop_chain buf ls hv len.toNat ptr len t rest hd (by omega) hin (by omega)]
  rcases ht with t0 | t192
  · rw [if_pos t0] at hc
    rw [if_pos t0, if_neg (by rw [← hc]; omega), ← hc]
  · have t0 : t ≠ 0 := by omega
    rw [if_neg t0] at hc
    rw [if_neg t0, if_pos t192, if_neg (by rw [← hc]; omega), ← hc]

/-- Inside the buffer, the record walk of the code and the byte-level description of
skippable records agree. -/
theorem skippable_records_iff (buf : List Nat) : ∀ (j ptr : Nat) (len : Int),
    (ptr : Int) + len ≤ buf.length →
    (SkippableRecords buf j ptr len ↔ ∃ p l, after_records buf j (ptr : Int) len = some (p, l)) := by
  intro j
  induction j with
  | zero =>
    intro ptr len _
    simp [SkippableRecords, after_records]
  | succ j ih =>
    intro ptr len hb
    constructor
    · rintro ⟨c, hsk, hcl, ht1, ht28, hin, hrest⟩
      have hs := skip_name_of_skippable buf ptr len c hsk
      have hrem : len - (c : Int) ≥ 10 := by
        obtain ⟨_, _, _, _, _, _, _, _, h⟩ := hsk
        exact h
      have e0 : (ptr : Int) + c = ((ptr + c : Nat) : Int) := by push_cast; rfl
      have hrec : record_at buf (ptr : Int) len =
          some ((ptr : Int) + c, len - c, be16 buf (ptr + c), be16 buf (ptr + c + 2),
            be16 buf (ptr + c + 8)) := by
        apply record_at_of buf _ _ _ _ _ _ _ hs
        · rw [e0, rd16_int buf _ (by omega) (by omega), Int.toNat_ofNat]
        · have : ((ptr : Int) + c + 2).toNat = ptr + c + 2 := by omega
          rw [rd16_int buf _ (by omega) (by omega), this]
        · have : ((ptr : Int) + c + 8).toNat = ptr + c + 8 := by omega
          rw [rd16_int buf _ (by omega) (by omega), this]
      rw [after_records, hrec]
      simp only
      rw [if_pos ⟨hcl, ht1, ht28, hin⟩]
      have e1 : (ptr : Int) + c + (10 + (be16 buf (ptr + c + 8) : Int)) =
          ((ptr + c + (10 + be16 buf (ptr + c + 8)) : Nat) : Int) := by push_cast; ring
      rw [e1]
      exact (ih _ _ (by push_cast; omega)).mp hrest
    · rintro ⟨p, l, ha⟩
      rw [after_records] at ha
      cases hr : record_at buf (ptr : Int) len with
      | none => rw [hr] at ha; simp at ha
      | some x =>
        obtain ⟨h1, l1, t, c, d⟩ := x
        rw [hr] at ha
        simp only at ha
        by_cases hc : c = 1 ∧ t ≠ 1 ∧ t ≠ 28 ∧ (10 + d : Int) ≤ l1
        · rw [if_pos hc] at ha
          obtain ⟨c1, c2, c3, c4⟩ := hc
          obtain ⟨hs, ht, hcl, hd⟩ := record_at_inv buf _ _ _ _ _ _ _ hr
          obtain ⟨cn, hsk, hh, hl1⟩ := skip_loop_sound buf _ ptr len h1 l1 hs
          obtain ⟨_, _, b3⟩ := record_at_bounds buf _ _ _ _ _ _ _ hr
          subst hh hl1
          have e0 : (ptr : Int) + cn = ((ptr + cn : Nat) : Int) := by push_cast; rfl
          have ht' : t = be16 buf (ptr + cn) := by
            rw [e0, rd16_int buf _ (by omega) (by omega), Int.toNat_ofNat] at ht
            exact (Option.some.inj ht).symm
          have hcl' : c = be16 buf (ptr + cn + 2) := by
            have : ((ptr : Int) + cn + 2).toNat = ptr + cn + 2 := by omega
            rw [rd16_int buf _ (by omega) (by omega), this] at hcl
            exact (Option.some.inj hcl).symm
          have hd' : d = be16 buf (ptr + cn + 8) := by
            have : ((ptr : Int) + cn + 8).toNat = ptr + cn + 8 := by omega
            rw [rd16_int buf _ (by omega) (by omega), this] at hd
            exact (Option.some.inj hd).symm
          subst ht' hcl' hd'
          have e1 : (ptr : Int) + cn + (10 + (be16 buf (ptr + cn + 8) : Int)) =
              ((ptr + cn + (10 + be16 buf (ptr + cn + 8)) : Nat) : Int) := by push_cast; ring
          rw [e1] at ha
          exact ⟨cn, hsk, c1, c2, c3, c4, (ih _ _ (by push_cast; omega)).mpr ⟨p, l, ha⟩⟩
        · rw [if_neg hc] at ha; simp at ha

/-- C14: on an accepted reply with reported name length `n`, `dns_chnip_check` returns
NOT_FOUND if and only if each of the first answer-count records, read on the bytes of the
buffer from offset `12 + n + 4`, has a skippable name, class 1, `10 + rdatalen` bytes
inside the remaining length and a type other than A (1) and AAAA (28); in particular it
returns NOT_FOUND for every reply whose answer count is 0. -/
theorem C14_not_found_iff (P : List Nat → Bool → Bool) (buf : List Nat) (len n : Int)
    (nb : Option (List Nat)) (pn : Option Int) (r : Ret) (hlen : len ≤ buf.length)
    (hreply : dns_reply_check buf len nb pn = .ret r) (hok : r.ok = true)
    (hn : r.p_namelen = some n) :
    (dns_chnip_check P buf len n = .ret DNS_IPCHK_NOT_FOUND ↔
      SkippableRecords buf (be16 buf 6) (12 + n + 4).toNat (len - (12 + n + 4))) ∧
    (be16 buf 6 = 0 → dns_chnip_check P buf len n = .ret DNS_IPCHK_NOT_FOUND) := by
  obtain ⟨h1, _, h16, _, e⟩ :=
    chnip_check_accepted P false buf len n nb pn r hlen hreply hok hn
  have ep : (12 + n + 4 : Int) = (((12 + n + 4).toNat : Nat) : Int) := by omega
  have hsk := skippable_records_iff buf (be16 buf 6) (12 + n + 4).toNat (len - (12 + n + 4))
    (by omega)
  rw [← ep] at hsk
  have hiff : dns_chnip_check P buf len n = .ret DNS_IPCHK_NOT_FOUND ↔
      SkippableRecords buf (be16 buf 6) (12 + n + 4).toNat (len - (12 + n + 4)) := by
    rw [e, hsk]
    constructor
    · intro h
      exact chnip_loop_not_found P buf _ _ _ h
    · rintro ⟨p1, l1, ha⟩
      obtain ⟨_, _, i3, _⟩ := after_records_inv buf _ _ _ p1 l1 ha
      have := i3 P 0
      rw [Nat.add_zero] at this
      rw [this]
      rfl
  refine ⟨hiff, ?_⟩
  intro h0
  rw [hiff, h0]
  trivial

/-- The CNAME record of `cnameReply`, read on its bytes: a 2-byte compression pointer, class
1, type 5, and 12 bytes inside the 14 that remain. -/
theorem cnameReply_skippable :
    SkippableRecords cnameReply (be16 cnameReply 6) ((12 + 16 + 4 : Int)).toNat
      (46 - (12 + 16 + 4)) := by
  show SkippableRecords cnameReply 1 32 14
  refine ⟨2, ⟨[], 0xC0, cnameReply.drop 33, ?_, by decide, Or.inr (by decide), by decide,
    by decide, by decide⟩, by decide, by decide, by decide, by decide, trivial⟩
  intro l hl
  simp at hl

/-- The A record of `replyPacket` is not a skippable record: the second of its two answers
has type 1. -/
theorem replyPacket_not_skippable : ¬ SkippableRecords replyPacket 2 32 30 := by
  intro h
  have hb : ((32 : Nat) : Int) + 30 ≤ (replyPacket.length : Int) := by decide
  obtain ⟨p, l, ha⟩ := (skippable_records_iff replyPacket 2 32 30 hb).mp h
  have : after_records replyPacket 2 ((32 : Nat) : Int) 30 = none := by decide
  rw [this] at ha
  simp at ha

theorem C14_not_found_iff_witness :
    dns_chnip_check testIpset cnameReply 46 16 = .ret DNS_IPCHK_NOT_FOUND ∧
    dns_chnip_check testIpset emptyReply 32 16 = .ret DNS_IPCHK_NOT_FOUND ∧
    dns_chnip_check testIpset replyPacket 62 16 ≠ .ret DNS_IPCHK_NOT_FOUND :=
  ⟨(C14_not_found_iff testIpset cnameReply 46 16 none (some 0) ⟨true, none, some 16⟩
      (by decide) (by decide) rfl rfl).1.mpr cnameReply_skippable,
   (C14_not_found_iff testIpset emptyReply 32 16 none (some 0) ⟨true, none, some 16⟩
      (by decide) (by decide) rfl rfl).2 (by decide),
   fun h => replyPacket_not_skippable
     ((C14_not_found_iff testIpset replyPacket 62 16 none (some 0) ⟨true, none, some 16⟩
      (by decide) (by decide) rfl rfl).1.mp h)⟩

end Dns
